import Mathlib

/-!
csdiff: the defect-report parser of `src/csparser.cc`.

A shallow embedding of the recursive-descent parser that turns the token
stream of a Coverity-style defect report into `Defect` records, together
with the key-event heuristic, followed by the properties proved about it.

Conventions of the embedding:

* a C string (`char *`, `std::string`) is a `List Char`: the characters
  before the terminating NUL;
* the flex scanner is an external token source.  What it will still
  deliver is a `List Tok`; after the list is exhausted it delivers `T_NULL`
  for ever.  Every `Tok` carries the kind `yylex()` returns, the text
  `YYText()` returns afterwards, and whether `LexerError` was called while
  that token was being scanned;
* a C++ function that returns `bool` but may also leave by an exception
  returns an `Outcome`;
* the diagnostics written to `std::cerr` are not modelled.
-/

set_option autoImplicit false

namespace CsParser

/-- C string: the characters before the terminating NUL. -/
abbrev Str := List Char

/-- Modelled from the spec: the token kinds of `csparser-priv.hh`, in the
order in which `operator<<(std::ostream &, EToken)` lists them. -/
inductive EToken
  | T_NULL | T_INIT | T_DEFECT | T_FILE | T_LINE | T_MSG | T_MSG_EX
  deriving DecidableEq

open EToken

/-- Modelled from the spec: `struct DefEvent` of `csparser.hh`. -/
structure DefEvent where
  fileName : Str
  line : Int
  column : Int
  event : Str
  msg : Str
  deriving DecidableEq

/-- Modelled from the spec: `struct Defect` of `csparser.hh`. -/
structure Defect where
  defClass : Str
  annotation : Str
  events : List DefEvent
  keyEventIdx : Nat
  deriving DecidableEq

/-- A default-constructed `DefEvent` (the local `DefEvent evt;` of
`parseNext`): empty strings; the numbers are assigned by `parseLine`
before anything reads them. -/
def DefEvent.empty : DefEvent :=
  { fileName := [], line := 0, column := 0, event := [], msg := [] }

/-- A default-constructed `Defect`. -/
def Defect.empty : Defect :=
  { defClass := [], annotation := [], events := [], keyEventIdx := 0 }

/-- How a C++ call ends: `ret b` is `return b`, `thrown` is an exception
leaving the function, `nofuel` is the embedding running out of loop fuel
(shown never to happen for `parseNext` and `getNext`). -/
inductive Outcome
  | ret (b : Bool)
  | thrown
  | nofuel
  deriving DecidableEq

/-! ## C library helpers -/

/-- `isupper` in the "C" locale. -/
def isupper (c : Char) : Bool := decide ('A' ≤ c) && decide (c ≤ 'Z')

/-- `isdigit`. -/
def isdigit (c : Char) : Bool := decide ('0' ≤ c) && decide (c ≤ '9')

/-- `strchr(s, c)` for `c` other than NUL: `none` is the null pointer,
`some (pre, post)` splits `s` as `pre ++ c :: post` at the first `c`. -/
def strchr (s : Str) (c : Char) : Option (Str × Str) :=
  match s.dropWhile (fun x => x != c) with
  | [] => none
  | _ :: post => some (s.takeWhile (fun x => x != c), post)

/-- `strpbrk(s, " (")`: split at the first space or opening parenthesis;
the second component starts with that character. -/
def strpbrk (s : Str) : Option (Str × Str) :=
  match s.dropWhile (fun x => x != ' ' && x != '(') with
  | [] => none
  | a :: post => some (s.takeWhile (fun x => x != ' ' && x != '('), a :: post)

/-- Value of a string of decimal digits. -/
def decimalValue (ds : Str) : Nat :=
  ds.foldl (fun acc c => 10 * acc + (c.toNat - 48)) 0

/-- `boost::lexical_cast<int>(const char *)`: an optional sign and then one
or more decimal digits, the whole string, with a value that fits `int`;
`none` stands for `boost::bad_lexical_cast` being thrown. -/
def lexical_cast (s : Str) : Option Int :=
  let neg : Bool := s.head? = some '-'
  let ds : Str := if s.head? = some '-' ∨ s.head? = some '+' then s.tail else s
  if ds = [] ∨ ds.all isdigit = false then none
  else if neg then
    (if decimalValue ds ≤ 2147483648 then some (-(decimalValue ds : Int)) else none)
  else
    (if decimalValue ds ≤ 2147483647 then some (decimalValue ds : Int) else none)

/-! ## Token source -/

/-- One step of the scanner: the kind returned by `yylex()`, the text
`YYText()` then points to, and whether `LexerError` ran meanwhile. -/
structure Tok where
  code : EToken
  text : Str
  lexError : Bool
  deriving DecidableEq

/-- The part of `class FlexLexerWrap` the parser can observe. -/
structure FlexLexerWrap where
  yytext : Str
  hasError_ : Bool
  deriving DecidableEq

/-- `FlexLexerWrap::readNext`: the next token kind, what the source will
still deliver, and the scanner afterwards.  `LexerError` only ever sets
`hasError_`. -/
def FlexLexerWrap.readNext (lx : FlexLexerWrap) : List Tok → EToken × List Tok × FlexLexerWrap
  | [] => (T_NULL, [], { yytext := [], hasError_ := lx.hasError_ })
  | t :: ts => (t.code, ts, { yytext := t.text, hasError_ := lx.hasError_ || t.lexError })

/-! ## Key-event heuristic -/

/-- The loop of `digFileNameGeneric`, from index `idx` on. -/
def digLoop (event : Str) : List DefEvent → Nat → Option Nat
  | [], _ => none
  | evt :: rest, idx => if evt.event = event then some idx else digLoop event rest (idx + 1)

/-- `digFileNameGeneric`. -/
def digFileNameGeneric (dfc : Defect) (event : Str) : Bool × Defect :=
  match digLoop event dfc.events 0 with
  | some idx => (true, { dfc with keyEventIdx := idx })
  | none => (false, dfc)

/-- `digFileName_UNINIT_CTOR`. -/
def digFileName_UNINIT_CTOR (dfc : Defect) : Bool × Defect :=
  digFileNameGeneric dfc "uninit_member".toList

/-- `digFileName_NULL_RETURNS`. -/
def digFileName_NULL_RETURNS (dfc : Defect) : Bool × Defect :=
  digFileNameGeneric dfc "returned_null".toList

/-- The handler map built by `KeyEventDigger::KeyEventDigger`. -/
def hMap_ : List (Str × (Defect → Bool × Defect)) :=
  [("UNINIT_CTOR".toList, digFileName_UNINIT_CTOR),
   ("NULL_RETURNS".toList, digFileName_NULL_RETURNS)]

/-- `KeyEventDigger::guessKeyEvent`. -/
def guessKeyEvent (dfc : Defect) : Bool × Defect :=
  if dfc.events.isEmpty then (false, dfc)
  else
    match hMap_.lookup dfc.defClass with
    | some handler =>
      match handler dfc with
      | (true, dfc1) => (true, dfc1)
      | (false, dfc1) => (true, { dfc1 with keyEventIdx := 0 })
    | none => (true, { dfc with keyEventIdx := 0 })

/-! ## Parser state and field decoders -/

/-- The mutable part of `struct Parser::Private`. -/
structure Private where
  lexer : FlexLexerWrap
  hasError : Bool
  code : EToken
  deriving DecidableEq

/-- State set up by the constructor of `Parser::Private`. -/
def Private.init : Private :=
  { lexer := { yytext := [], hasError_ := false }, hasError := false, code := T_NULL }

/-- `Parser::hasError`. -/
def Parser.hasError (d : Private) : Bool := d.lexer.hasError_ || d.hasError

/-- `Parser::Private::wrongToken`. -/
def Private.wrongToken (d : Private) : Private := { d with hasError := true }

/-- The statement `code = lexer.readNext();`. -/
def Private.readNext (d : Private) (ts : List Tok) : List Tok × Private :=
  match d.lexer.readNext ts with
  | (c, ts1, lx) => (ts1, { d with lexer := lx, code := c })

/-- The `do ... while` loop of `Parser::Private::seekForToken`. -/
def seekLoop (token : EToken) : List Tok → Private → Bool × List Tok × Private
  | [], d => (false, [], (d.readNext []).2)
  | t :: ts, d =>
    let d1 := (d.readNext (t :: ts)).2
    if d1.code = T_NULL then (false, ts, d1)
    else if token = d1.code then (true, ts, d1)
    else
      let d2 := d1.wrongToken
      if d2.code = T_INIT then (false, ts, d2) else seekLoop token ts d2

/-- `Parser::Private::seekForToken`. -/
def seekForToken (token : EToken) (ts : List Tok) (d : Private) : Bool × List Tok × Private :=
  if token = d.code then (true, ts, d) else seekLoop token ts d

/-- `Parser::Private::parseClass`. -/
def parseClass (d : Private) (dfc : Defect) : Bool × Defect :=
  let text := d.lexer.yytext
  match text with
  | [] => (false, dfc)
  | c :: _ =>
    if isupper c = false then (false, dfc)
    else
      match strchr text ':' with
      | none => (false, dfc)
      | some (body, tail) =>
        if tail ≠ [] then (false, dfc)
        else
          match strpbrk body with
          | some (cls, ann) =>
            (true, { dfc with annotation := ann, defClass := cls, events := [] })
          | none =>
            (true, { dfc with annotation := [], defClass := body, events := [] })

/-- `Parser::Private::parseLine`. -/
def parseLine (d : Private) (evt : DefEvent) : Outcome × DefEvent :=
  match d.lexer.yytext with
  | [] => (Outcome.ret false, evt)
  | c :: beg =>
    if c ≠ ':' then (Outcome.ret false, evt)
    else
      match strchr beg ':' with
      | none => (Outcome.ret false, evt)
      | some (lineText, beg2) =>
        match lexical_cast lineText with
        | none => (Outcome.thrown, evt)
        | some line =>
          let evt1 := { evt with line := line }
          match strchr beg2 ':' with
          | some (colText, _) =>
            match lexical_cast colText with
            | none => (Outcome.thrown, evt1)
            | some col => (Outcome.ret true, { evt1 with column := col })
          | none => (Outcome.ret true, { evt1 with column := 0 })

/-- The message decoder of `Parser::Private::parseMsg` (the statements
between `// parse event name (if any)` and `// store basic msg`). -/
def parseMsgText (text : Str) (evt : DefEvent) : DefEvent :=
  if isupper (text.headD (Char.ofNat 0)) = false then
    match strchr text ':' with
    | some (tag, _ :: rest) => { evt with event := tag, msg := rest }
    | _ => { evt with msg := text }
  else { evt with msg := text }

/-- The `for (;;)` loop of `Parser::Private::parseMsg` (`// parse extra msg`). -/
def parseMsgExtra : List Tok → Private → DefEvent → Bool × List Tok × Private × DefEvent
  | [], d, evt => (true, [], (d.readNext []).2, evt)
  | t :: ts, d, evt =>
    let d1 := (d.readNext (t :: ts)).2
    match d1.code with
    | T_NULL => (true, ts, d1, evt)
    | T_INIT => (true, ts, d1, evt)
    | T_FILE => (true, ts, d1, evt)
    | T_MSG_EX => parseMsgExtra ts d1 { evt with msg := evt.msg ++ '\n' :: d1.lexer.yytext }
    | _ => (false, ts, d1.wrongToken, evt)

/-- `Parser::Private::parseMsg`. -/
def parseMsg (ts : List Tok) (d : Private) (evt : DefEvent) :
    Outcome × List Tok × Private × DefEvent :=
  match seekForToken T_FILE ts d with
  | (false, ts1, d1) => (Outcome.ret false, ts1, d1.wrongToken, evt)
  | (true, ts1, d1) =>
    let evt1 := { evt with fileName := d1.lexer.yytext }
    match seekForToken T_LINE ts1 d1 with
    | (false, ts2, d2) => (Outcome.ret false, ts2, d2.wrongToken, evt1)
    | (true, ts2, d2) =>
      match parseLine d2 evt1 with
      | (Outcome.ret true, evt2) =>
        match seekForToken T_MSG ts2 d2 with
        | (false, ts3, d3) => (Outcome.ret false, ts3, d3.wrongToken, evt2)
        | (true, ts3, d3) =>
          match parseMsgExtra ts3 d3 (parseMsgText d3.lexer.yytext evt2) with
          | (true, ts4, d4, evt4) => (Outcome.ret true, ts4, d4, evt4)
          | (false, ts4, d4, evt4) => (Outcome.ret false, ts4, d4, evt4)
      | (Outcome.ret false, evt2) => (Outcome.ret false, ts2, d2.wrongToken, evt2)
      | (o, evt2) => (o, ts2, d2, evt2)

/-- The `while` loop of `Parser::Private::parseNext` (`// parse defect
body`), with fuel for the number of iterations.  `ret true` means the loop
was left normally, `ret false` is the `return false` inside the loop. -/
def parseBody : Nat → List Tok → Private → Defect → Outcome × List Tok × Private × Defect
  | 0, ts, d, dfc => (Outcome.nofuel, ts, d, dfc)
  | n + 1, ts, d, dfc =>
    if d.code ≠ T_NULL ∧ d.code ≠ T_INIT then
      match parseMsg ts d DefEvent.empty with
      | (Outcome.ret true, ts1, d1, evt) =>
        parseBody n ts1 d1 { dfc with events := dfc.events ++ [evt] }
      | (o, ts1, d1, _) => (o, ts1, d1, dfc)
    else (Outcome.ret true, ts, d, dfc)

/-- `Parser::Private::parseNext`. -/
def parseNext (ts : List Tok) (d : Private) (dfc : Defect) :
    Outcome × List Tok × Private × Defect :=
  match seekForToken T_INIT ts d with
  | (false, ts1, d1) => (Outcome.ret false, ts1, d1, dfc)
  | (true, ts1, d1) =>
    match seekForToken T_DEFECT ts1 d1 with
    | (false, ts2, d2) => (Outcome.ret false, ts2, d2.wrongToken, dfc)
    | (true, ts2, d2) =>
      match parseClass d2 dfc with
      | (false, dfc1) => (Outcome.ret false, ts2, d2.wrongToken, dfc1)
      | (true, dfc1) =>
        match parseBody (ts2.length + 1) ts2 d2 dfc1 with
        | (Outcome.ret true, ts3, d3, dfc3) =>
          match guessKeyEvent dfc3 with
          | (true, dfc4) => (Outcome.ret true, ts3, d3, dfc4)
          | (false, dfc4) => (Outcome.ret false, ts3, d3.wrongToken, dfc4)
        | r => r

/-- The error-recovery loop of `Parser::getNext`, with fuel for the number
of attempts. -/
def getNextLoop : Nat → List Tok → Private → Defect → Outcome × List Tok × Private × Defect
  | 0, ts, d, dfc => (Outcome.nofuel, ts, d, dfc)
  | n + 1, ts, d, dfc =>
    match parseNext ts d dfc with
    | (Outcome.ret true, r) => (Outcome.ret true, r)
    | (Outcome.ret false, ts1, d1, dfc1) =>
      if d1.code ≠ T_NULL then getNextLoop n ts1 d1 dfc1
      else (Outcome.ret false, ts1, d1, dfc1)
    | r => r

/-- `Parser::getNext`. -/
def getNext (ts : List Tok) (d : Private) (dfc : Defect) :
    Outcome × List Tok × Private × Defect :=
  getNextLoop (ts.length + 2) ts d dfc


/-- The parser state right after the scanner has delivered a token of kind
`code` with text `text`, no error having been seen. -/
def Private.atToken (code : EToken) (text : Str) : Private :=
  { lexer := { yytext := text, hasError_ := false }, hasError := false, code := code }

/-- The event tag registered for a defect class, in the words of the spec:
`uninit_member` for class `UNINIT_CTOR`, `returned_null` for class
`NULL_RETURNS`, none for any other class. -/
def registeredTag (cls : Str) : Option Str :=
  if cls = "UNINIT_CTOR".toList then some "uninit_member".toList
  else if cls = "NULL_RETURNS".toList then some "returned_null".toList
  else none

/-- Successive calls of `Parser::getNext`, one for each element of `dfcs`
(the `Defect` object the caller hands to that call).  For every call: how
it ended, the `Defect` object as the call left it, and what
`Parser::hasError()` answers afterwards. -/
def runCalls : List Defect → List Tok → Private → List (Outcome × Defect × Bool)
  | [], _, _ => []
  | dfc :: rest, ts, d =>
    match getNext ts d dfc with
    | (o, ts1, d1, dfc1) => (o, dfc1, Parser.hasError d1) :: runCalls rest ts1 d1

/-- Neither error flag of the parser has been cleared between `d` and `d1`. -/
def flagsLe (d d1 : Private) : Prop :=
  (d.hasError = true → d1.hasError = true) ∧
  (d.lexer.hasError_ = true → d1.lexer.hasError_ = true)

/-! ## Well-formed reports, in the words of the spec -/

/-- The token texts of one event of a report: file reference, position,
message, and the continuation lines of the message. -/
structure EventBlock where
  file : Str
  pos : Str
  msg : Str
  extra : List Str
  deriving DecidableEq

/-- The token texts of one defect of a report: separator, class line, and
the events. -/
structure DefectBlock where
  init : Str
  cls : Str
  events : List EventBlock
  deriving DecidableEq

/-- A token scanned without lexical error. -/
def Tok.clean (code : EToken) (text : Str) : Tok :=
  { code := code, text := text, lexError := false }

/-- The tokens of one event: file reference, position, message, zero or
more message continuations. -/
def EventBlock.tokens (e : EventBlock) : List Tok :=
  Tok.clean T_FILE e.file :: Tok.clean T_LINE e.pos :: Tok.clean T_MSG e.msg ::
    e.extra.map (Tok.clean T_MSG_EX)

/-- The tokens of a list of events, in report order. -/
def eventTokens : List EventBlock → List Tok
  | [] => []
  | e :: es => e.tokens ++ eventTokens es

/-- The tokens of a defect block after its separator. -/
def DefectBlock.body (b : DefectBlock) : List Tok :=
  Tok.clean T_DEFECT b.cls :: eventTokens b.events

/-- The tokens of a defect block: separator, defect class, events. -/
def DefectBlock.tokens (b : DefectBlock) : List Tok :=
  Tok.clean T_INIT b.init :: b.body

/-- The token stream of a report made of the given blocks. -/
def streamOf : List DefectBlock → List Tok
  | [] => []
  | b :: bs => b.tokens ++ streamOf bs

/-- The text is an `<int>`: `lexical_cast` accepts it. -/
def IntText (s : Str) : Prop := (lexical_cast s).isSome = true

instance instDecidableIntText (s : Str) : Decidable (IntText s) :=
  inferInstanceAs (Decidable ((lexical_cast s).isSome = true))

/-- The text is `:<int>:` or `:<int>:<int>:`. -/
def PositionText (s : Str) : Prop :=
  ∃ l, IntText l ∧ (s = ':' :: l ++ [':'] ∨ ∃ c, IntText c ∧ s = ':' :: l ++ ':' :: c ++ [':'])

/-- A well-formed defect block: the class text passes the class decoder,
there is at least one event, and every position text is `:<int>:` or
`:<int>:<int>:`. -/
def DefectBlock.WellFormed (b : DefectBlock) : Prop :=
  (parseClass (Private.atToken T_DEFECT b.cls) Defect.empty).1 = true ∧
  b.events ≠ [] ∧ ∀ e ∈ b.events, PositionText e.pos

/-- The message body with its continuation lines merged: each one appended
after a newline. -/
def mergeExtra (body : Str) (extra : List Str) : Str :=
  extra.foldl (fun m s => m ++ '\n' :: s) body

/-- The event decoded from the texts of an event block by the field
decoders: file name, position, message with optional tag, continuation
lines. -/
def EventBlock.decode (e : EventBlock) : DefEvent :=
  let evt1 : DefEvent := { DefEvent.empty with fileName := e.file }
  let evt2 := parseMsgText e.msg (parseLine (Private.atToken T_LINE e.pos) evt1).2
  { evt2 with msg := mergeExtra evt2.msg e.extra }

/-- The defect decoded from the texts of a defect block: class and
annotation by the class decoder, the events in report order, the key event
by the heuristic. -/
def DefectBlock.decode (b : DefectBlock) : Defect :=
  let dfc1 := (parseClass (Private.atToken T_DEFECT b.cls) Defect.empty).2
  (guessKeyEvent { dfc1 with events := b.events.map EventBlock.decode }).2

/-- The parser state after `code = lexer.readNext();` has delivered a token
of kind `c` with text `s` that was scanned without lexical error. -/
def Private.setTok (d : Private) (c : EToken) (s : Str) : Private :=
  { d with lexer := { yytext := s, hasError_ := d.lexer.hasError_ }, code := c }

/-- What may follow an event: the end of the stream, a separator or a file
reference. -/
def Delimited : List Tok → Prop
  | [] => True
  | t :: _ => t.code = T_INIT ∨ t.code = T_FILE

/-- What may follow a defect block: the end of the stream or a separator. -/
def AtBoundary : List Tok → Prop
  | [] => True
  | t :: _ => t.code = T_INIT

/-- The scanner next delivers a separator or the end of the stream (the
source is exhausted, or its next token is `T_NULL` or `T_INIT`). -/
def Stops : List Tok → Prop
  | [] => True
  | u :: _ => u.code = T_NULL ∨ u.code = T_INIT

/-- The Record Builder attempt failed: `parseNext` returned false, with the
parser's error flag set. -/
def AttemptFailed (r : Outcome × List Tok × Private × Defect) : Prop :=
  r.1 = Outcome.ret false ∧ r.2.2.1.hasError = true

/-- The tokens hold no separator and no end-of-stream token. -/
def NoSep (ts : List Tok) : Prop := ∀ t ∈ ts, t.code ≠ T_INIT ∧ t.code ≠ T_NULL

/-- Where a failed attempt leaves the parser in a stream that goes on with
the separator `sep` and then `rest`: either inside the failed block, at a
token that is neither separator nor end-of-stream, with only such tokens
left before `sep`; or at `sep` itself. -/
def ResyncPos (sep : Tok) (rest ts1 : List Tok) (d1 : Private) : Prop :=
  (∃ suf1, ts1 = suf1 ++ sep :: rest ∧ NoSep suf1 ∧ d1.code ≠ T_INIT ∧ d1.code ≠ T_NULL) ∨
  (ts1 = rest ∧ d1.code = T_INIT)


/-! ## The defect printer -/

/-- The decimal text `std::ostream` writes for an `int`. -/
def showInt (n : Int) : Str := (toString n).toList

/-- The statements of `operator<<(std::ostream &, const Defect &)` that
write the event tag and the message of one event (without the newline). -/
def printMsg (evt : DefEvent) : Str :=
  (if evt.event ≠ [] then evt.event ++ ": ".toList else []) ++ evt.msg

/-- The body of the `BOOST_FOREACH` loop of
`operator<<(std::ostream &, const Defect &)`: one event. -/
def printEvent (evt : DefEvent) : Str :=
  evt.fileName ++ ":".toList ++ showInt evt.line ++ ":".toList ++
    (if 0 < evt.column then showInt evt.column ++ ":".toList else []) ++ " ".toList ++
    printMsg evt ++ "\n".toList

/-- `operator<<(std::ostream &, const Defect &)`. -/
def printDefect (dfc : Defect) : Str :=
  "\nError: ".toList ++ dfc.defClass ++ dfc.annotation ++ ":\n".toList ++
    (dfc.events.map printEvent).flatten

/-- Two `Defect` objects with the same class, annotation and events (the
key-event index may differ). -/
def sameContents (x y : Defect) : Prop :=
  x.defClass = y.defClass ∧ x.annotation = y.annotation ∧ x.events = y.events

/-- What the caller can rely on after a call of `getNext`: how it ended,
the defect when it returned true, and `hasError()`. -/
def callView (r : Outcome × Defect × Bool) : Outcome × Option Defect × Bool :=
  (r.1, if r.1 = Outcome.ret true then some r.2.1 else none, r.2.2)

/-- The values of the C++ type `int`. -/
def intRange (n : Int) : Prop := -2147483648 ≤ n ∧ n ≤ 2147483647

/-- Line and column of the event are values of `int`. -/
def DefEvent.InRange (e : DefEvent) : Prop := intRange e.line ∧ intRange e.column

/-- A report of one defect of class `A` with one event at `f.c`, position
text `pos` and message `m`. -/
def oneEventStream (pos : Str) : List Tok :=
  [Tok.clean T_INIT "Error:".toList, Tok.clean T_DEFECT "A:".toList,
    Tok.clean T_FILE "f.c".toList, Tok.clean T_LINE pos, Tok.clean T_MSG "m".toList]

/-- The tokens before the end of the stream: none of them is `T_NULL`.  The
source yields `T_NULL` once the list is exhausted, and forever after. -/
def NoNull (ts : List Tok) : Prop := ∀ t ∈ ts, t.code ≠ T_NULL

/-- If the current token is the end of the stream, the source is exhausted. -/
def Synced (ts : List Tok) (d : Private) : Prop := d.code = T_NULL → ts = []

/-- The kinds of token a failed attempt can stop at. -/
def FailCode (c : EToken) : Prop :=
  c = T_NULL ∨ c = T_INIT ∨ c = T_DEFECT ∨ c = T_LINE ∨ c = T_MSG

/-- A defect block the decoders accept: the class decoder succeeds on the
class text, there is at least one event, and the position decoder succeeds
on every position text. -/
def DefectBlock.Accepted (b : DefectBlock) : Prop :=
  (parseClass (Private.atToken T_DEFECT b.cls) Defect.empty).1 = true ∧
  b.events ≠ [] ∧
  ∀ e ∈ b.events, (parseLine (Private.atToken T_LINE e.pos) DefEvent.empty).1 = Outcome.ret true

/-- The current token when the parser has read it but not yet used it: a
separator or a file reference that ended the previous event or defect. -/
def pendingTokens (d : Private) : List Tok :=
  if d.code = T_INIT ∨ d.code = T_FILE then [Tok.clean d.code d.lexer.yytext] else []

/-! ## Comparison runs for the independence of the caller's object -/

/-- The error-recovery loop of `Parser::getNext` as it would run if every
attempt were handed a default-constructed `Defect` instead of the object the
earlier attempts wrote to.  Only for comparison with `getNextLoop`. -/
def getNextFresh : Nat → List Tok → Private → Outcome × List Tok × Private × Defect
  | 0, ts, d => (Outcome.nofuel, ts, d, Defect.empty)
  | n + 1, ts, d =>
    match parseNext ts d Defect.empty with
    | (Outcome.ret true, r) => (Outcome.ret true, r)
    | (Outcome.ret false, ts1, d1, _) =>
      if d1.code ≠ T_NULL then getNextFresh n ts1 d1
      else (Outcome.ret false, ts1, d1, Defect.empty)
    | r => r

/-- A caller that hands one and the same `Defect` object to `n` successive
calls of `Parser::getNext`: each call gets the object as the call before
left it, whether that call returned a defect or failed. -/
def runReuse : Nat → List Tok → Private → Defect → List (Outcome × Defect × Bool)
  | 0, _, _, _ => []
  | n + 1, ts, d, dfc =>
    match getNext ts d dfc with
    | (o, ts1, d1, dfc1) => (o, dfc1, Parser.hasError d1) :: runReuse n ts1 d1 dfc1

/-- The same `n` calls with `getNextFresh` in place of `getNext`: nothing is
carried from one attempt or one call to the next.  Only for comparison with
`runReuse`. -/
def runFresh : Nat → List Tok → Private → List (Outcome × Defect × Bool)
  | 0, _, _ => []
  | n + 1, ts, d =>
    match getNextFresh (ts.length + 2) ts d with
    | (o, ts1, d1, dfc1) => (o, dfc1, Parser.hasError d1) :: runFresh n ts1 d1

/-- A report whose first block fails after one event has been read (the
second event stops at a file reference), followed by a good block. -/
def leakStream : List Tok :=
  [Tok.clean T_INIT "Error:".toList, Tok.clean T_DEFECT "A:".toList,
    Tok.clean T_FILE "a.c".toList, Tok.clean T_LINE ":1:".toList,
    Tok.clean T_MSG "lost".toList, Tok.clean T_FILE "c.c".toList,
    Tok.clean T_INIT "Error:".toList, Tok.clean T_DEFECT "B:".toList,
    Tok.clean T_FILE "b.c".toList, Tok.clean T_LINE ":2:".toList,
    Tok.clean T_MSG "kept".toList]

/-! ## Blocks as the parser reads them, skipped tokens included -/

/-- Tokens `seekForToken` skips while it waits for kind `X`: of another
kind, and neither separator nor end-of-stream. -/
def Junk (X : EToken) (j : List Tok) : Prop :=
  ∀ t ∈ j, t.code ≠ X ∧ t.code ≠ T_NULL ∧ t.code ≠ T_INIT

/-- The token read after a message and its continuations is accepted: the
end of the stream, a separator or a file reference. -/
def LookOk : List Tok → Prop
  | [] => True
  | t :: _ => t.code = T_NULL ∨ t.code = T_INIT ∨ t.code = T_FILE

/-- The tokens one event is read from: the file reference, the position and
the message, each after the tokens skipped while it was awaited, and the
continuations of the message. -/
structure LaxEvent where
  jf : List Tok
  file : Tok
  jl : List Tok
  line : Tok
  jm : List Tok
  msg : Tok
  extra : List Tok

/-- The tokens of the event after its file reference. -/
def LaxEvent.afterFile (e : LaxEvent) : List Tok :=
  e.jl ++ e.line :: (e.jm ++ e.msg :: e.extra)

/-- All tokens of the event, in stream order. -/
def LaxEvent.tokens (e : LaxEvent) : List Tok := e.jf ++ e.file :: e.afterFile

/-- The texts the event is decoded from. -/
def LaxEvent.block (e : LaxEvent) : EventBlock :=
  ⟨e.file.text, e.line.text, e.msg.text, e.extra.map Tok.text⟩

/-- The part of the event after its file reference is what `parseMsg` reads
as one event: skipped tokens are of no awaited kind, the three tokens have
their kinds, the position decoder accepts the position text, and the
continuations are message continuations. -/
def LaxEvent.Valid (e : LaxEvent) : Prop :=
  e.file.code = T_FILE ∧ Junk T_LINE e.jl ∧ e.line.code = T_LINE ∧
  (parseLine (Private.atToken T_LINE e.line.text) DefEvent.empty).1 = Outcome.ret true ∧
  Junk T_MSG e.jm ∧ e.msg.code = T_MSG ∧ ∀ t ∈ e.extra, t.code = T_MSG_EX

/-- The tokens of a list of events, in stream order. -/
def laxTokens : List LaxEvent → List Tok
  | [] => []
  | e :: es => e.tokens ++ laxTokens es

/-- The events of one defect as the body loop reads them: before the first
file reference tokens may be skipped, every later file reference directly
follows the event before it. -/
def LaxEvents : List LaxEvent → Prop
  | [] => True
  | e :: es => Junk T_FILE e.jf ∧ e.Valid ∧ ∀ x ∈ es, x.jf = [] ∧ x.Valid

/-- The tokens one defect is read from, after its separator: the class
line, after the tokens skipped while it was awaited, and the events. -/
structure LaxBlock where
  jd : List Tok
  cls : Tok
  events : List LaxEvent

/-- The tokens of the block, in stream order. -/
def LaxBlock.body (b : LaxBlock) : List Tok := b.jd ++ b.cls :: laxTokens b.events

/-- The block is what one attempt reads as a defect. -/
def LaxBlock.Valid (b : LaxBlock) : Prop :=
  Junk T_DEFECT b.jd ∧ b.cls.code = T_DEFECT ∧
  (parseClass (Private.atToken T_DEFECT b.cls.text) Defect.empty).1 = true ∧
  b.events ≠ [] ∧ LaxEvents b.events

/-- The defect decoded from the texts of the block. -/
def LaxBlock.decode (b : LaxBlock) : Defect :=
  DefectBlock.decode ⟨[], b.cls.text, b.events.map LaxEvent.block⟩

/-- The tokens that are skipped while the block is read. -/
def LaxBlock.skipped (b : LaxBlock) : List Tok :=
  b.jd ++ (b.events.map (fun e => e.jf ++ (e.jl ++ e.jm))).flatten

/-- The result `r` of a call on the stream `ts` was read from the block `b`:
`pre` are the tokens before the block (earlier blocks, failed attempts and
the separator), `rest` the tokens after it. -/
def ReadAs (ts : List Tok) (r : Outcome × List Tok × Private × Defect) (pre : List Tok)
    (b : LaxBlock) (rest : List Tok) : Prop :=
  ts = pre ++ (b.body ++ rest) ∧ b.Valid ∧ Stops rest ∧ r.2.1 = rest.tail ∧
  r.2.2.2 = b.decode

/-- Number of message tokens in a list of tokens. -/
def countMsg (l : List Tok) : Nat := (l.filter (fun t => t.code = T_MSG)).length

/-- The scanner next delivers the end of the stream. -/
def AtEos : List Tok → Prop
  | [] => True
  | t :: _ => t.code = T_NULL

/-! ## Lemmas on the C library helpers -/

theorem strchr_split (c : Char) (pre post : Str) (h : c ∉ pre) :
    strchr (pre ++ c :: post) c = some (pre, post) := by
  induction pre with
  | nil => simp [strchr]
  | cons a pre ih =>
    have ha : a ≠ c := fun e => h (by simp [e])
    have hp : c ∉ pre := fun e => h (by simp [e])
    have ih := ih hp
    simp only [strchr, List.cons_append, List.dropWhile_cons, List.takeWhile_cons, bne_iff_ne,
      ne_eq, ha, not_false_eq_true, decide_True, ite_true] at ih ⊢
    split at ih
    · simp at ih
    · rename_i x post1 heq
      simp only [heq]
      simp only [Option.some.injEq, Prod.mk.injEq] at ih ⊢
      exact ⟨by rw [ih.1], ih.2⟩

theorem strchr_none (c : Char) (s : Str) (h : c ∉ s) : strchr s c = none := by
  induction s with
  | nil => simp [strchr]
  | cons a s ih =>
    have ha : a ≠ c := fun e => h (by simp [e])
    have hp : c ∉ s := fun e => h (by simp [e])
    have ih := ih hp
    simp only [strchr, List.dropWhile_cons, bne_iff_ne, ne_eq, ha, not_false_eq_true,
      decide_True, ite_true] at ih ⊢
    split at ih
    · rename_i heq; simp [heq]
    · simp at ih

theorem strchr_some (c : Char) (s pre post : Str) (h : strchr s c = some (pre, post)) :
    s = pre ++ c :: post ∧ c ∉ pre := by
  induction s generalizing pre with
  | nil => simp [strchr] at h
  | cons a s ih =>
    by_cases ha : a = c
    · subst ha
      simp [strchr] at h
      obtain ⟨h1, h2⟩ := h
      subst h1; subst h2; simp
    · have hs : strchr (a :: s) c = (strchr s c).map (fun p => (a :: p.1, p.2)) := by
        simp only [strchr, List.dropWhile_cons, List.takeWhile_cons, bne_iff_ne, ne_eq, ha,
          not_false_eq_true, decide_True, ite_true]
        split <;> simp
      rw [hs] at h
      cases hq : strchr s c with
      | none => simp [hq] at h
      | some p =>
        obtain ⟨p1, p2⟩ := p
        simp [hq] at h
        obtain ⟨h1, h2⟩ := h
        have := ih p1 (by rw [hq, h2])
        subst h1
        refine ⟨by simp [this.1], ?_⟩
        simp only [List.mem_cons, not_or]
        exact ⟨fun e => ha e.symm, this.2⟩


theorem span_unique {p : Char → Bool} (pre post : Str) (a : Char)
    (hpre : ∀ x ∈ pre, p x = true) (ha : p a = false) :
    (pre ++ a :: post).takeWhile p = pre ∧ (pre ++ a :: post).dropWhile p = a :: post := by
  induction pre with
  | nil => simp [List.takeWhile_cons, List.dropWhile_cons, ha]
  | cons b pre ih =>
    have hb : p b = true := hpre b (by simp)
    have ih := ih (fun x hx => hpre x (by simp [hx]))
    simp [List.takeWhile_cons, List.dropWhile_cons, hb, ih.1, ih.2]

theorem span_exists {p : Char → Bool} (s : Str) (a : Char) (post : Str)
    (h : s.dropWhile p = a :: post) :
    s = s.takeWhile p ++ a :: post ∧ (∀ x ∈ s.takeWhile p, p x = true) ∧ p a = false := by
  refine ⟨?_, fun x hx => List.mem_takeWhile_imp hx, ?_⟩
  · rw [← h, List.takeWhile_append_dropWhile]
  · induction s with
    | nil => simp at h
    | cons b s ih =>
      by_cases hb : p b = true
      · simp only [List.dropWhile_cons, hb, ite_true] at h
        exact ih h
      · simp only [List.dropWhile_cons, hb] at h
        simp at h
        rw [← h.1]; simpa using hb

theorem span_all {p : Char → Bool} (s : Str) (h : s.dropWhile p = []) :
    ∀ x ∈ s, p x = true := by
  intro x hx
  have := List.dropWhile_eq_nil_iff.mp h
  exact this x hx

theorem strpbrk_some (s cls ann : Str) (h : strpbrk s = some (cls, ann)) :
    ∃ a post, ann = a :: post ∧ s = cls ++ a :: post ∧ (a = ' ' ∨ a = '(') ∧
      ∀ x ∈ cls, x ≠ ' ' ∧ x ≠ '(' := by
  unfold strpbrk at h
  split at h
  · simp at h
  · rename_i a post heq
    simp only [Option.some.injEq, Prod.mk.injEq] at h
    obtain ⟨h1, h2⟩ := h
    have := span_exists s a post heq
    refine ⟨a, post, h2.symm, ?_, ?_, ?_⟩
    · rw [← h1]; exact this.1
    · have h3 := this.2.2
      simp only [Bool.and_eq_false_imp, bne_iff_ne, ne_eq] at h3
      by_cases e : a = ' '
      · exact Or.inl e
      · right
        have := h3 e
        simpa using this
    · intro x hx
      rw [← h1] at hx
      have := this.2.1 x hx
      simpa using this

theorem strpbrk_none (s : Str) (h : strpbrk s = none) : ∀ x ∈ s, x ≠ ' ' ∧ x ≠ '(' := by
  unfold strpbrk at h
  split at h
  · rename_i heq
    intro x hx
    have := span_all s heq x hx
    simpa using this
  · simp at h


theorem strchr_eq_none (c : Char) (s : Str) (h : strchr s c = none) : c ∉ s := by
  unfold strchr at h
  split at h
  · rename_i heq
    intro hc
    have := span_all s heq c hc
    simp at this
  · simp at h

/-- What `parseClass` computes, by cases on the token text. -/
theorem parseClass_cases (d : Private) (dfc : Defect) :
    ((parseClass d dfc).1 = true ∧ ∃ c rest body, d.lexer.yytext = c :: rest ∧ isupper c = true ∧
        d.lexer.yytext = body ++ [':'] ∧ ':' ∉ body ∧
        ((strpbrk body = none ∧
            (parseClass d dfc).2 = { dfc with annotation := [], defClass := body, events := [] }) ∨
          (∃ cls ann, strpbrk body = some (cls, ann) ∧
            (parseClass d dfc).2 = { dfc with annotation := ann, defClass := cls, events := [] }))) ∨
    ((parseClass d dfc) = (false, dfc) ∧
      (d.lexer.yytext = [] ∨ (∃ c rest, d.lexer.yytext = c :: rest ∧ isupper c = false) ∨
        ':' ∉ d.lexer.yytext ∨
        ∃ body a tail, d.lexer.yytext = body ++ ':' :: a :: tail ∧ ':' ∉ body)) := by
  cases htext : d.lexer.yytext with
  | nil => right; exact ⟨by simp [parseClass, htext], Or.inl rfl⟩
  | cons c rest =>
    by_cases hc : isupper c = false
    · right
      exact ⟨by simp [parseClass, htext, hc], Or.inr (Or.inl ⟨c, rest, rfl, hc⟩)⟩
    · have hc1 : isupper c = true := by simpa using hc
      cases hs : strchr (c :: rest) ':' with
      | none =>
        right
        exact ⟨by simp [parseClass, htext, hc1, hs],
          Or.inr (Or.inr (Or.inl (strchr_eq_none _ _ hs)))⟩
      | some p =>
        obtain ⟨body, tail⟩ := p
        have hsp := strchr_some _ _ _ _ hs
        cases tail with
        | cons a tail =>
          right
          exact ⟨by simp [parseClass, htext, hc1, hs],
            Or.inr (Or.inr (Or.inr ⟨body, a, tail, hsp.1, hsp.2⟩))⟩
        | nil =>
          left
          cases hb : strpbrk body with
          | none =>
            exact ⟨by simp [parseClass, htext, hc1, hs, hb], c, rest, body, rfl, hc1, hsp.1,
              hsp.2, Or.inl ⟨hb, by simp [parseClass, htext, hc1, hs, hb]⟩⟩
          | some q =>
            obtain ⟨cls, ann⟩ := q
            exact ⟨by simp [parseClass, htext, hc1, hs, hb], c, rest, body, rfl, hc1, hsp.1,
              hsp.2, Or.inr ⟨cls, ann, hb, by simp [parseClass, htext, hc1, hs, hb]⟩⟩

/-- C7: the class decoder `parseClass` succeeds exactly when the token text
is non-empty, starts with an uppercase letter and contains exactly one ':',
which is its last character.  On success, with `body` the text without
that ':', the event list is emptied and: when `body` holds no space and no
'(' the class is `body` and the annotation is empty; otherwise the class is
the part of `body` before the first space or '(' and the annotation is the
rest of `body` from that character on. -/
theorem parseClass_contract (d : Private) (dfc : Defect) :
    ((parseClass d dfc).1 = true ↔
      (d.lexer.yytext ≠ [] ∧ (∃ c, d.lexer.yytext.head? = some c ∧ isupper c = true) ∧
        d.lexer.yytext.count ':' = 1 ∧ d.lexer.yytext.getLast? = some ':')) ∧
    ((parseClass d dfc).1 = true →
      (parseClass d dfc).2.events = [] ∧
      ((∀ x ∈ d.lexer.yytext.dropLast, x ≠ ' ' ∧ x ≠ '(') →
        (parseClass d dfc).2.defClass = d.lexer.yytext.dropLast ∧
        Defect.annotation (parseClass d dfc).2 = []) ∧
      (∀ pre a post, d.lexer.yytext.dropLast = pre ++ a :: post → (a = ' ' ∨ a = '(') →
        (∀ x ∈ pre, x ≠ ' ' ∧ x ≠ '(') →
        (parseClass d dfc).2.defClass = pre ∧
        Defect.annotation (parseClass d dfc).2 = a :: post)) := by
  rcases parseClass_cases d dfc with ⟨hok, c, rest, body, hcr, hup, hbody, hnot, hres⟩ | ⟨hfail, hwhy⟩
  · have hcount : d.lexer.yytext.count ':' = 1 := by
      rw [hbody, List.count_append, List.count_eq_zero_of_not_mem hnot]; simp
    have hlast : d.lexer.yytext.getLast? = some ':' := by rw [hbody]; simp
    have hdrop : d.lexer.yytext.dropLast = body := by rw [hbody]; simp
    refine ⟨⟨fun _ => ⟨by rw [hcr]; simp, ⟨c, by rw [hcr]; simp, hup⟩, hcount, hlast⟩,
      fun _ => hok⟩, fun _ => ?_⟩
    rw [hdrop]
    rcases hres with ⟨hnone, hd⟩ | ⟨cls, ann, hsome, hd⟩
    · rw [hd]
      refine ⟨rfl, fun _ => ⟨rfl, rfl⟩, ?_⟩
      intro pre a post hsplit ha _
      have := strpbrk_none body hnone a (by rw [hsplit]; simp)
      rcases ha with ha | ha
      · exact absurd ha this.1
      · exact absurd ha this.2
    · rw [hd]
      obtain ⟨a, post, hann, hsplit, ha, hcls⟩ := strpbrk_some body cls ann hsome
      refine ⟨rfl, ?_, ?_⟩
      · intro hall
        have := hall a (by rw [hsplit]; simp)
        rcases ha with ha | ha
        · exact absurd ha this.1
        · exact absurd ha this.2
      · intro pre a1 post1 hsplit1 ha1 hpre
        have hp : ∀ x : Char, (x = ' ' ∨ x = '(') →
            (fun x : Char => x != ' ' && x != '(') x = false := by
          intro x hx
          rcases hx with hx | hx <;> simp [hx]
        have hq : ∀ l : Str, (∀ x ∈ l, x ≠ ' ' ∧ x ≠ '(') →
            ∀ x ∈ l, (fun x : Char => x != ' ' && x != '(') x = true := by
          intro l hl x hx
          have := hl x hx
          simp [this.1, this.2]
        have u1 := span_unique cls post a (hq cls hcls) (hp a ha)
        have u2 := span_unique pre post1 a1 (hq pre hpre) (hp a1 ha1)
        rw [← hsplit] at u1
        rw [← hsplit1] at u2
        have e1 : cls = pre := by rw [← u1.1, ← u2.1]
        have e2 : a :: post = a1 :: post1 := by rw [← u1.2, ← u2.2]
        exact ⟨e1, by rw [hann]; exact e2⟩
  · have hf : (parseClass d dfc).1 = false := by rw [hfail]
    refine ⟨⟨fun h => by rw [hf] at h; simp at h, fun h => ?_⟩, fun h => by rw [hf] at h; simp at h⟩
    exfalso
    obtain ⟨hne, ⟨c, hhead, hup⟩, hcount, hlast⟩ := h
    rcases hwhy with h0 | ⟨c1, rest, hcr, hlow⟩ | hno | ⟨body, a, tail, hsplit, _⟩
    · exact hne h0
    · rw [hcr] at hhead
      simp at hhead
      rw [hhead] at hlow
      rw [hlow] at hup
      simp at hup
    · rw [List.count_eq_zero_of_not_mem hno] at hcount
      simp at hcount
    · rw [hsplit] at hcount hlast
      have h1 : (a :: tail).getLast? = some ':' := by
        rw [List.getLast?_append] at hlast
        simpa using hlast
      have h2 : ':' ∈ a :: tail := List.mem_of_getLast?_eq_some h1
      have h3 : 0 < (a :: tail).count ':' := List.count_pos_iff.mpr h2
      rw [List.count_append, List.count_cons_self] at hcount
      omega

/-- C7, witness of the spec: the class line `NULL_RETURNS (some note):`. -/
theorem parseClass_contract_witness :
    (parseClass (Private.atToken T_DEFECT "NULL_RETURNS (some note):".toList) Defect.empty).1
      = true ∧
    (parseClass (Private.atToken T_DEFECT "NULL_RETURNS (some note):".toList)
      Defect.empty).2.defClass = "NULL_RETURNS".toList ∧
    Defect.annotation (parseClass (Private.atToken T_DEFECT "NULL_RETURNS (some note):".toList)
      Defect.empty).2 = " (some note)".toList :=
  have h := parseClass_contract (Private.atToken T_DEFECT "NULL_RETURNS (some note):".toList)
    Defect.empty
  have hok := h.1.mpr ⟨by decide, ⟨'N', by decide, by decide⟩, by decide, by decide⟩
  have hsplit := (h.2 hok).2.2 "NULL_RETURNS".toList ' ' "(some note)".toList (by decide)
    (Or.inl rfl) (by decide)
  ⟨hok, hsplit.1, hsplit.2⟩


/-! ## Key-event heuristic -/

theorem digLoop_none (event : Str) (es : List DefEvent) (k : Nat) :
    digLoop event es k = none ↔ ∀ e ∈ es, e.event ≠ event := by
  induction es generalizing k with
  | nil => simp [digLoop]
  | cons e es ih =>
    by_cases he : e.event = event
    · simp [digLoop, he]
    · simp [digLoop, he, ih]

theorem digLoop_some (event : Str) (es : List DefEvent) (k i : Nat)
    (h : digLoop event es k = some i) :
    k ≤ i ∧ (∃ e, es[i - k]? = some e ∧ e.event = event) ∧
      ∀ j, j < i - k → ∀ e, es[j]? = some e → e.event ≠ event := by
  induction es generalizing k with
  | nil => simp [digLoop] at h
  | cons e es ih =>
    by_cases he : e.event = event
    · simp only [digLoop, he, ite_true, Option.some.injEq] at h
      subst h
      refine ⟨le_refl _, ⟨e, by simp, he⟩, ?_⟩
      intro j hj
      omega
    · simp only [digLoop, he, ite_false] at h
      obtain ⟨h1, ⟨e1, h2, h3⟩, h4⟩ := ih (k + 1) h
      have hik : i - k = (i - (k + 1)) + 1 := by omega
      refine ⟨by omega, ⟨e1, ?_, h3⟩, ?_⟩
      · rw [hik, List.getElem?_cons_succ]; exact h2
      · intro j hj e2 hj2
        cases j with
        | zero =>
          simp at hj2
          rw [← hj2]; exact he
        | succ j =>
          rw [List.getElem?_cons_succ] at hj2
          exact h4 j (by omega) e2 hj2

theorem hMap_lookup (cls : Str) :
    hMap_.lookup cls = (registeredTag cls).map (fun lit dfc => digFileNameGeneric dfc lit) := by
  by_cases h1 : cls = "UNINIT_CTOR".toList
  · subst h1; rfl
  · by_cases h2 : cls = "NULL_RETURNS".toList
    · subst h2; rfl
    · have e1 : (cls == "UNINIT_CTOR".toList) = false := by simpa using h1
      have e2 : (cls == "NULL_RETURNS".toList) = false := by simpa using h2
      simp only [hMap_, List.lookup, e1, e2, registeredTag, h1, h2, ite_false, Option.map_none']

/-- What `guessKeyEvent` computes on a defect that has events. -/
theorem guessKeyEvent_eq (dfc : Defect) (h : dfc.events ≠ []) :
    guessKeyEvent dfc =
      (true, { dfc with keyEventIdx :=
        ((registeredTag dfc.defClass).bind (fun lit => digLoop lit dfc.events 0)).getD 0 }) := by
  have he : dfc.events.isEmpty = false := by
    cases hes : dfc.events with
    | nil => exact absurd hes h
    | cons _ _ => rfl
  unfold guessKeyEvent
  rw [hMap_lookup]
  simp only [he, Bool.false_eq_true, ite_false]
  cases hr : registeredTag dfc.defClass with
  | none => simp
  | some lit =>
    simp only [Option.map_some', digFileNameGeneric, Option.some_bind]
    cases hd : digLoop lit dfc.events 0 with
    | none => simp
    | some i => simp

/-- C3: on a defect with at least one event `guessKeyEvent` returns true,
leaves class, annotation and events alone, and sets `keyEventIdx` to the
smallest index whose event tag equals the literal registered for the class
(`uninit_member` for `UNINIT_CTOR`, `returned_null` for `NULL_RETURNS`);
when the class is not registered or no event carries that tag,
`keyEventIdx` is 0. -/
theorem guessKeyEvent_contract (dfc : Defect) (h : dfc.events ≠ []) :
    (guessKeyEvent dfc).1 = true ∧
    (guessKeyEvent dfc).2.defClass = dfc.defClass ∧
    Defect.annotation (guessKeyEvent dfc).2 = dfc.annotation ∧
    (guessKeyEvent dfc).2.events = dfc.events ∧
    (∀ lit, registeredTag dfc.defClass = some lit → (∃ e ∈ dfc.events, e.event = lit) →
      (∃ e, dfc.events[(guessKeyEvent dfc).2.keyEventIdx]? = some e ∧ e.event = lit) ∧
      ∀ j, j < (guessKeyEvent dfc).2.keyEventIdx → ∀ e, dfc.events[j]? = some e →
        e.event ≠ lit) ∧
    ((registeredTag dfc.defClass = none ∨
        ∃ lit, registeredTag dfc.defClass = some lit ∧ ∀ e ∈ dfc.events, e.event ≠ lit) →
      (guessKeyEvent dfc).2.keyEventIdx = 0) := by
  rw [guessKeyEvent_eq dfc h]
  refine ⟨rfl, rfl, rfl, rfl, ?_, ?_⟩
  · intro lit hlit hex
    simp only [hlit, Option.some_bind]
    cases hd : digLoop lit dfc.events 0 with
    | none =>
      obtain ⟨e, he, hev⟩ := hex
      exact absurd hev ((digLoop_none lit dfc.events 0).mp hd e he)
    | some i =>
      have := digLoop_some lit dfc.events 0 i hd
      simpa using this.2
  · intro hno
    rcases hno with hnone | ⟨lit, hlit, hall⟩
    · simp [hnone]
    · simp [hlit, (digLoop_none lit dfc.events 0).mpr hall]

/-- C3, witness of the spec: class `NULL_RETURNS` with an untagged event
followed by a `returned_null` event has key index 1. -/
theorem guessKeyEvent_contract_witness :
    (guessKeyEvent ⟨"NULL_RETURNS".toList, [],
      [⟨[], 1, 0, [], ['a']⟩, ⟨[], 2, 0, "returned_null".toList, ['b']⟩], 0⟩).1 = true ∧
    (guessKeyEvent ⟨"NULL_RETURNS".toList, [],
      [⟨[], 1, 0, [], ['a']⟩, ⟨[], 2, 0, "returned_null".toList, ['b']⟩], 0⟩).2.keyEventIdx
      = 1 :=
  ⟨(guessKeyEvent_contract _ (by decide)).1, by decide⟩


/-! ## Message decoder -/

theorem parseMsgText_tag (t m : Str) (evt : DefEvent)
    (hup : ∀ c, t.head? = some c → isupper c = false) (hcolon : ':' ∉ t) :
    parseMsgText (t ++ ':' :: ' ' :: m) evt = { evt with event := t, msg := m } := by
  have hhead : isupper ((t ++ ':' :: ' ' :: m).headD (Char.ofNat 0)) = false := by
    cases t with
    | nil => show isupper ':' = false; decide
    | cons c t => exact hup c rfl
  unfold parseMsgText
  rw [if_pos hhead, strchr_split ':' t (' ' :: m) hcolon]

theorem parseMsgText_plain (text : Str) (evt : DefEvent)
    (h : (∃ c, text.head? = some c ∧ isupper c = true) ∨ ':' ∉ text ∨
      (∃ pre, text = pre ++ [':'] ∧ ':' ∉ pre)) :
    parseMsgText text evt = { evt with msg := text } := by
  unfold parseMsgText
  by_cases hhead : isupper (text.headD (Char.ofNat 0)) = false
  · rw [if_pos hhead]
    rcases h with ⟨c, hc, hup⟩ | hno | ⟨pre, hpre, hno⟩
    · cases text with
      | nil => simp at hc
      | cons a text =>
        simp at hc
        subst hc
        simp [hup] at hhead
    · rw [strchr_none ':' text hno]
    · rw [hpre, strchr_split ':' pre [] hno]
  · rw [if_neg hhead]

/-- C8: the message decoder of `parseMsg`.  A message text `t ++ ": " ++ m`
whose `t` does not start with an uppercase letter and holds no ':' gives
event tag `t` and message body `m`.  A message text that starts with an
uppercase letter, or holds no ':', or whose first ':' is its last
character, leaves the tag as it is (empty, for the fresh event `parseNext`
passes) and gives the whole text as message body. -/
theorem parseMsgText_contract (evt : DefEvent) :
    (∀ t m : Str, (∀ c, t.head? = some c → isupper c = false) → ':' ∉ t →
      parseMsgText (t ++ ':' :: ' ' :: m) evt = { evt with event := t, msg := m }) ∧
    (∀ text : Str, ((∃ c, text.head? = some c ∧ isupper c = true) ∨ ':' ∉ text ∨
        (∃ pre, text = pre ++ [':'] ∧ ':' ∉ pre)) →
      parseMsgText text evt = { evt with msg := text } ∧
      (evt.event = [] → (parseMsgText text evt).event = [])) :=
  ⟨fun t m hup hcolon => parseMsgText_tag t m evt hup hcolon,
    fun text h => ⟨parseMsgText_plain text evt h, fun he => by
      rw [parseMsgText_plain text evt h]; exact he⟩⟩

/-- C8, witnesses of the spec: `returned_null: pointer returned as null`
and `Null pointer dereferenced`. -/
theorem parseMsgText_contract_witness :
    parseMsgText "returned_null: pointer returned as null".toList DefEvent.empty =
      ⟨[], 0, 0, "returned_null".toList, "pointer returned as null".toList⟩ ∧
    parseMsgText "Null pointer dereferenced".toList DefEvent.empty =
      ⟨[], 0, 0, [], "Null pointer dereferenced".toList⟩ :=
  ⟨(parseMsgText_contract DefEvent.empty).1 "returned_null".toList
      "pointer returned as null".toList (by decide) (by decide),
    ((parseMsgText_contract DefEvent.empty).2 "Null pointer dereferenced".toList
      (Or.inl ⟨'N', by decide, by decide⟩)).1⟩


/-! ## The error flags are never cleared -/

theorem flagsLe_refl (d : Private) : flagsLe d d := ⟨id, id⟩

theorem flagsLe_trans {a b c : Private} (h1 : flagsLe a b) (h2 : flagsLe b c) : flagsLe a c :=
  ⟨fun h => h2.1 (h1.1 h), fun h => h2.2 (h1.2 h)⟩

theorem flagsLe_wrongToken (d : Private) : flagsLe d d.wrongToken :=
  ⟨fun _ => rfl, id⟩

theorem flagsLe_readNext (d : Private) (ts : List Tok) : flagsLe d (d.readNext ts).2 := by
  cases ts with
  | nil => exact ⟨id, id⟩
  | cons t ts =>
    refine ⟨id, ?_⟩
    intro h
    simp [Private.readNext, FlexLexerWrap.readNext, h]

theorem flagsLe_hasError {d d1 : Private} (h : flagsLe d d1) (he : Parser.hasError d = true) :
    Parser.hasError d1 = true := by
  unfold Parser.hasError at he ⊢
  rcases Bool.or_eq_true _ _ |>.mp he with h1 | h1
  · simp [h.2 h1]
  · simp [h.1 h1]

theorem seekLoop_flags (token : EToken) (ts : List Tok) (d : Private) :
    flagsLe d (seekLoop token ts d).2.2 := by
  induction ts generalizing d with
  | nil => exact flagsLe_readNext d []
  | cons t ts ih =>
    have h1 := flagsLe_readNext d (t :: ts)
    have h2 := flagsLe_trans h1 (flagsLe_wrongToken _)
    unfold seekLoop
    simp only
    split
    · exact h1
    · split
      · exact h1
      · split
        · exact h2
        · exact flagsLe_trans h2 (ih _)

theorem seekForToken_flags (token : EToken) (ts : List Tok) (d : Private) :
    flagsLe d (seekForToken token ts d).2.2 := by
  unfold seekForToken
  split
  · exact flagsLe_refl d
  · exact seekLoop_flags token ts d

theorem parseMsgExtra_flags (ts : List Tok) (d : Private) (evt : DefEvent) :
    flagsLe d (parseMsgExtra ts d evt).2.2.1 := by
  induction ts generalizing d evt with
  | nil => exact flagsLe_readNext d []
  | cons t ts ih =>
    have h1 := flagsLe_readNext d (t :: ts)
    have h2 := flagsLe_trans h1 (flagsLe_wrongToken _)
    unfold parseMsgExtra
    simp only
    split
    · exact h1
    · exact h1
    · exact h1
    · exact flagsLe_trans h1 (ih _ _)
    · exact h2

theorem parseMsg_flags (ts : List Tok) (d : Private) (evt : DefEvent) :
    flagsLe d (parseMsg ts d evt).2.2.1 := by
  unfold parseMsg
  have a1 := seekForToken_flags T_FILE ts d
  split
  · rename_i ts1 d1 h1
    rw [h1] at a1
    exact flagsLe_trans a1 (flagsLe_wrongToken _)
  · rename_i ts1 d1 h1
    rw [h1] at a1
    have a2 := flagsLe_trans a1 (seekForToken_flags T_LINE ts1 d1)
    simp only
    split
    · rename_i ts2 d2 h2
      rw [h2] at a2
      exact flagsLe_trans a2 (flagsLe_wrongToken _)
    · rename_i ts2 d2 h2
      rw [h2] at a2
      have a3 := flagsLe_trans a2 (seekForToken_flags T_MSG ts2 d2)
      split
      · split
        · rename_i ts3 d3 h3
          rw [h3] at a3
          exact flagsLe_trans a3 (flagsLe_wrongToken _)
        · rename_i evt2 _ _ ts3 d3 h3
          rw [h3] at a3
          have a4 := flagsLe_trans a3
            (parseMsgExtra_flags ts3 d3 (parseMsgText d3.lexer.yytext evt2))
          split
          · rename_i h4; rw [h4] at a4; exact a4
          · rename_i h4; rw [h4] at a4; exact a4
      · exact flagsLe_trans a2 (flagsLe_wrongToken _)
      · exact a2

theorem parseBody_flags (n : Nat) (ts : List Tok) (d : Private) (dfc : Defect) :
    flagsLe d (parseBody n ts d dfc).2.2.1 := by
  induction n generalizing ts d dfc with
  | zero => exact flagsLe_refl d
  | succ n ih =>
    unfold parseBody
    split
    · have a1 := parseMsg_flags ts d DefEvent.empty
      split
      · rename_i ts1 d1 evt h1
        rw [h1] at a1
        exact flagsLe_trans a1 (ih _ _ _)
      · rename_i o ts1 d1 evt _ h1
        rw [h1] at a1
        exact a1
    · exact flagsLe_refl d

theorem parseNext_flags (ts : List Tok) (d : Private) (dfc : Defect) :
    flagsLe d (parseNext ts d dfc).2.2.1 := by
  unfold parseNext
  have a1 := seekForToken_flags T_INIT ts d
  split
  · rename_i ts1 d1 h1
    rw [h1] at a1
    exact a1
  · rename_i ts1 d1 h1
    rw [h1] at a1
    have a2 := flagsLe_trans a1 (seekForToken_flags T_DEFECT ts1 d1)
    split
    · rename_i ts2 d2 h2
      rw [h2] at a2
      exact flagsLe_trans a2 (flagsLe_wrongToken _)
    · rename_i ts2 d2 h2
      rw [h2] at a2
      split
      · exact flagsLe_trans a2 (flagsLe_wrongToken _)
      · rename_i dfc1 _
        have a3 := flagsLe_trans a2 (parseBody_flags (ts2.length + 1) ts2 d2 dfc1)
        split
        · rename_i ts3 d3 dfc3 h3
          rw [h3] at a3
          split
          · exact a3
          · exact flagsLe_trans a3 (flagsLe_wrongToken _)
        · exact a3

theorem getNextLoop_flags (n : Nat) (ts : List Tok) (d : Private) (dfc : Defect) :
    flagsLe d (getNextLoop n ts d dfc).2.2.1 := by
  induction n generalizing ts d dfc with
  | zero => exact flagsLe_refl d
  | succ n ih =>
    unfold getNextLoop
    have a1 := parseNext_flags ts d dfc
    split
    · rename_i r h1
      rw [h1] at a1
      exact a1
    · rename_i ts1 d1 dfc1 h1
      rw [h1] at a1
      split
      · exact flagsLe_trans a1 (ih _ _ _)
      · exact a1
    · exact a1

theorem getNext_flags (ts : List Tok) (d : Private) (dfc : Defect) :
    flagsLe d (getNext ts d dfc).2.2.1 :=
  getNextLoop_flags _ ts d dfc


theorem runCalls_flag_from (dfcs : List Defect) (ts : List Tok) (d : Private)
    (h : Parser.hasError d = true) : ∀ r ∈ runCalls dfcs ts d, r.2.2 = true := by
  induction dfcs generalizing ts d with
  | nil => intro r hr; simp [runCalls] at hr
  | cons dfc rest ih =>
    intro r hr
    have h1 := flagsLe_hasError (getNext_flags ts d dfc) h
    simp only [runCalls, List.mem_cons] at hr
    rcases hr with hr | hr
    · rw [hr]; exact h1
    · exact ih _ _ h1 r hr

theorem runCalls_flag_later (dfcs : List Defect) (ts : List Tok) (d : Private) (i j : Nat)
    (r1 r2 : Outcome × Defect × Bool) (hij : i ≤ j)
    (h1 : (runCalls dfcs ts d)[i]? = some r1) (h2 : (runCalls dfcs ts d)[j]? = some r2)
    (h : r1.2.2 = true) : r2.2.2 = true := by
  induction dfcs generalizing ts d i j with
  | nil => simp [runCalls] at h1
  | cons dfc rest ih =>
    simp only [runCalls] at h1 h2
    cases j with
    | zero =>
      have hi : i = 0 := by omega
      subst hi
      rw [h1] at h2
      simp only [Option.some.injEq] at h2
      rw [← h2]; exact h
    | succ j =>
      rw [List.getElem?_cons_succ] at h2
      cases i with
      | zero =>
        simp only [List.getElem?_cons_zero, Option.some.injEq] at h1
        rw [← h1] at h
        exact runCalls_flag_from rest _ _ h r2 (List.getElem?_mem h2)
      | succ i =>
        rw [List.getElem?_cons_succ] at h1
        exact ih _ _ i j (by omega) h1 h2

/-- C10: `Parser::hasError()` is sticky.  No call of `getNext` clears the
parser's or the scanner wrapper's error flag; so over any sequence of
`getNext` calls on any token stream, from any parser state, once
`hasError()` has answered true it answers true after every later call. -/
theorem hasError_sticky (dfcs : List Defect) (ts : List Tok) (d : Private) :
    (∀ dfc, flagsLe d (getNext ts d dfc).2.2.1) ∧
    (Parser.hasError d = true → ∀ r ∈ runCalls dfcs ts d, r.2.2 = true) ∧
    (∀ (i j : Nat) (r1 r2 : Outcome × Defect × Bool), i ≤ j →
      (runCalls dfcs ts d)[i]? = some r1 →
      (runCalls dfcs ts d)[j]? = some r2 → r1.2.2 = true → r2.2.2 = true) :=
  ⟨fun dfc => getNext_flags ts d dfc, runCalls_flag_from dfcs ts d,
    fun i j r1 r2 hij h1 h2 h => runCalls_flag_later dfcs ts d i j r1 r2 hij h1 h2 h⟩

/-- C10, an instance: a stray file token before the first defect sets the
flag during the first call, and it is still set after the second call,
which reports the end of the stream. -/
theorem hasError_sticky_witness :
    (runCalls [Defect.empty, Defect.empty]
      [Tok.clean T_FILE "x.c".toList, Tok.clean T_INIT "Error:".toList,
        Tok.clean T_DEFECT "A:".toList, Tok.clean T_FILE "f.c".toList,
        Tok.clean T_LINE ":1:".toList, Tok.clean T_MSG "m".toList]
      Private.init)[0]? =
        some (Outcome.ret true, ⟨"A".toList, [], [⟨"f.c".toList, 1, 0, [], "m".toList⟩], 0⟩,
          true) ∧
    (runCalls [Defect.empty, Defect.empty]
      [Tok.clean T_FILE "x.c".toList, Tok.clean T_INIT "Error:".toList,
        Tok.clean T_DEFECT "A:".toList, Tok.clean T_FILE "f.c".toList,
        Tok.clean T_LINE ":1:".toList, Tok.clean T_MSG "m".toList]
      Private.init)[1]? = some (Outcome.ret false, Defect.empty, true) ∧
    (Outcome.ret false, Defect.empty, true).2.2 = true :=
  ⟨by decide, by decide,
    (hasError_sticky [Defect.empty, Defect.empty]
      [Tok.clean T_FILE "x.c".toList, Tok.clean T_INIT "Error:".toList,
        Tok.clean T_DEFECT "A:".toList, Tok.clean T_FILE "f.c".toList,
        Tok.clean T_LINE ":1:".toList, Tok.clean T_MSG "m".toList]
      Private.init).2.2 0 1
      (Outcome.ret true, ⟨"A".toList, [], [⟨"f.c".toList, 1, 0, [], "m".toList⟩], 0⟩, true)
      (Outcome.ret false, Defect.empty, true) (by decide) (by decide) (by decide) rfl⟩

/-! ## Every returned defect has a valid key event -/

theorem guessKeyEvent_true (dfc dfc1 : Defect) (h : guessKeyEvent dfc = (true, dfc1)) :
    dfc1.events ≠ [] ∧ dfc1.keyEventIdx < dfc1.events.length := by
  by_cases he : dfc.events = []
  · simp [guessKeyEvent, he] at h
  · rw [guessKeyEvent_eq dfc he] at h
    simp only [Prod.mk.injEq, true_and] at h
    rw [← h]
    refine ⟨he, ?_⟩
    have hpos : 0 < dfc.events.length := List.length_pos.mpr he
    cases hr : registeredTag dfc.defClass with
    | none => simpa using hpos
    | some lit =>
      simp only [Option.some_bind]
      cases hd : digLoop lit dfc.events 0 with
      | none => simpa using hpos
      | some i =>
        obtain ⟨_, ⟨e, h2, _⟩, _⟩ := digLoop_some lit dfc.events 0 i hd
        have := (List.getElem?_eq_some_iff.mp h2).1
        simpa using this

theorem parseNext_true (ts ts1 : List Tok) (d d1 : Private) (dfc dfc1 : Defect)
    (h : parseNext ts d dfc = (Outcome.ret true, ts1, d1, dfc1)) :
    ∃ dfc3, guessKeyEvent dfc3 = (true, dfc1) := by
  unfold parseNext at h
  split at h
  · simp at h
  · split at h
    · simp at h
    · split at h
      · simp at h
      · split at h
        · split at h
          · rename_i dfc3 _ _ dfc4 h4
            simp only [Prod.mk.injEq, true_and] at h
            exact ⟨dfc3, by rw [h4, h.2.2]⟩
          · simp at h
        · rename_i r hr
          exfalso
          exact hr _ _ _ h

theorem getNextLoop_true (n : Nat) (ts ts1 : List Tok) (d d1 : Private) (dfc dfc1 : Defect)
    (h : getNextLoop n ts d dfc = (Outcome.ret true, ts1, d1, dfc1)) :
    ∃ dfc3, guessKeyEvent dfc3 = (true, dfc1) := by
  induction n generalizing ts d dfc with
  | zero => simp [getNextLoop] at h
  | succ n ih =>
    unfold getNextLoop at h
    split at h
    · rename_i r hr
      obtain ⟨ts2, d2, dfc2⟩ := r
      simp only [Prod.mk.injEq, true_and] at h
      rw [h.1, h.2.1, h.2.2] at hr
      exact parseNext_true _ _ _ _ _ _ hr
    · split at h
      · exact ih _ _ _ h
      · simp at h
    · rename_i r h1 h2
      exfalso
      exact h1 (ts1, d1, dfc1) h

/-- C2: on every token stream and from every parser state, a call of
`getNext` that returns true hands back a defect with at least one event
whose `keyEventIdx` is a valid index into its events. -/
theorem getNext_defect_valid (ts ts1 : List Tok) (d d1 : Private) (dfc dfc1 : Defect)
    (h : getNext ts d dfc = (Outcome.ret true, ts1, d1, dfc1)) :
    dfc1.events ≠ [] ∧ 0 ≤ dfc1.keyEventIdx ∧ dfc1.keyEventIdx < dfc1.events.length := by
  obtain ⟨dfc3, h3⟩ := getNextLoop_true _ ts ts1 d d1 dfc dfc1 h
  have := guessKeyEvent_true dfc3 dfc1 h3
  exact ⟨this.1, Nat.zero_le _, this.2⟩

/-- C2, an instance: a defect assembled across a skipped stray token. -/
theorem getNext_defect_valid_witness :
    getNext [⟨T_INIT, "Error:".toList, false⟩, ⟨T_DEFECT, "A:".toList, false⟩,
        ⟨T_FILE, "f.c".toList, false⟩, ⟨T_MSG, "junk".toList, false⟩,
        ⟨T_LINE, ":1:".toList, false⟩, ⟨T_MSG, "m".toList, false⟩] Private.init Defect.empty
      = (Outcome.ret true, [], ⟨⟨[], false⟩, true, T_NULL⟩,
          ⟨['A'], [], [⟨"f.c".toList, 1, 0, [], ['m']⟩], 0⟩) ∧
    (⟨['A'], [], [⟨"f.c".toList, 1, 0, [], ['m']⟩], 0⟩ : Defect).events ≠ [] ∧
    0 ≤ (⟨['A'], [], [⟨"f.c".toList, 1, 0, [], ['m']⟩], 0⟩ : Defect).keyEventIdx ∧
    (⟨['A'], [], [⟨"f.c".toList, 1, 0, [], ['m']⟩], 0⟩ : Defect).keyEventIdx <
      (⟨['A'], [], [⟨"f.c".toList, 1, 0, [], ['m']⟩], 0⟩ : Defect).events.length :=
  ⟨by decide, getNext_defect_valid _ _ _ _ _ _ (by decide :
    getNext [⟨T_INIT, "Error:".toList, false⟩, ⟨T_DEFECT, "A:".toList, false⟩,
        ⟨T_FILE, "f.c".toList, false⟩, ⟨T_MSG, "junk".toList, false⟩,
        ⟨T_LINE, ":1:".toList, false⟩, ⟨T_MSG, "m".toList, false⟩] Private.init Defect.empty
      = (Outcome.ret true, [], ⟨⟨[], false⟩, true, T_NULL⟩,
          ⟨['A'], [], [⟨"f.c".toList, 1, 0, [], ['m']⟩], 0⟩))⟩


/-! ## The position decoder and `boost::lexical_cast` -/

theorem parseLine_bad_line (d : Private) (evt : DefEvent) (l rest : Str)
    (htext : d.lexer.yytext = ':' :: l ++ ':' :: rest) (hl : ':' ∉ l)
    (hbad : lexical_cast l = none) : parseLine d evt = (Outcome.thrown, evt) := by
  unfold parseLine
  rw [htext]
  simp only [List.cons_append, ne_eq, not_true_eq_false, ite_false]
  rw [strchr_split ':' l rest hl]
  simp only [hbad]

theorem parseLine_bad_column (d : Private) (evt : DefEvent) (l c rest : Str) (v : Int)
    (htext : d.lexer.yytext = ':' :: l ++ ':' :: c ++ ':' :: rest) (hl : ':' ∉ l)
    (hc : ':' ∉ c) (hv : lexical_cast l = some v) (hbad : lexical_cast c = none) :
    parseLine d evt = (Outcome.thrown, { evt with line := v }) := by
  unfold parseLine
  rw [htext]
  simp only [List.cons_append, List.append_assoc, ne_eq, not_true_eq_false, ite_false]
  rw [strchr_split ':' l (c ++ ':' :: rest) hl]
  simp only [hv]
  rw [strchr_split ':' c rest hc]
  simp only [hbad]

/-- C6 (what the code does instead): when the line field of a position
text is present but `lexical_cast` rejects it, `parseLine` does not return
false: `boost::bad_lexical_cast` leaves `parseLine`, and nothing in
`parseMsg`, `parseNext` or `getNext` catches it, so it leaves `getNext`
too.  Shown in general for the line field, on the texts `:x:`, `::`,
`:12:y:` and `:99999999999:`, and on a stream whose only flaw is a line
number beyond the range of `int`. -/
theorem parseLine_throws :
    (∀ (d : Private) (evt : DefEvent) (l rest : Str),
      d.lexer.yytext = ':' :: l ++ ':' :: rest → ':' ∉ l → lexical_cast l = none →
      parseLine d evt = (Outcome.thrown, evt)) ∧
    (parseLine (Private.atToken T_LINE ":x:".toList) DefEvent.empty).1 = Outcome.thrown ∧
    (parseLine (Private.atToken T_LINE "::".toList) DefEvent.empty).1 = Outcome.thrown ∧
    (parseLine (Private.atToken T_LINE ":12:y:".toList) DefEvent.empty).1 = Outcome.thrown ∧
    (parseLine (Private.atToken T_LINE ":99999999999:".toList) DefEvent.empty).1
      = Outcome.thrown ∧
    (getNext [Tok.clean T_INIT "Error:".toList, Tok.clean T_DEFECT "A:".toList,
        Tok.clean T_FILE "f.c".toList, Tok.clean T_LINE ":99999999999:".toList,
        Tok.clean T_MSG "m".toList] Private.init Defect.empty).1 = Outcome.thrown :=
  ⟨parseLine_bad_line, by decide, by decide, by decide, by decide, by decide⟩


/-! ## Well-formed blocks are parsed as the field decoders say -/

theorem readNext_clean (d : Private) (c : EToken) (s : Str) (ts : List Tok) :
    d.readNext (Tok.clean c s :: ts) = (ts, d.setTok c s) := by
  simp [Private.readNext, FlexLexerWrap.readNext, Tok.clean, Private.setTok]

theorem setTok_readNext (d : Private) (c : EToken) (s : Str) (ts : List Tok) :
    (d.setTok c s).readNext ts = d.readNext ts := by
  cases ts <;> simp [Private.readNext, FlexLexerWrap.readNext, Private.setTok]

theorem readNext_code (d : Private) (t : Tok) (ts : List Tok) :
    (d.readNext (t :: ts)).2.code = t.code := rfl

theorem readNext_nil_code (d : Private) : (d.readNext []).2.code = T_NULL := rfl

theorem readNext_tail (d : Private) (ts : List Tok) : (d.readNext ts).1 = ts.tail := by
  cases ts <;> rfl

theorem seekForToken_here (token : EToken) (ts : List Tok) (d : Private) (h : token = d.code) :
    seekForToken token ts d = (true, ts, d) := by
  simp [seekForToken, h]

theorem seekForToken_next (token : EToken) (t : Tok) (ts : List Tok) (d : Private)
    (h1 : token ≠ d.code) (h2 : t.code = token) (h3 : token ≠ T_NULL) :
    seekForToken token (t :: ts) d = (true, ts, (d.readNext (t :: ts)).2) := by
  have hc : ((d.readNext (t :: ts)).2).code = token := by
    simp [Private.readNext, FlexLexerWrap.readNext, h2]
  simp only [seekForToken, h1, ite_false, seekLoop, hc, h3, ite_true]

theorem isdigit_colon : isdigit ':' = false := by decide

theorem intText_digits (l : Str) (h : IntText l) :
    (if l.head? = some '-' ∨ l.head? = some '+' then l.tail else l).all isdigit = true := by
  by_contra hcon
  have hcon : (if l.head? = some '-' ∨ l.head? = some '+' then l.tail else l).all isdigit
      = false := by simpa using hcon
  unfold IntText lexical_cast at h
  simp only [hcon, or_true, ite_true] at h
  simp at h

theorem intText_no_colon (l : Str) (h : IntText l) : ':' ∉ l := by
  intro hmem
  have hall := intText_digits l h
  have hin : ':' ∈ (if l.head? = some '-' ∨ l.head? = some '+' then l.tail else l) := by
    split
    · rename_i hsign
      cases l with
      | nil => simp at hmem
      | cons a l =>
        simp only [List.mem_cons] at hmem
        rcases hmem with hmem | hmem
        · subst hmem
          simp at hsign
        · simpa using hmem
    · exact hmem
  have := List.all_eq_true.mp hall ':' hin
  rw [isdigit_colon] at this
  simp at this

theorem parseLine_text (d : Private) (c : EToken) (evt : DefEvent) :
    parseLine d evt = parseLine (Private.atToken c d.lexer.yytext) evt := rfl

theorem parseLine_wf (s : Str) (evt : DefEvent) (h : PositionText s) :
    (parseLine (Private.atToken T_LINE s) evt).1 = Outcome.ret true := by
  obtain ⟨l, hl, hs⟩ := h
  have hl1 := intText_no_colon l hl
  obtain ⟨v, hv⟩ := Option.isSome_iff_exists.mp hl
  unfold parseLine
  rcases hs with hs | ⟨c, hc, hs⟩
  · simp only [Private.atToken, hs, List.cons_append, ne_eq, not_true_eq_false, ite_false]
    rw [strchr_split ':' l [] hl1]
    simp only [hv]
    rw [strchr_none ':' [] (by simp)]
  · have hc1 := intText_no_colon c hc
    obtain ⟨w, hw⟩ := Option.isSome_iff_exists.mp hc
    simp only [Private.atToken, hs, List.cons_append, List.append_assoc, ne_eq,
      not_true_eq_false, ite_false]
    rw [strchr_split ':' l (c ++ [':']) hl1]
    simp only [hv]
    rw [strchr_split ':' c [] hc1]
    simp only [hw]

theorem mergeExtra_cons (m x : Str) (extra : List Str) :
    mergeExtra m (x :: extra) = mergeExtra (m ++ '\n' :: x) extra := rfl

theorem parseMsgExtra_wf (extra : List Str) (rest : List Tok) (d : Private)
    (evt : DefEvent) (h : Delimited rest) :
    parseMsgExtra (extra.map (Tok.clean T_MSG_EX) ++ rest) d evt =
      (true, rest.tail, (d.readNext rest).2, { evt with msg := mergeExtra evt.msg extra }) := by
  induction extra generalizing d evt with
  | nil =>
    cases rest with
    | nil => rfl
    | cons t rest =>
      show parseMsgExtra (t :: rest) d evt = _
      rw [parseMsgExtra]
      simp only [readNext_code]
      rcases h with h | h <;> rw [h] <;> rfl
  | cons x extra ih =>
    show parseMsgExtra (Tok.clean T_MSG_EX x :: (extra.map (Tok.clean T_MSG_EX) ++ rest))
      d evt = _
    rw [parseMsgExtra]
    simp only [readNext_clean]
    have hc : (d.setTok T_MSG_EX x).code = T_MSG_EX := rfl
    simp only [hc]
    rw [ih, setTok_readNext, mergeExtra_cons]
    rfl

theorem parseMsg_wf (e : EventBlock) (rest : List Tok) (d : Private)
    (hc : d.code = T_FILE) (hy : d.lexer.yytext = e.file) (hpos : PositionText e.pos)
    (hrest : Delimited rest) :
    parseMsg (e.tokens.tail ++ rest) d DefEvent.empty =
      (Outcome.ret true, rest.tail, (d.readNext rest).2, e.decode) := by
  have hline := parseLine_wf e.pos { DefEvent.empty with fileName := e.file } hpos
  have hline2 : parseLine (d.setTok T_LINE e.pos)
      { DefEvent.empty with fileName := e.file } =
      (Outcome.ret true, (parseLine (Private.atToken T_LINE e.pos)
        { DefEvent.empty with fileName := e.file }).2) := by
    rw [parseLine_text _ T_LINE]
    exact Prod.ext hline rfl
  unfold parseMsg
  rw [seekForToken_here T_FILE _ _ hc.symm]
  simp only [EventBlock.tokens, List.tail_cons, List.cons_append]
  rw [seekForToken_next T_LINE _ _ _ (by rw [hc]; decide) rfl (by decide)]
  simp only [readNext_clean, hy]
  rw [hline2]
  simp only
  rw [seekForToken_next T_MSG _ _ _ (by show T_MSG ≠ T_LINE; decide) rfl (by decide)]
  simp only [readNext_clean]
  have e2 : ((d.setTok T_LINE e.pos).setTok T_MSG e.msg).lexer.yytext = e.msg := rfl
  rw [e2, parseMsgExtra_wf e.extra rest _ _ hrest, setTok_readNext, setTok_readNext]
  simp only [EventBlock.decode]

theorem parseMsg_enter (t : Tok) (ts : List Tok) (d : Private) (evt : DefEvent)
    (h1 : d.code ≠ T_FILE) (h2 : t.code = T_FILE) :
    parseMsg (t :: ts) d evt = parseMsg ts (d.readNext (t :: ts)).2 evt := by
  have hc : ((d.readNext (t :: ts)).2).code = T_FILE := by
    simp [Private.readNext, FlexLexerWrap.readNext, h2]
  unfold parseMsg
  rw [seekForToken_next T_FILE t ts d (fun e => h1 e.symm) h2 (by decide),
    seekForToken_here T_FILE ts _ hc.symm]

theorem parseNext_enter (t : Tok) (ts : List Tok) (d : Private) (dfc : Defect)
    (h1 : d.code ≠ T_INIT) (h2 : t.code = T_INIT) :
    parseNext (t :: ts) d dfc = parseNext ts (d.readNext (t :: ts)).2 dfc := by
  have hc : ((d.readNext (t :: ts)).2).code = T_INIT := by
    simp [Private.readNext, FlexLexerWrap.readNext, h2]
  unfold parseNext
  rw [seekForToken_next T_INIT t ts d (fun e => h1 e.symm) h2 (by decide),
    seekForToken_here T_INIT ts _ hc.symm]

theorem eventTokens_length (es : List EventBlock) : es.length ≤ (eventTokens es).length := by
  induction es with
  | nil => simp [eventTokens]
  | cons e es ih =>
    simp only [eventTokens, EventBlock.tokens, List.length_append, List.length_cons,
      List.length_map]
    omega

theorem delimited_eventTokens (es : List EventBlock) (rest : List Tok) (h : Delimited rest) :
    Delimited (eventTokens es ++ rest) := by
  cases es with
  | nil => exact h
  | cons e es => exact Or.inr rfl

theorem delimited_of_boundary (rest : List Tok) (h : AtBoundary rest) : Delimited rest := by
  cases rest with
  | nil => trivial
  | cons t rest => exact Or.inl h

theorem readNext_boundary (d : Private) (rest : List Tok) (h : AtBoundary rest) :
    ¬ ((d.readNext rest).2.code ≠ T_NULL ∧ (d.readNext rest).2.code ≠ T_INIT) := by
  cases rest with
  | nil => simp [readNext_nil_code]
  | cons t rest =>
    have : t.code = T_INIT := h
    simp [readNext_code, this]

/-- The body loop over complete events: it consumes them one by one and is
then at the token that follows them. -/
theorem parseBody_events (es : List EventBlock) (e : EventBlock) (rest : List Tok)
    (d : Private) (dfc : Defect) (n : Nat) (hc : d.code = T_FILE)
    (hy : d.lexer.yytext = e.file) (hpos : ∀ x ∈ e :: es, PositionText x.pos)
    (hrest : Delimited rest) (hn : es.length + 1 ≤ n) :
    parseBody n (e.tokens.tail ++ (eventTokens es ++ rest)) d dfc =
      parseBody (n - (es.length + 1)) rest.tail (d.readNext rest).2
        { dfc with events := dfc.events ++ (e :: es).map EventBlock.decode } := by
  induction es generalizing e d dfc n with
  | nil =>
    obtain ⟨m, rfl⟩ : ∃ m, n = m + 1 := ⟨n - 1, by simp at hn; omega⟩
    rw [parseBody]
    have hcode : d.code ≠ T_NULL ∧ d.code ≠ T_INIT := by rw [hc]; decide
    rw [if_pos hcode, parseMsg_wf e _ d hc hy (hpos e (by simp))
      (delimited_eventTokens [] rest hrest)]
    simp [eventTokens]
  | cons e1 es ih =>
    obtain ⟨m, rfl⟩ : ∃ m, n = m + 1 := ⟨n - 1, by simp at hn; omega⟩
    rw [parseBody]
    have hcode : d.code ≠ T_NULL ∧ d.code ≠ T_INIT := by rw [hc]; decide
    rw [if_pos hcode, parseMsg_wf e _ d hc hy (hpos e (by simp))
      (delimited_eventTokens (e1 :: es) rest hrest)]
    simp only
    have e2 : (eventTokens (e1 :: es) ++ rest).tail =
        e1.tokens.tail ++ (eventTokens es ++ rest) := by
      simp [eventTokens, EventBlock.tokens]
    have e3 : (d.readNext (eventTokens (e1 :: es) ++ rest)).2 = d.setTok T_FILE e1.file := by
      have : eventTokens (e1 :: es) ++ rest =
          Tok.clean T_FILE e1.file :: (e1.tokens.tail ++ (eventTokens es ++ rest)) := by
        simp [eventTokens, EventBlock.tokens]
      rw [this, readNext_clean]
    rw [e2, e3, ih e1 (d.setTok T_FILE e1.file) _ m rfl rfl
      (fun x hx => hpos x (List.mem_cons_of_mem _ hx)) (by simp at hn ⊢; omega),
      setTok_readNext]
    have e4 : m + 1 - ((e1 :: es).length + 1) = m - (es.length + 1) := by simp
    rw [e4]
    simp

theorem parseBody_wf (es : List EventBlock) (e : EventBlock) (rest : List Tok) (d : Private)
    (dfc : Defect) (n : Nat) (hc : d.code = T_FILE) (hy : d.lexer.yytext = e.file)
    (hpos : ∀ x ∈ e :: es, PositionText x.pos) (hrest : AtBoundary rest)
    (hn : es.length + 2 ≤ n) :
    parseBody n (e.tokens.tail ++ (eventTokens es ++ rest)) d dfc =
      (Outcome.ret true, rest.tail, (d.readNext rest).2,
        { dfc with events := dfc.events ++ (e :: es).map EventBlock.decode }) := by
  rw [parseBody_events es e rest d dfc n hc hy hpos (delimited_of_boundary rest hrest)
    (by omega)]
  obtain ⟨m, hm⟩ : ∃ m, n - (es.length + 1) = m + 1 := ⟨n - (es.length + 1) - 1, by omega⟩
  rw [hm, parseBody, if_neg (readNext_boundary d rest hrest)]

theorem parseBody_first (n : Nat) (e : EventBlock) (ts : List Tok) (d : Private) (dfc : Defect)
    (hc : d.code = T_DEFECT) :
    parseBody (n + 1) (e.tokens ++ ts) d dfc =
      parseBody (n + 1) (e.tokens.tail ++ ts) (d.setTok T_FILE e.file) dfc := by
  have e1 : e.tokens ++ ts = Tok.clean T_FILE e.file :: (e.tokens.tail ++ ts) := by
    simp [EventBlock.tokens]
  have hA : d.code ≠ T_NULL ∧ d.code ≠ T_INIT := by rw [hc]; decide
  have hB : (d.setTok T_FILE e.file).code ≠ T_NULL ∧ (d.setTok T_FILE e.file).code ≠ T_INIT := by
    constructor <;> (show T_FILE ≠ _; decide)
  rw [parseBody, parseBody, if_pos hA, if_pos hB, e1,
    parseMsg_enter _ _ _ _ (by rw [hc]; decide) rfl, readNext_clean]
theorem parseClass_ok_transfer (d : Private) (dfc dfc0 : Defect)
    (h : (parseClass d dfc0).1 = true) : (parseClass d dfc).1 = true := by
  rcases parseClass_cases d dfc0 with ⟨_, c, rest, body, hcr, hup, hbody, hnot, _⟩ | ⟨hfail, _⟩
  · rcases parseClass_cases d dfc with ⟨hok1, _⟩ | ⟨_, hwhy⟩
    · exact hok1
    · exfalso
      rcases hwhy with h0 | ⟨c1, rest1, hcr1, hlow⟩ | hno | ⟨body1, a, tail, hsplit, hnb⟩
      · rw [h0] at hcr; simp at hcr
      · rw [hcr] at hcr1
        simp only [List.cons.injEq] at hcr1
        rw [← hcr1.1, hup] at hlow
        simp at hlow
      · rw [hbody] at hno; simp at hno
      · have h1 := strchr_split ':' body [] hnot
        have h2 := strchr_split ':' body1 (a :: tail) hnb
        rw [← hbody] at h1
        rw [← hsplit, h1] at h2
        simp at h2
  · rw [hfail] at h; simp at h

theorem parseClass_indep (d : Private) (dfc dfc0 : Defect)
    (h : (parseClass d dfc0).1 = true) :
    parseClass d dfc =
      (true, { dfc with defClass := (parseClass d dfc0).2.defClass,
                        annotation := Defect.annotation (parseClass d dfc0).2,
                        events := [] }) := by
  have h1 := parseClass_ok_transfer d dfc dfc0 h
  rcases parseClass_cases d dfc0 with ⟨_, c, rest, body, _, _, hbody, _, hres⟩ | ⟨hfail, _⟩
  · rcases parseClass_cases d dfc with ⟨hok1, c1, rest1, body1, _, _, hbody1, _, hres1⟩ | ⟨hfail1, _⟩
    · have hb : body1 = body := List.append_cancel_right (hbody1.symm.trans hbody)
      subst hb
      apply Prod.ext
      · exact hok1
      · rcases hres with ⟨hn, hd⟩ | ⟨cls, ann, hs, hd⟩
        · rcases hres1 with ⟨hn1, hd1⟩ | ⟨cls1, ann1, hs1, hd1⟩
          · rw [hd, hd1]
          · rw [hn] at hs1; simp at hs1
        · rcases hres1 with ⟨hn1, hd1⟩ | ⟨cls1, ann1, hs1, hd1⟩
          · rw [hn1] at hs; simp at hs
          · rw [hs] at hs1
            simp only [Option.some.injEq, Prod.mk.injEq] at hs1
            rw [hd, hd1, hs1.1, hs1.2]
    · rw [hfail1] at h1; simp at h1
  · rw [hfail] at h; simp at h

theorem parseClass_text (d : Private) (c : EToken) (dfc : Defect) :
    parseClass d dfc = parseClass (Private.atToken c d.lexer.yytext) dfc := rfl

theorem parseNext_wf (b : DefectBlock) (rest : List Tok) (d : Private) (dfc : Defect)
    (hc : d.code = T_INIT) (hwf : b.WellFormed) (hrest : AtBoundary rest) :
    parseNext (b.body ++ rest) d dfc =
      (Outcome.ret true, rest.tail, (d.readNext rest).2, b.decode) := by
  obtain ⟨hcls, hne, hpos⟩ := hwf
  obtain ⟨e, es, hes⟩ : ∃ e es, b.events = e :: es := by
    cases hb : b.events with
    | nil => exact absurd hb hne
    | cons e es => exact ⟨e, es, rfl⟩
  unfold parseNext
  rw [seekForToken_here T_INIT _ _ hc.symm]
  simp only [DefectBlock.body, List.cons_append]
  rw [seekForToken_next T_DEFECT _ _ _ (by rw [hc]; decide) rfl (by decide)]
  simp only [readNext_clean]
  rw [parseClass_text _ T_DEFECT]
  have ey : (d.setTok T_DEFECT b.cls).lexer.yytext = b.cls := rfl
  rw [ey, parseClass_indep (Private.atToken T_DEFECT b.cls) dfc Defect.empty hcls]
  simp only
  rw [hes] at hpos ⊢
  have hfuel : es.length + 2 ≤ (eventTokens (e :: es) ++ rest).length + 1 := by
    have := eventTokens_length (e :: es)
    simp only [List.length_append, List.length_cons] at this ⊢
    omega
  have e1 : eventTokens (e :: es) ++ rest = e.tokens ++ (eventTokens es ++ rest) := by
    simp [eventTokens]
  rw [e1] at hfuel ⊢
  rw [parseBody_first _ _ _ _ _ rfl, parseBody_wf es e rest _ _ _ rfl rfl hpos hrest hfuel,
    setTok_readNext, setTok_readNext]
  simp only [List.nil_append]
  rw [guessKeyEvent_eq _ (by simp)]
  simp only [DefectBlock.decode, hes]
  rw [guessKeyEvent_eq _ (by simp)]

theorem getNextLoop_true_step (n : Nat) (ts ts1 : List Tok) (d d1 : Private)
    (dfc dfc1 : Defect) (h : parseNext ts d dfc = (Outcome.ret true, ts1, d1, dfc1)) :
    getNextLoop (n + 1) ts d dfc = (Outcome.ret true, ts1, d1, dfc1) := by
  rw [getNextLoop, h]

theorem getNext_wf (b : DefectBlock) (rest : List Tok) (d : Private) (dfc : Defect)
    (hc : d.code = T_INIT) (hwf : b.WellFormed) (hrest : AtBoundary rest) :
    getNext (b.body ++ rest) d dfc =
      (Outcome.ret true, rest.tail, (d.readNext rest).2, b.decode) :=
  getNextLoop_true_step _ _ _ _ _ _ _ (parseNext_wf b rest d dfc hc hwf hrest)

theorem getNext_wf_first (b : DefectBlock) (rest : List Tok) (d : Private) (dfc : Defect)
    (hc : d.code ≠ T_INIT) (hwf : b.WellFormed) (hrest : AtBoundary rest) :
    getNext (b.tokens ++ rest) d dfc =
      (Outcome.ret true, rest.tail, (d.readNext rest).2, b.decode) := by
  apply getNextLoop_true_step
  have e1 : b.tokens ++ rest = Tok.clean T_INIT b.init :: (b.body ++ rest) := rfl
  rw [e1, parseNext_enter _ _ _ _ hc rfl, readNext_clean,
    parseNext_wf b rest _ dfc rfl hwf hrest, setTok_readNext]

theorem getNext_eof (d : Private) (dfc : Defect) (hc : d.code ≠ T_INIT) :
    getNext [] d dfc = (Outcome.ret false, [], (d.readNext []).2, dfc) := by
  have h1 : seekForToken T_INIT [] d = (false, [], (d.readNext []).2) := by
    simp only [seekForToken, seekLoop]
    rw [if_neg (fun e => hc e.symm)]
  have h2 : parseNext [] d dfc = (Outcome.ret false, [], (d.readNext []).2, dfc) := by
    unfold parseNext
    rw [h1]
  show getNextLoop 2 [] d dfc = _
  rw [getNextLoop, h2]
  simp [readNext_nil_code]

theorem atBoundary_streamOf (bs : List DefectBlock) : AtBoundary (streamOf bs) := by
  cases bs with
  | nil => trivial
  | cons b bs => rfl

theorem hasError_readNext_nil (d : Private) :
    Parser.hasError (d.readNext []).2 = Parser.hasError d := rfl

theorem hasError_setTok (d : Private) (c : EToken) (s : Str) :
    Parser.hasError (d.setTok c s) = Parser.hasError d := rfl

theorem hasError_readNext_streamOf (d : Private) (bs : List DefectBlock) :
    Parser.hasError (d.readNext (streamOf bs)).2 = Parser.hasError d := by
  cases bs with
  | nil => rfl
  | cons b bs =>
    have : streamOf (b :: bs) = Tok.clean T_INIT b.init :: (b.body ++ streamOf bs) := rfl
    rw [this, readNext_clean]
    rfl

theorem runCalls_wf_after (bs : List DefectBlock) (dfcs : List Defect) (last : Defect)
    (d : Private) (hwf : ∀ b ∈ bs, b.WellFormed) (hlen : dfcs.length = bs.length)
    (hd : Parser.hasError d = false) :
    runCalls (dfcs ++ [last]) (streamOf bs).tail (d.readNext (streamOf bs)).2 =
      bs.map (fun b => (Outcome.ret true, b.decode, false)) ++
        [(Outcome.ret false, last, false)] := by
  induction bs generalizing dfcs d with
  | nil =>
    cases dfcs with
    | nil =>
      show runCalls [last] [] (d.readNext []).2 = _
      rw [runCalls, getNext_eof _ _ (by rw [readNext_nil_code]; decide)]
      simp only [hasError_readNext_nil, hd]
      rfl
    | cons _ _ => simp at hlen
  | cons b bs ih =>
    cases dfcs with
    | nil => simp at hlen
    | cons dfc dfcs =>
      have e1 : (streamOf (b :: bs)).tail = b.body ++ streamOf bs := rfl
      have e2 : (d.readNext (streamOf (b :: bs))).2 = d.setTok T_INIT b.init := by
        have : streamOf (b :: bs) = Tok.clean T_INIT b.init :: (b.body ++ streamOf bs) := rfl
        rw [this, readNext_clean]
      have hflag : Parser.hasError ((d.setTok T_INIT b.init).readNext (streamOf bs)).2
          = false := by
        rw [hasError_readNext_streamOf, hasError_setTok, hd]
      rw [e1, e2, List.cons_append, runCalls,
        getNext_wf b (streamOf bs) _ dfc rfl (hwf b (by simp)) (atBoundary_streamOf bs)]
      simp only [hflag, List.map_cons, List.cons_append]
      rw [ih dfcs _ (fun x hx => hwf x (by simp [hx])) (by simpa using hlen)
        (by rw [hasError_setTok, hd])]

/-- C1: on the token stream of `N` well-formed defect blocks (each one a
separator, a class text the class decoder accepts, and one or more events
made of a file reference, a position text `:<int>:` or `:<int>:<int>:`, a
message and any number of continuations, all scanned without lexical
error), `N + 1` successive calls of `getNext` on a fresh parser, whatever
`Defect` objects the caller passes, return true `N` times and then false;
the `k`-th call hands back the defect decoded from the `k`-th block, with
the events in report order; and `hasError()` is false after every call. -/
theorem getNext_wellformed_stream (bs : List DefectBlock) (dfcs : List Defect) (last : Defect)
    (hwf : ∀ b ∈ bs, b.WellFormed) (hlen : dfcs.length = bs.length) :
    runCalls (dfcs ++ [last]) (streamOf bs) Private.init =
      bs.map (fun b => (Outcome.ret true, b.decode, false)) ++
        [(Outcome.ret false, last, false)] := by
  cases bs with
  | nil =>
    cases dfcs with
    | nil => rfl
    | cons _ _ => simp at hlen
  | cons b bs =>
    cases dfcs with
    | nil => simp at hlen
    | cons dfc dfcs =>
      have hflag : Parser.hasError (Private.init.readNext (streamOf bs)).2 = false := by
        rw [hasError_readNext_streamOf]
        rfl
      have e1 : streamOf (b :: bs) = b.tokens ++ streamOf bs := rfl
      rw [e1, List.cons_append, runCalls,
        getNext_wf_first b (streamOf bs) _ dfc (by decide) (hwf b (by simp))
          (atBoundary_streamOf bs)]
      simp only [hflag, List.map_cons, List.cons_append]
      rw [runCalls_wf_after bs dfcs last Private.init (fun x hx => hwf x (by simp [hx]))
        (by simpa using hlen) rfl]

/-- C1, witness of the spec: the report
`Error: NULL_RETURNS (null-check):` /
`f.c:10:5: returned_null: pointer returned as null` /
`f.c:12: null dereferenced`. -/
theorem getNext_wellformed_stream_witness :
    (∀ b ∈ [(⟨"Error:".toList, "NULL_RETURNS (null-check):".toList,
        [⟨"f.c".toList, ":10:5:".toList, "returned_null: pointer returned as null".toList, []⟩,
          ⟨"f.c".toList, ":12:".toList, "null dereferenced".toList, []⟩]⟩ : DefectBlock)],
      b.WellFormed) ∧
    runCalls [Defect.empty, Defect.empty]
      [Tok.clean T_INIT "Error:".toList, Tok.clean T_DEFECT "NULL_RETURNS (null-check):".toList,
        Tok.clean T_FILE "f.c".toList, Tok.clean T_LINE ":10:5:".toList,
        Tok.clean T_MSG "returned_null: pointer returned as null".toList,
        Tok.clean T_FILE "f.c".toList, Tok.clean T_LINE ":12:".toList,
        Tok.clean T_MSG "null dereferenced".toList]
      Private.init =
      [(Outcome.ret true,
          ⟨"NULL_RETURNS".toList, " (null-check)".toList,
            [⟨"f.c".toList, 10, 5, "returned_null".toList, "pointer returned as null".toList⟩,
              ⟨"f.c".toList, 12, 0, [], "null dereferenced".toList⟩], 0⟩, false),
        (Outcome.ret false, Defect.empty, false)] :=
  have hwf : ∀ b ∈ [(⟨"Error:".toList, "NULL_RETURNS (null-check):".toList,
        [⟨"f.c".toList, ":10:5:".toList, "returned_null: pointer returned as null".toList, []⟩,
          ⟨"f.c".toList, ":12:".toList, "null dereferenced".toList, []⟩]⟩ : DefectBlock)],
      b.WellFormed := by
    intro b hb
    rw [List.mem_singleton] at hb
    subst hb
    refine ⟨by decide, by decide, ?_⟩
    intro e he
    simp only [List.mem_cons, List.mem_singleton, List.not_mem_nil, or_false] at he
    rcases he with he | he
    · subst he
      exact ⟨"10".toList, by decide, Or.inr ⟨"5".toList, by decide, by decide⟩⟩
    · subst he
      exact ⟨"12".toList, by decide, Or.inl (by decide)⟩
  ⟨hwf, getNext_wellformed_stream _ [Defect.empty] Defect.empty hwf rfl⟩


/-! ## Continuation lines -/

theorem mergeExtra_eq (m : Str) (extra : List Str) :
    mergeExtra m extra = m ++ (extra.map (fun c => '\n' :: c)).flatten := by
  induction extra generalizing m with
  | nil => simp [mergeExtra]
  | cons x extra ih =>
    rw [mergeExtra_cons, ih]
    simp

theorem parseMsgText_msg (text : Str) (evt evt0 : DefEvent) :
    (parseMsgText text evt).msg = (parseMsgText text evt0).msg := by
  unfold parseMsgText
  split
  · split <;> rfl
  · rfl

theorem decode_events (b : DefectBlock) (h : b.events ≠ []) :
    b.decode.events = b.events.map EventBlock.decode := by
  unfold DefectBlock.decode
  simp only
  rw [guessKeyEvent_eq _ (by simpa using h)]

theorem count_msg_extra (extra : List Str) :
    (extra.map (Tok.clean T_MSG_EX)).filter (fun t => t.code = T_MSG) = [] := by
  rw [List.filter_eq_nil_iff]
  intro t ht
  obtain ⟨x, _, hx⟩ := List.mem_map.mp ht
  rw [← hx]
  simp [Tok.clean]

theorem count_msg_eventTokens (es : List EventBlock) :
    ((eventTokens es).filter (fun t => t.code = T_MSG)).length = es.length := by
  induction es with
  | nil => rfl
  | cons e es ih =>
    have e1 : eventTokens (e :: es) = Tok.clean T_FILE e.file :: Tok.clean T_LINE e.pos ::
        Tok.clean T_MSG e.msg :: (e.extra.map (Tok.clean T_MSG_EX) ++ eventTokens es) := by
      simp [eventTokens, EventBlock.tokens]
    rw [e1, List.filter_cons_of_neg (by simp [Tok.clean]),
      List.filter_cons_of_neg (by simp [Tok.clean]),
      List.filter_cons_of_pos (by simp [Tok.clean]), List.filter_append, count_msg_extra]
    simp [ih]

/-- Continuation merge on a well-formed block.  A well-formed defect block is next in the
stream: either the parser has not read its separator yet, or the previous
call stopped at that separator.  Then `getNext` returns true; the returned
defect has as many events as the block has message tokens, so continuation
tokens add no event; and the message of each event is the body the message
decoder gives for its message token, followed by each continuation text
after a newline, in order (the body alone when there is no continuation). -/
theorem merge_wellformed (b : DefectBlock) (ts rest : List Tok) (d : Private) (dfc : Defect)
    (hwf : b.WellFormed) (hrest : AtBoundary rest)
    (hts : (d.code ≠ T_INIT ∧ ts = b.tokens ++ rest) ∨ (d.code = T_INIT ∧ ts = b.body ++ rest)) :
    ∃ ts1 d1 dfc1, getNext ts d dfc = (Outcome.ret true, ts1, d1, dfc1) ∧
      dfc1.events.length = (b.tokens.filter (fun t => t.code = T_MSG)).length ∧
      ∀ (i : Nat) (e : EventBlock), b.events[i]? = some e →
        ∃ evt, dfc1.events[i]? = some evt ∧
          evt.msg = (parseMsgText e.msg DefEvent.empty).msg ++
            (e.extra.map (fun c => '\n' :: c)).flatten := by
  have hget : getNext ts d dfc = (Outcome.ret true, rest.tail, (d.readNext rest).2, b.decode) := by
    rcases hts with ⟨hc, rfl⟩ | ⟨hc, rfl⟩
    · exact getNext_wf_first b rest d dfc hc hwf hrest
    · exact getNext_wf b rest d dfc hc hwf hrest
  refine ⟨rest.tail, (d.readNext rest).2, b.decode, hget, ?_, ?_⟩
  · rw [decode_events b hwf.2.1, List.length_map]
    have : b.tokens.filter (fun t => t.code = T_MSG) =
        (eventTokens b.events).filter (fun t => t.code = T_MSG) := by
      simp only [DefectBlock.tokens, DefectBlock.body]
      rw [List.filter_cons_of_neg (by simp [Tok.clean]),
        List.filter_cons_of_neg (by simp [Tok.clean])]
    rw [this, count_msg_eventTokens]
  · intro i e hi
    refine ⟨e.decode, ?_, ?_⟩
    · rw [decode_events b hwf.2.1, List.getElem?_map, hi]
      rfl
    · simp only [EventBlock.decode]
      rw [mergeExtra_eq, parseMsgText_msg _ _ DefEvent.empty]



/-! ## Unexpected tokens -/

theorem seekForToken_skip (token : EToken) (u : Tok) (ts : List Tok) (d : Private)
    (h1 : token ≠ d.code) (h2 : u.code ≠ token) (h3 : u.code ≠ T_NULL) (h4 : u.code ≠ T_INIT) :
    seekForToken token (u :: ts) d = seekForToken token ts (d.readNext (u :: ts)).2.wrongToken := by
  have hc : ((d.readNext (u :: ts)).2.wrongToken).code = u.code := rfl
  have h5 : token ≠ u.code := fun e => h2 e.symm
  rw [seekForToken, if_neg h1, seekLoop]
  simp only [readNext_code, h3, h5, ite_false, hc, h4]
  rw [seekForToken, if_neg (by rw [hc]; exact h5)]

theorem seekForToken_stops (token : EToken) (ts : List Tok) (d : Private)
    (h1 : token ≠ d.code) (h2 : token ≠ T_INIT) (h : Stops ts) :
    ∃ ts1 d1, seekForToken token ts d = (false, ts1, d1) := by
  rw [seekForToken, if_neg h1]
  cases ts with
  | nil => exact ⟨_, _, rfl⟩
  | cons u ts =>
    rw [seekLoop]
    simp only [readNext_code]
    rcases h with h | h
    · rw [if_pos h]; exact ⟨_, _, rfl⟩
    · have hc : ((d.readNext (u :: ts)).2.wrongToken).code = T_INIT := h
      rw [if_neg (by rw [h]; decide), if_neg (by rw [h]; exact h2), if_pos hc]
      exact ⟨_, _, rfl⟩

theorem parseNext_stop_class (ts : List Tok) (d : Private) (dfc : Defect)
    (hc : d.code = T_INIT) (h : Stops ts) :
    (parseNext ts d dfc).1 = Outcome.ret false ∧ (parseNext ts d dfc).2.2.1.hasError = true := by
  obtain ⟨ts1, d1, h1⟩ := seekForToken_stops T_DEFECT ts d (by rw [hc]; decide) (by decide) h
  unfold parseNext
  rw [seekForToken_here T_INIT _ _ hc.symm]
  simp only [h1]
  simp [Private.wrongToken]

theorem parseMsg_stop_file (ts : List Tok) (d : Private) (evt : DefEvent)
    (hc : d.code ≠ T_FILE) (h : Stops ts) :
    ∃ ts1 d1 evt1, parseMsg ts d evt = (Outcome.ret false, ts1, d1, evt1) ∧
      d1.hasError = true := by
  obtain ⟨ts1, d1, h1⟩ := seekForToken_stops T_FILE ts d (fun e => hc e.symm) (by decide) h
  unfold parseMsg
  simp only [h1]
  exact ⟨_, _, _, rfl, rfl⟩

theorem parseMsg_stop_line (ts : List Tok) (d : Private) (evt : DefEvent)
    (hc : d.code = T_FILE) (h : Stops ts) :
    ∃ ts1 d1 evt1, parseMsg ts d evt = (Outcome.ret false, ts1, d1, evt1) ∧
      d1.hasError = true := by
  obtain ⟨ts1, d1, h1⟩ := seekForToken_stops T_LINE ts d (by rw [hc]; decide) (by decide) h
  unfold parseMsg
  rw [seekForToken_here T_FILE _ _ hc.symm]
  simp only [h1]
  exact ⟨_, _, _, rfl, rfl⟩

theorem parseMsg_stop_msg (p : Str) (ts : List Tok) (d : Private) (evt : DefEvent)
    (hc : d.code = T_FILE) (hp : PositionText p) (h : Stops ts) :
    ∃ ts1 d1 evt1, parseMsg (Tok.clean T_LINE p :: ts) d evt =
        (Outcome.ret false, ts1, d1, evt1) ∧ d1.hasError = true := by
  obtain ⟨ts1, d1, h1⟩ := seekForToken_stops T_MSG ts (d.setTok T_LINE p)
    (by show T_MSG ≠ T_LINE; decide) (by decide) h
  have hline := parseLine_wf p { evt with fileName := d.lexer.yytext } hp
  have hline2 : parseLine (d.setTok T_LINE p) { evt with fileName := d.lexer.yytext } =
      (Outcome.ret true, (parseLine (Private.atToken T_LINE p)
        { evt with fileName := d.lexer.yytext }).2) := by
    rw [parseLine_text _ T_LINE]
    exact Prod.ext hline rfl
  unfold parseMsg
  rw [seekForToken_here T_FILE _ _ hc.symm]
  simp only
  rw [seekForToken_next T_LINE _ _ _ (by rw [hc]; decide) rfl (by decide)]
  simp only [readNext_clean]
  rw [hline2]
  simp only [h1]
  exact ⟨_, _, _, rfl, rfl⟩

theorem parseBody_fail (n : Nat) (ts ts1 : List Tok) (d d1 : Private) (dfc : Defect)
    (evt1 : DefEvent) (hc : d.code ≠ T_NULL ∧ d.code ≠ T_INIT)
    (h : parseMsg ts d DefEvent.empty = (Outcome.ret false, ts1, d1, evt1)) :
    parseBody (n + 1) ts d dfc = (Outcome.ret false, ts1, d1, dfc) := by
  rw [parseBody, if_pos hc, h]

theorem parseNext_class_ok (c : Str) (ts : List Tok) (d : Private) (dfc : Defect)
    (hc : d.code = T_INIT)
    (hcls : (parseClass (Private.atToken T_DEFECT c) Defect.empty).1 = true) :
    ∃ dfc1, dfc1.events = [] ∧ parseNext (Tok.clean T_DEFECT c :: ts) d dfc =
      (match parseBody (ts.length + 1) ts (d.setTok T_DEFECT c) dfc1 with
        | (Outcome.ret true, ts3, d3, dfc3) =>
          match guessKeyEvent dfc3 with
          | (true, dfc4) => (Outcome.ret true, ts3, d3, dfc4)
          | (false, dfc4) => (Outcome.ret false, ts3, d3.wrongToken, dfc4)
        | r => r) := by
  refine ⟨{ dfc with
    defClass := (parseClass (Private.atToken T_DEFECT c) Defect.empty).2.defClass,
    annotation := Defect.annotation (parseClass (Private.atToken T_DEFECT c) Defect.empty).2,
    events := [] }, rfl, ?_⟩
  · unfold parseNext
    rw [seekForToken_here T_INIT _ _ hc.symm]
    simp only
    rw [seekForToken_next T_DEFECT _ _ _ (by rw [hc]; decide) rfl (by decide)]
    simp only [readNext_clean]
    rw [parseClass_text _ T_DEFECT]
    have ey : (d.setTok T_DEFECT c).lexer.yytext = c := rfl
    rw [ey, parseClass_indep (Private.atToken T_DEFECT c) dfc Defect.empty hcls]

theorem parseNext_body_fail (c : Str) (ts ts1 : List Tok) (d d1 : Private) (dfc : Defect)
    (hc : d.code = T_INIT)
    (hcls : (parseClass (Private.atToken T_DEFECT c) Defect.empty).1 = true)
    (h : ∀ dfc1, ∃ dfc2, parseBody (ts.length + 1) ts (d.setTok T_DEFECT c) dfc1 =
      (Outcome.ret false, ts1, d1, dfc2)) :
    ∃ dfc2, parseNext (Tok.clean T_DEFECT c :: ts) d dfc = (Outcome.ret false, ts1, d1, dfc2) := by
  obtain ⟨dfc1, _, h1⟩ := parseNext_class_ok c ts d dfc hc hcls
  obtain ⟨dfc2, h2⟩ := h dfc1
  rw [h1, h2]
  exact ⟨dfc2, rfl⟩


theorem parseBody_at_file (es : List EventBlock) (f : Str) (ts : List Tok) (d : Private)
    (dfc : Defect) (n : Nat) (hd : d.code = T_DEFECT)
    (hpos : ∀ x ∈ es, PositionText x.pos) (hn : es.length + 1 ≤ n) :
    parseBody n (eventTokens es ++ Tok.clean T_FILE f :: ts) d dfc =
      parseBody (n - es.length) ts (d.setTok T_FILE f)
        { dfc with events := dfc.events ++ es.map EventBlock.decode } := by
  obtain ⟨m, rfl⟩ : ∃ m, n = m + 1 := ⟨n - 1, by omega⟩
  cases es with
  | nil =>
    have hA : d.code ≠ T_NULL ∧ d.code ≠ T_INIT := by rw [hd]; decide
    have hB : (d.setTok T_FILE f).code ≠ T_NULL ∧ (d.setTok T_FILE f).code ≠ T_INIT := by
      constructor <;> (show T_FILE ≠ _; decide)
    show parseBody (m + 1) (Tok.clean T_FILE f :: ts) d dfc = _
    have e0 : m + 1 - ([] : List EventBlock).length = m + 1 := rfl
    rw [e0, parseBody, parseBody, if_pos hA, if_pos hB,
      parseMsg_enter _ _ _ _ (by rw [hd]; decide) rfl, readNext_clean]
    simp
  | cons e es =>
    have e1 : eventTokens (e :: es) ++ Tok.clean T_FILE f :: ts =
        e.tokens ++ (eventTokens es ++ Tok.clean T_FILE f :: ts) := by
      simp [eventTokens]
    rw [e1, parseBody_first _ _ _ _ _ hd,
      parseBody_events es e (Tok.clean T_FILE f :: ts) _ _ _ rfl rfl hpos (Or.inr rfl)
        (by simp at hn ⊢; omega),
      setTok_readNext, readNext_clean]
    have e2 : m + 1 - (es.length + 1) = m + 1 - (e :: es).length := rfl
    rw [e2]
    rfl

theorem parseMsgExtra_bad (extra : List Str) (u : Tok) (rest : List Tok) (d : Private)
    (evt : DefEvent) (hu : u.code = T_DEFECT ∨ u.code = T_LINE ∨ u.code = T_MSG) :
    ∃ evt1, parseMsgExtra (extra.map (Tok.clean T_MSG_EX) ++ u :: rest) d evt =
      (false, rest, (d.readNext (u :: rest)).2.wrongToken, evt1) := by
  induction extra generalizing d evt with
  | nil =>
    show ∃ evt1, parseMsgExtra (u :: rest) d evt = _
    rw [parseMsgExtra]
    simp only [readNext_code]
    rcases hu with h | h | h <;> rw [h] <;> exact ⟨_, rfl⟩
  | cons x extra ih =>
    show ∃ evt1, parseMsgExtra (Tok.clean T_MSG_EX x ::
      (extra.map (Tok.clean T_MSG_EX) ++ u :: rest)) d evt = _
    rw [parseMsgExtra]
    simp only [readNext_clean]
    have hc : (d.setTok T_MSG_EX x).code = T_MSG_EX := rfl
    simp only [hc]
    obtain ⟨evt1, h1⟩ := ih (d.setTok T_MSG_EX x)
      { evt with msg := evt.msg ++ '\n' :: (d.setTok T_MSG_EX x).lexer.yytext }
    rw [h1, setTok_readNext]
    exact ⟨evt1, rfl⟩

theorem parseMsg_bad_after (e : EventBlock) (u : Tok) (rest : List Tok) (d : Private)
    (hc : d.code = T_FILE) (hpos : PositionText e.pos)
    (hu : u.code = T_DEFECT ∨ u.code = T_LINE ∨ u.code = T_MSG) :
    ∃ ts1 d1 evt1, parseMsg (e.tokens.tail ++ u :: rest) d DefEvent.empty =
        (Outcome.ret false, ts1, d1, evt1) ∧ d1.hasError = true := by
  have hline := parseLine_wf e.pos { DefEvent.empty with fileName := d.lexer.yytext } hpos
  have hline2 : parseLine (d.setTok T_LINE e.pos)
      { DefEvent.empty with fileName := d.lexer.yytext } =
      (Outcome.ret true, (parseLine (Private.atToken T_LINE e.pos)
        { DefEvent.empty with fileName := d.lexer.yytext }).2) := by
    rw [parseLine_text _ T_LINE]
    exact Prod.ext hline rfl
  unfold parseMsg
  rw [seekForToken_here T_FILE _ _ hc.symm]
  simp only [EventBlock.tokens, List.tail_cons, List.cons_append]
  rw [seekForToken_next T_LINE _ _ _ (by rw [hc]; decide) rfl (by decide)]
  simp only [readNext_clean]
  rw [hline2]
  simp only
  rw [seekForToken_next T_MSG _ _ _ (by show T_MSG ≠ T_LINE; decide) rfl (by decide)]
  simp only [readNext_clean]
  obtain ⟨evt1, h1⟩ := parseMsgExtra_bad e.extra u rest ((d.setTok T_LINE e.pos).setTok T_MSG e.msg)
    (parseMsgText ((d.setTok T_LINE e.pos).setTok T_MSG e.msg).lexer.yytext
      (parseLine (Private.atToken T_LINE e.pos)
        { DefEvent.empty with fileName := d.lexer.yytext }).2) hu
  rw [h1]
  exact ⟨_, _, _, rfl, rfl⟩

/-- An attempt whose body loop, after the complete events `es`, is at a
file reference and whose next `parseMsg` fails, fails. -/
theorem parseNext_fail_at_file (c f : Str) (es : List EventBlock) (ts : List Tok)
    (d : Private) (dfc : Defect) (hc : d.code = T_INIT)
    (hcls : (parseClass (Private.atToken T_DEFECT c) Defect.empty).1 = true)
    (hpos : ∀ x ∈ es, PositionText x.pos)
    (h : ∀ d0 : Private, d0.code = T_FILE → ∃ ts1 d1 evt1,
      parseMsg ts d0 DefEvent.empty = (Outcome.ret false, ts1, d1, evt1) ∧ d1.hasError = true) :
    AttemptFailed
      (parseNext (Tok.clean T_DEFECT c :: (eventTokens es ++ Tok.clean T_FILE f :: ts)) d dfc) := by
  obtain ⟨ts1, d1, evt1, h1, h2⟩ := h ((d.setTok T_DEFECT c).setTok T_FILE f) rfl
  have hlen := eventTokens_length es
  obtain ⟨dfc2, h3⟩ := parseNext_body_fail c (eventTokens es ++ Tok.clean T_FILE f :: ts) ts1
    d d1 dfc hc hcls (by
      intro dfc1
      rw [parseBody_at_file es f ts _ dfc1 _ rfl hpos
        (by simp only [List.length_append, List.length_cons]; omega)]
      obtain ⟨m, hm⟩ : ∃ m, (eventTokens es ++ Tok.clean T_FILE f :: ts).length + 1 - es.length
          = m + 1 := ⟨(eventTokens es ++ Tok.clean T_FILE f :: ts).length - es.length, by
            simp only [List.length_append, List.length_cons]; omega⟩
      rw [hm, parseBody_fail m ts ts1 _ d1 _ evt1
        (by constructor <;> (show T_FILE ≠ _; decide)) h1]
      exact ⟨_, rfl⟩)
  unfold AttemptFailed
  rw [h3]
  exact ⟨rfl, h2⟩


theorem parseNext_stop_file (c : Str) (ts : List Tok) (d : Private) (dfc : Defect)
    (hc : d.code = T_INIT)
    (hcls : (parseClass (Private.atToken T_DEFECT c) Defect.empty).1 = true) (h : Stops ts) :
    AttemptFailed (parseNext (Tok.clean T_DEFECT c :: ts) d dfc) := by
  obtain ⟨ts1, d1, evt1, h1, h2⟩ := parseMsg_stop_file ts (d.setTok T_DEFECT c) DefEvent.empty
    (by show T_DEFECT ≠ T_FILE; decide) h
  obtain ⟨dfc2, h3⟩ := parseNext_body_fail c ts ts1 d d1 dfc hc hcls (by
    intro dfc1
    rw [parseBody_fail ts.length ts ts1 _ d1 _ evt1
      (by constructor <;> (show T_DEFECT ≠ _; decide)) h1]
    exact ⟨_, rfl⟩)
  unfold AttemptFailed
  rw [h3]
  exact ⟨rfl, h2⟩

/-- C5 fails as stated: a message token arrives where the position is
expected, and the attempt does not fail; `parseNext` returns true with a
defect assembled across the skipped token (the error flag is set). -/
theorem unexpected_token_counterexample :
    parseNext
      [Tok.clean T_INIT "Error:".toList, Tok.clean T_DEFECT "A:".toList,
        Tok.clean T_FILE "f.c".toList, Tok.clean T_MSG "junk".toList,
        Tok.clean T_LINE ":1:".toList, Tok.clean T_MSG "m".toList]
      Private.init Defect.empty =
    (Outcome.ret true, [], ⟨⟨[], false⟩, true, T_NULL⟩,
      ⟨"A".toList, [], [⟨"f.c".toList, 1, 0, [], "m".toList⟩], 0⟩) := by
  decide


/-! ## Resynchronization

The same attempt is run on `suf ++ sep :: rest` (a block in the middle of a
stream, `sep` being the next separator) and on `suf` alone (the block at
the end of a stream).  The two runs stay in step until the boundary. -/

theorem noSep_tail {t : Tok} {ts : List Tok} (h : NoSep (t :: ts)) : NoSep ts :=
  fun x hx => h x (List.mem_cons_of_mem _ hx)

theorem noSep_head {t : Tok} {ts : List Tok} (h : NoSep (t :: ts)) :
    t.code ≠ T_INIT ∧ t.code ≠ T_NULL := h t (List.mem_cons_self _ _)

theorem seekLoop_sync (token : EToken) (sep : Tok) (rest : List Tok) (hsep : sep.code = T_INIT)
    (hne : token ≠ T_INIT) (suf : List Tok) (hs : NoSep suf) (d : Private) :
    (∃ suf1 d1, seekLoop token (suf ++ sep :: rest) d = (true, suf1 ++ sep :: rest, d1) ∧
        seekLoop token suf d = (true, suf1, d1) ∧ NoSep suf1 ∧ d1.code = token ∧
        suf1.length < suf.length) ∨
    (∃ d1 d2, seekLoop token (suf ++ sep :: rest) d = (false, rest, d1) ∧
        d1.code = T_INIT ∧ d1.hasError = true ∧ seekLoop token suf d = (false, [], d2)) := by
  induction suf generalizing d with
  | nil =>
    right
    refine ⟨(d.readNext (sep :: rest)).2.wrongToken, (d.readNext []).2, ?_, hsep, rfl, rfl⟩
    show seekLoop token (sep :: rest) d = _
    have hc : ((d.readNext (sep :: rest)).2.wrongToken).code = T_INIT := hsep
    rw [seekLoop]
    simp only [readNext_code, hsep]
    rw [if_neg (by decide), if_neg hne, if_pos hc]
  | cons t suf ih =>
    obtain ⟨h1, h2⟩ := noSep_head hs
    have hs1 := noSep_tail hs
    have hc : ((d.readNext (t :: suf)).2.wrongToken).code = t.code := rfl
    have hc1 : ((d.readNext (t :: (suf ++ sep :: rest))).2.wrongToken).code = t.code := rfl
    have hst : (d.readNext (t :: (suf ++ sep :: rest))).2 = (d.readNext (t :: suf)).2 := rfl
    show (∃ suf1 d1, seekLoop token (t :: (suf ++ sep :: rest)) d = _ ∧ _) ∨
      (∃ d1 d2, seekLoop token (t :: (suf ++ sep :: rest)) d = _ ∧ _)
    rw [seekLoop, seekLoop]
    simp only [readNext_code, h2, ite_false, hc, hc1, h1]
    by_cases hf : token = t.code
    · left
      rw [if_pos hf, if_pos hf]
      exact ⟨suf, _, rfl, by rw [hst], hs1, hf.symm, by simp⟩
    · rw [if_neg hf, if_neg hf, hst]
      rcases ih hs1 ((d.readNext (t :: suf)).2.wrongToken) with
        ⟨suf1, d1, e1, e2, e3, e4, e5⟩ | ⟨d1, d2, e1, e2, e3, e4⟩
      · left
        exact ⟨suf1, d1, e1, e2, e3, e4, by simp; omega⟩
      · right
        exact ⟨d1, d2, e1, e2, e3, e4⟩

theorem seekForToken_sync (token : EToken) (sep : Tok) (rest : List Tok)
    (hsep : sep.code = T_INIT) (hne : token ≠ T_INIT) (suf : List Tok) (hs : NoSep suf)
    (d : Private) :
    (∃ suf1 d1, seekForToken token (suf ++ sep :: rest) d = (true, suf1 ++ sep :: rest, d1) ∧
        seekForToken token suf d = (true, suf1, d1) ∧ NoSep suf1 ∧ d1.code = token ∧
        suf1.length ≤ suf.length ∧ (token ≠ d.code → suf1.length < suf.length)) ∨
    (∃ d1 d2, seekForToken token (suf ++ sep :: rest) d = (false, rest, d1) ∧
        d1.code = T_INIT ∧ d1.hasError = true ∧ seekForToken token suf d = (false, [], d2)) := by
  by_cases h : token = d.code
  · left
    exact ⟨suf, d, seekForToken_here _ _ _ h, seekForToken_here _ _ _ h, hs, h.symm,
      le_refl _, fun hn => absurd h hn⟩
  · rw [seekForToken, seekForToken, if_neg h, if_neg h]
    rcases seekLoop_sync token sep rest hsep hne suf hs d with
      ⟨suf1, d1, e1, e2, e3, e4, e5⟩ | ⟨d1, d2, e1, e2, e3, e4⟩
    · left
      exact ⟨suf1, d1, e1, e2, e3, e4, by omega, fun _ => e5⟩
    · right
      exact ⟨d1, d2, e1, e2, e3, e4⟩

theorem parseMsgExtra_sync (sep : Tok) (rest : List Tok) (hsep : sep.code = T_INIT)
    (suf : List Tok) (hs : NoSep suf) (d : Private) (evt : DefEvent) :
    (∃ suf1 d1 evt1, parseMsgExtra (suf ++ sep :: rest) d evt =
          (true, suf1 ++ sep :: rest, d1, evt1) ∧
        parseMsgExtra suf d evt = (true, suf1, d1, evt1) ∧ NoSep suf1 ∧ d1.code = T_FILE ∧
        suf1.length < suf.length) ∨
    (∃ d1 d2 evt1, parseMsgExtra (suf ++ sep :: rest) d evt = (true, rest, d1, evt1) ∧
        d1.code = T_INIT ∧ parseMsgExtra suf d evt = (true, [], d2, evt1) ∧
        d2.code = T_NULL) ∨
    (∃ suf1 d1 evt1, parseMsgExtra (suf ++ sep :: rest) d evt =
          (false, suf1 ++ sep :: rest, d1, evt1) ∧
        parseMsgExtra suf d evt = (false, suf1, d1, evt1) ∧ NoSep suf1 ∧
        d1.code ≠ T_INIT ∧ d1.code ≠ T_NULL ∧ d1.hasError = true) := by
  induction suf generalizing d evt with
  | nil =>
    right; left
    refine ⟨(d.readNext (sep :: rest)).2, (d.readNext []).2, evt, ?_, hsep, rfl, rfl⟩
    show parseMsgExtra (sep :: rest) d evt = _
    rw [parseMsgExtra]
    simp only [readNext_code, hsep]
  | cons t suf ih =>
    obtain ⟨h1, h2⟩ := noSep_head hs
    have hs1 := noSep_tail hs
    have hst : (d.readNext (t :: (suf ++ sep :: rest))).2 = (d.readNext (t :: suf)).2 := rfl
    show (∃ suf1 d1 evt1, parseMsgExtra (t :: (suf ++ sep :: rest)) d evt = _ ∧ _) ∨
      (∃ d1 d2 evt1, parseMsgExtra (t :: (suf ++ sep :: rest)) d evt = _ ∧ _) ∨
      (∃ suf1 d1 evt1, parseMsgExtra (t :: (suf ++ sep :: rest)) d evt = _ ∧ _)
    rw [parseMsgExtra, parseMsgExtra, hst]
    simp only [readNext_code]
    cases hcode : t.code with
    | T_NULL => exact absurd hcode h2
    | T_INIT => exact absurd hcode h1
    | T_FILE =>
      left
      exact ⟨suf, _, evt, rfl, rfl, hs1, hcode, by simp⟩
    | T_MSG_EX =>
      simp only
      rcases ih hs1 (d.readNext (t :: suf)).2
          { evt with msg := evt.msg ++ '\n' :: (d.readNext (t :: suf)).2.lexer.yytext } with
        ⟨suf1, d1, evt1, e1, e2, e3, e4, e5⟩ | ⟨d1, d2, evt1, e1, e2, e3, e4⟩ |
        ⟨suf1, d1, evt1, e1, e2, e3, e4, e5, e6⟩
      · left
        exact ⟨suf1, d1, evt1, e1, e2, e3, e4, by simp; omega⟩
      · right; left
        exact ⟨d1, d2, evt1, e1, e2, e3, e4⟩
      · right; right
        exact ⟨suf1, d1, evt1, e1, e2, e3, e4, e5, e6⟩
    | T_DEFECT =>
      right; right
      exact ⟨suf, _, evt, rfl, rfl, hs1, by show t.code ≠ _; rw [hcode]; decide,
        by show t.code ≠ _; rw [hcode]; decide, rfl⟩
    | T_LINE =>
      right; right
      exact ⟨suf, _, evt, rfl, rfl, hs1, by show t.code ≠ _; rw [hcode]; decide,
        by show t.code ≠ _; rw [hcode]; decide, rfl⟩
    | T_MSG =>
      right; right
      exact ⟨suf, _, evt, rfl, rfl, hs1, by show t.code ≠ _; rw [hcode]; decide,
        by show t.code ≠ _; rw [hcode]; decide, rfl⟩


theorem parseMsg_sync (sep : Tok) (rest : List Tok) (hsep : sep.code = T_INIT)
    (suf : List Tok) (hs : NoSep suf) (d : Private) (evt : DefEvent) :
    (∃ suf1 d1 evt1, parseMsg (suf ++ sep :: rest) d evt =
          (Outcome.ret true, suf1 ++ sep :: rest, d1, evt1) ∧
        parseMsg suf d evt = (Outcome.ret true, suf1, d1, evt1) ∧ NoSep suf1 ∧
        d1.code = T_FILE ∧ suf1.length < suf.length) ∨
    (∃ d1 d2 evt1, parseMsg (suf ++ sep :: rest) d evt = (Outcome.ret true, rest, d1, evt1) ∧
        d1.code = T_INIT ∧ parseMsg suf d evt = (Outcome.ret true, [], d2, evt1) ∧
        d2.code = T_NULL ∧ 0 < suf.length) ∨
    (∃ ts1 d1 evt1 ts2 d2 evt2, parseMsg (suf ++ sep :: rest) d evt =
          (Outcome.ret false, ts1, d1, evt1) ∧
        parseMsg suf d evt = (Outcome.ret false, ts2, d2, evt2) ∧ d1.hasError = true ∧
        ResyncPos sep rest ts1 d1) ∨
    ((parseMsg (suf ++ sep :: rest) d evt).1 = (parseMsg suf d evt).1 ∧
      ∀ bb, (parseMsg (suf ++ sep :: rest) d evt).1 ≠ Outcome.ret bb) := by
  rcases seekForToken_sync T_FILE sep rest hsep (by decide) suf hs d with
    ⟨suf1, d1, a1, b1, s1, c1, l1, _⟩ | ⟨d1, d2, a1, k1, f1, b1⟩
  · rcases seekForToken_sync T_LINE sep rest hsep (by decide) suf1 s1 d1 with
      ⟨suf2, d2, a2, b2, s2, c2, _, l2⟩ | ⟨d2, d3, a2, k2, f2, b2⟩
    · have hlt : suf2.length < suf1.length := l2 (by rw [c1]; decide)
      cases hp : parseLine d2 { evt with fileName := d1.lexer.yytext } with
      | mk o evt2 =>
        cases o with
        | ret bb =>
          cases bb with
          | true =>
            rcases seekForToken_sync T_MSG sep rest hsep (by decide) suf2 s2 d2 with
              ⟨suf3, d3, a3, b3, s3, c3, l3, _⟩ | ⟨d3, d4, a3, k3, f3, b3⟩
            · rcases parseMsgExtra_sync sep rest hsep suf3 s3 d3
                  (parseMsgText d3.lexer.yytext evt2) with
                ⟨suf4, d4, evt4, a4, b4, s4, c4, l4⟩ | ⟨d4, d5, evt4, a4, c4, b4, c5⟩ |
                ⟨suf4, d4, evt4, a4, b4, s4, c4, c5, f4⟩
              · left
                refine ⟨suf4, d4, evt4, ?_, ?_, s4, c4, by omega⟩
                · simp only [parseMsg, a1, a2, hp, a3, a4]
                · simp only [parseMsg, b1, b2, hp, b3, b4]
              · right; left
                refine ⟨d4, d5, evt4, ?_, c4, ?_, c5, by omega⟩
                · simp only [parseMsg, a1, a2, hp, a3, a4]
                · simp only [parseMsg, b1, b2, hp, b3, b4]
              · right; right; left
                refine ⟨suf4 ++ sep :: rest, d4, evt4, suf4, d4, evt4, ?_, ?_, f4,
                  Or.inl ⟨suf4, rfl, s4, c4, c5⟩⟩
                · simp only [parseMsg, a1, a2, hp, a3, a4]
                · simp only [parseMsg, b1, b2, hp, b3, b4]
            · right; right; left
              refine ⟨rest, d3.wrongToken, evt2, [], d4.wrongToken, evt2, ?_, ?_, rfl,
                Or.inr ⟨rfl, k3⟩⟩
              · simp only [parseMsg, a1, a2, hp, a3]
              · simp only [parseMsg, b1, b2, hp, b3]
          | false =>
            right; right; left
            refine ⟨suf2 ++ sep :: rest, d2.wrongToken, evt2, suf2, d2.wrongToken, evt2,
              ?_, ?_, rfl, Or.inl ⟨suf2, rfl, s2, ?_, ?_⟩⟩
            · simp only [parseMsg, a1, a2, hp]
            · simp only [parseMsg, b1, b2, hp]
            · show d2.code ≠ T_INIT
              rw [c2]; decide
            · show d2.code ≠ T_NULL
              rw [c2]; decide
        | thrown =>
          right; right; right
          have ha : parseMsg (suf ++ sep :: rest) d evt =
              (Outcome.thrown, suf2 ++ sep :: rest, d2, evt2) := by
            simp only [parseMsg, a1, a2, hp]
          have hb : parseMsg suf d evt = (Outcome.thrown, suf2, d2, evt2) := by
            simp only [parseMsg, b1, b2, hp]
          rw [ha, hb]
          exact ⟨rfl, fun bb h => by cases h⟩
        | nofuel =>
          right; right; right
          have ha : parseMsg (suf ++ sep :: rest) d evt =
              (Outcome.nofuel, suf2 ++ sep :: rest, d2, evt2) := by
            simp only [parseMsg, a1, a2, hp]
          have hb : parseMsg suf d evt = (Outcome.nofuel, suf2, d2, evt2) := by
            simp only [parseMsg, b1, b2, hp]
          rw [ha, hb]
          exact ⟨rfl, fun bb h => by cases h⟩
    · right; right; left
      refine ⟨rest, d2.wrongToken, { evt with fileName := d1.lexer.yytext }, [], d3.wrongToken,
        { evt with fileName := d1.lexer.yytext }, ?_, ?_, rfl, Or.inr ⟨rfl, k2⟩⟩
      · simp only [parseMsg, a1, a2]
      · simp only [parseMsg, b1, b2]
  · right; right; left
    refine ⟨rest, d1.wrongToken, evt, [], d2.wrongToken, evt, ?_, ?_, rfl, Or.inr ⟨rfl, k1⟩⟩
    · simp only [parseMsg, a1]
    · simp only [parseMsg, b1]


theorem parseBody_sync (sep : Tok) (rest : List Tok) (hsep : sep.code = T_INIT) (n : Nat) :
    ∀ (n1 : Nat) (suf : List Tok) (d : Private) (dfc dfc0 : Defect), NoSep suf →
      dfc.events = dfc0.events → suf.length + 1 ≤ n → suf.length + 1 ≤ n1 →
      (d.code ≠ T_NULL ∧ d.code ≠ T_INIT) →
      (∃ d1 d2 dfc1 dfc2, parseBody n (suf ++ sep :: rest) d dfc =
            (Outcome.ret true, rest, d1, dfc1) ∧ d1.code = T_INIT ∧
          parseBody n1 suf d dfc0 = (Outcome.ret true, [], d2, dfc2) ∧
          dfc1.events = dfc2.events) ∨
      (∃ ts1 d1 dfc1, parseBody n (suf ++ sep :: rest) d dfc =
            (Outcome.ret false, ts1, d1, dfc1) ∧ d1.hasError = true ∧
          ResyncPos sep rest ts1 d1 ∧ (parseBody n1 suf d dfc0).1 = Outcome.ret false) ∨
      ((parseBody n (suf ++ sep :: rest) d dfc).1 = (parseBody n1 suf d dfc0).1 ∧
        ∀ bb, (parseBody n (suf ++ sep :: rest) d dfc).1 ≠ Outcome.ret bb) := by
  induction n with
  | zero => intro n1 suf d dfc dfc0 _ _ hn; omega
  | succ k ih =>
    intro n1 suf d dfc dfc0 hs hev hn hn1 hd
    obtain ⟨k1, rfl⟩ : ∃ k1, n1 = k1 + 1 := ⟨n1 - 1, by omega⟩
    rw [parseBody, parseBody, if_pos hd, if_pos hd]
    rcases parseMsg_sync sep rest hsep suf hs d DefEvent.empty with
      ⟨suf1, d1, evt1, a, b, s1, c1, l1⟩ | ⟨d1, d2, evt1, a, c1, b, c2, l1⟩ |
      ⟨ts1, d1, evt1, ts2, d2, evt2, a, b, f1, p1⟩ | ⟨e1, e2⟩
    · rw [a, b]
      simp only
      exact ih k1 suf1 d1 _ _ s1 (by simp [hev]) (by omega) (by omega)
        (by rw [c1]; decide)
    · rw [a, b]
      simp only
      obtain ⟨j, rfl⟩ : ∃ j, k = j + 1 := ⟨k - 1, by omega⟩
      obtain ⟨j1, rfl⟩ : ∃ j1, k1 = j1 + 1 := ⟨k1 - 1, by omega⟩
      left
      rw [parseBody, parseBody, if_neg (by rw [c1]; decide), if_neg (by rw [c2]; decide)]
      exact ⟨d1, d2, _, _, rfl, c1, rfl, by simp [hev]⟩
    · rw [a, b]
      right; left
      exact ⟨ts1, d1, dfc, rfl, f1, p1, rfl⟩
    · right; right
      cases ha : parseMsg (suf ++ sep :: rest) d DefEvent.empty with
      | mk o ra =>
        cases hb : parseMsg suf d DefEvent.empty with
        | mk o1 rb =>
          rw [ha, hb] at e1
          rw [ha] at e2
          simp only at e1 e2
          subst e1
          obtain ⟨ta, da, ea⟩ := ra
          obtain ⟨tb, db, eb⟩ := rb
          cases o with
          | ret bb => exact absurd rfl (e2 bb)
          | thrown => exact ⟨rfl, fun bb h => by cases h⟩
          | nofuel => exact ⟨rfl, fun bb h => by cases h⟩

theorem guessKeyEvent_fst (dfc dfc0 : Defect) (h : dfc.events = dfc0.events) :
    (guessKeyEvent dfc).1 = (guessKeyEvent dfc0).1 := by
  by_cases he : dfc.events = []
  · have he0 : dfc0.events = [] := by rw [← h]; exact he
    simp [guessKeyEvent, he, he0]
  · have he0 : dfc0.events ≠ [] := by rw [← h]; exact he
    rw [guessKeyEvent_eq dfc he, guessKeyEvent_eq dfc0 he0]

/-- The attempt on a block in the middle of a stream ends as the attempt
on the block alone; when it fails the error flag is set and the parser is
left inside the block or at the next separator. -/
theorem parseNext_sync (sep : Tok) (rest : List Tok) (hsep : sep.code = T_INIT)
    (suf : List Tok) (hs : NoSep suf) (d : Private) (dfc dfc0 : Defect)
    (hc : d.code = T_INIT) :
    (parseNext (suf ++ sep :: rest) d dfc).1 = (parseNext suf d dfc0).1 ∧
    ((parseNext (suf ++ sep :: rest) d dfc).1 = Outcome.ret false →
      (parseNext (suf ++ sep :: rest) d dfc).2.2.1.hasError = true ∧
      ResyncPos sep rest (parseNext (suf ++ sep :: rest) d dfc).2.1
        (parseNext (suf ++ sep :: rest) d dfc).2.2.1) := by
  unfold parseNext
  rw [seekForToken_here T_INIT _ _ hc.symm, seekForToken_here T_INIT _ _ hc.symm]
  simp only
  rcases seekForToken_sync T_DEFECT sep rest hsep (by decide) suf hs d with
    ⟨suf1, d1, a1, b1, s1, c1, l1, _⟩ | ⟨d1, d2, a1, k1, f1, b1⟩
  · rw [a1, b1]
    simp only
    by_cases hcls : (parseClass d1 Defect.empty).1 = true
    · rw [parseClass_indep d1 dfc Defect.empty hcls, parseClass_indep d1 dfc0 Defect.empty hcls]
      simp only
      rcases parseBody_sync sep rest hsep ((suf1 ++ sep :: rest).length + 1)
          (suf1.length + 1) suf1 d1
          { dfc with defClass := (parseClass d1 Defect.empty).2.defClass,
                     annotation := Defect.annotation (parseClass d1 Defect.empty).2,
                     events := [] }
          { dfc0 with defClass := (parseClass d1 Defect.empty).2.defClass,
                      annotation := Defect.annotation (parseClass d1 Defect.empty).2,
                      events := [] }
          s1 rfl (by simp) (le_refl _) (by rw [c1]; decide) with
        ⟨d3, d4, dfc3, dfc4, a3, c3, b3, e3⟩ | ⟨ts3, d3, dfc3, a3, f3, p3, b3⟩ | ⟨e3, e4⟩
      · rw [a3, b3]
        simp only
        have hg := guessKeyEvent_fst dfc3 dfc4 e3
        cases hga : guessKeyEvent dfc3 with
        | mk ga ra =>
          cases hgb : guessKeyEvent dfc4 with
          | mk gb rb =>
            rw [hga, hgb] at hg
            simp only at hg
            subst hg
            cases ga with
            | true => exact ⟨rfl, fun h => by cases h⟩
            | false => exact ⟨rfl, fun _ => ⟨rfl, Or.inr ⟨rfl, c3⟩⟩⟩
      · rw [a3]
        cases hb : parseBody (suf1.length + 1) suf1 d1
            { dfc0 with defClass := (parseClass d1 Defect.empty).2.defClass,
                        annotation := Defect.annotation (parseClass d1 Defect.empty).2,
                        events := [] } with
        | mk o rb =>
          rw [hb] at b3
          simp only at b3
          subst b3
          exact ⟨rfl, fun _ => ⟨f3, p3⟩⟩
      · cases ha : parseBody ((suf1 ++ sep :: rest).length + 1) (suf1 ++ sep :: rest) d1
            { dfc with defClass := (parseClass d1 Defect.empty).2.defClass,
                       annotation := Defect.annotation (parseClass d1 Defect.empty).2,
                       events := [] } with
        | mk o ra =>
          cases hb : parseBody (suf1.length + 1) suf1 d1
              { dfc0 with defClass := (parseClass d1 Defect.empty).2.defClass,
                          annotation := Defect.annotation (parseClass d1 Defect.empty).2,
                          events := [] } with
          | mk o1 rb =>
            rw [ha, hb] at e3
            rw [ha] at e4
            simp only at e3 e4
            subst e3
            obtain ⟨ta, da, ea⟩ := ra
            obtain ⟨tb, db, eb⟩ := rb
            cases o with
            | ret bb => exact absurd rfl (e4 bb)
            | thrown => exact ⟨rfl, fun h => by cases h⟩
            | nofuel => exact ⟨rfl, fun h => by cases h⟩
    · have h1 : (parseClass d1 dfc).1 = false := by
        cases h : (parseClass d1 dfc).1 with
        | false => rfl
        | true => exact absurd (parseClass_ok_transfer d1 Defect.empty dfc h) hcls
      have h2 : (parseClass d1 dfc0).1 = false := by
        cases h : (parseClass d1 dfc0).1 with
        | false => rfl
        | true => exact absurd (parseClass_ok_transfer d1 Defect.empty dfc0 h) hcls
      cases ha : parseClass d1 dfc with
      | mk ba ra =>
        cases hb : parseClass d1 dfc0 with
        | mk bb rb =>
          rw [ha] at h1
          rw [hb] at h2
          simp only at h1 h2
          subst h1
          subst h2
          exact ⟨rfl, fun _ => ⟨rfl, Or.inl ⟨suf1, rfl, s1, by
            show d1.code ≠ T_INIT
            rw [c1]; decide, by
            show d1.code ≠ T_NULL
            rw [c1]; decide⟩⟩⟩
  · rw [a1, b1]
    exact ⟨rfl, fun _ => ⟨rfl, Or.inr ⟨rfl, k1⟩⟩⟩


theorem seekLoop_to_sep (sep : Tok) (rest : List Tok) (hsep : sep.code = T_INIT)
    (suf : List Tok) (hs : NoSep suf) (d : Private) :
    ∃ d1, seekLoop T_INIT (suf ++ sep :: rest) d = (true, rest, d1) ∧ d1.code = T_INIT ∧
      flagsLe d d1 := by
  induction suf generalizing d with
  | nil =>
    refine ⟨(d.readNext (sep :: rest)).2, ?_, hsep, flagsLe_readNext d _⟩
    show seekLoop T_INIT (sep :: rest) d = _
    rw [seekLoop]
    simp [readNext_code, hsep]
  | cons t suf ih =>
    obtain ⟨h1, h2⟩ := noSep_head hs
    obtain ⟨d1, e1, e2, e3⟩ := ih (noSep_tail hs) (d.readNext (t :: (suf ++ sep :: rest))).2.wrongToken
    refine ⟨d1, ?_, e2, flagsLe_trans (flagsLe_trans (flagsLe_readNext d _)
      (flagsLe_wrongToken _)) e3⟩
    show seekLoop T_INIT (t :: (suf ++ sep :: rest)) d = _
    have hc : ((d.readNext (t :: (suf ++ sep :: rest))).2.wrongToken).code = t.code := rfl
    rw [seekLoop]
    simp only [readNext_code, h2, ite_false, hc, h1]
    rw [if_neg (fun e => h1 e.symm)]
    exact e1

theorem parseNext_resume (ts ts1 : List Tok) (d d1 : Private) (dfc : Defect)
    (h : seekForToken T_INIT ts d = (true, ts1, d1)) (hc : d1.code = T_INIT) :
    parseNext ts d dfc = parseNext ts1 d1 dfc := by
  unfold parseNext
  rw [h, seekForToken_here T_INIT ts1 d1 hc.symm]

/-- From wherever a failed attempt left the parser, the next attempt finds
the separator of the well-formed block that follows and returns its
defect. -/
theorem parseNext_from_resyncPos (b : DefectBlock) (ts1 : List Tok) (d1 : Private)
    (dfc : Defect) (hwf : b.WellFormed)
    (hpos : ResyncPos (Tok.clean T_INIT b.init) b.body ts1 d1) :
    ∃ d3, parseNext ts1 d1 dfc = (Outcome.ret true, [], d3, b.decode) ∧ d3.code = T_NULL ∧
      flagsLe d1 d3 := by
  have hbody : b.body = b.body ++ [] := by simp
  rcases hpos with ⟨suf1, e1, s1, c1, _⟩ | ⟨e1, c1⟩
  · obtain ⟨d2, h2, c2, f2⟩ := seekLoop_to_sep (Tok.clean T_INIT b.init) b.body rfl suf1 s1 d1
    have h3 : seekForToken T_INIT ts1 d1 = (true, b.body, d2) := by
      rw [seekForToken, if_neg (fun e => c1 e.symm), e1, h2]
    refine ⟨(d2.readNext []).2, ?_, rfl, flagsLe_trans f2 (flagsLe_readNext d2 [])⟩
    rw [parseNext_resume ts1 b.body d1 d2 dfc h3 c2, hbody,
      parseNext_wf b [] d2 dfc c2 hwf trivial]
    rfl
  · refine ⟨(d1.readNext []).2, ?_, rfl, flagsLe_readNext d1 []⟩
    rw [e1, hbody, parseNext_wf b [] d1 dfc c1 hwf trivial]
    rfl

theorem resyncPos_code (sep : Tok) (rest ts1 : List Tok) (d1 : Private)
    (h : ResyncPos sep rest ts1 d1) : d1.code ≠ T_NULL := by
  rcases h with ⟨_, _, _, _, h⟩ | ⟨_, h⟩
  · exact h
  · rw [h]; decide

/-- One call of `getNext` at a malformed block followed by a well-formed
one: the attempt on the malformed block fails, the next one returns the
defect of the well-formed block. -/
theorem getNext_resync (b : DefectBlock) (mbody : List Tok) (d : Private) (dfc : Defect)
    (hwf : b.WellFormed) (hs : NoSep mbody) (hc : d.code = T_INIT)
    (hfail : (parseNext mbody d Defect.empty).1 = Outcome.ret false) :
    ∃ d3, getNext (mbody ++ b.tokens) d dfc = (Outcome.ret true, [], d3, b.decode) ∧
      d3.code = T_NULL ∧ Parser.hasError d3 = true := by
  have hsync := parseNext_sync (Tok.clean T_INIT b.init) b.body rfl mbody hs d dfc
    Defect.empty hc
  have hts : mbody ++ b.tokens = mbody ++ Tok.clean T_INIT b.init :: b.body := rfl
  rw [hts]
  cases hp : parseNext (mbody ++ Tok.clean T_INIT b.init :: b.body) d dfc with
  | mk o r =>
    obtain ⟨ts1, d1, dfc1⟩ := r
    rw [hp] at hsync
    simp only at hsync
    have ho : o = Outcome.ret false := by rw [hsync.1, hfail]
    subst ho
    obtain ⟨hflag, hpos⟩ := hsync.2 rfl
    obtain ⟨d3, h3, c3, f3⟩ := parseNext_from_resyncPos b ts1 d1 dfc1 hwf hpos
    refine ⟨d3, ?_, c3, ?_⟩
    · rw [getNext, getNextLoop, hp]
      simp only
      rw [if_pos (resyncPos_code _ _ _ _ hpos), getNextLoop, h3]
    · exact flagsLe_hasError f3 (by simp [Parser.hasError, hflag])

/-- C4 (as the code has it): resynchronization.  `A` and `B` are
well-formed defect blocks; `M` begins with a separator `m0`, holds no other
separator and no end-of-stream token, and the Record Builder attempt on
`M` fails (on `M` alone `parseNext` returns false: it neither gets past
the flaws of `M` by skipping tokens, nor raises).  Then on the stream
`A M B` three calls of `getNext` on a fresh parser, whatever `Defect`
objects the caller passes, return true with the defect of `A`, true with
the defect of `B`, and false; `hasError()` is true after the second and
the third call. -/
theorem resynchronization (A B : DefectBlock) (m0 : Tok) (mbody : List Tok)
    (x1 x2 x3 : Defect) (hA : A.WellFormed) (hB : B.WellFormed) (hm0 : m0.code = T_INIT)
    (hbody : NoSep mbody)
    (hfail : (parseNext (m0 :: mbody) Private.init Defect.empty).1 = Outcome.ret false) :
    runCalls [x1, x2, x3] (A.tokens ++ (m0 :: mbody ++ B.tokens)) Private.init =
      [(Outcome.ret true, A.decode, m0.lexError), (Outcome.ret true, B.decode, true),
        (Outcome.ret false, x3, true)] := by
  have hfail1 : (parseNext mbody (Private.init.readNext (m0 :: (mbody ++ B.tokens))).2
      Defect.empty).1 = Outcome.ret false := by
    rw [parseNext_enter m0 mbody Private.init Defect.empty (by decide) hm0] at hfail
    exact hfail
  obtain ⟨d3, h3, c3, f3⟩ := getNext_resync B mbody
    (Private.init.readNext (m0 :: (mbody ++ B.tokens))).2 x2 hB hbody hm0 hfail1
  have h1 := getNext_wf_first A (m0 :: (mbody ++ B.tokens)) Private.init x1 (by decide) hA hm0
  have hts : A.tokens ++ (m0 :: mbody ++ B.tokens) = A.tokens ++ m0 :: (mbody ++ B.tokens) := rfl
  have hf3 : Parser.hasError (d3.readNext []).2 = true := by
    rw [hasError_readNext_nil]; exact f3
  rw [hts, runCalls, h1]
  simp only [List.tail_cons]
  rw [runCalls, h3]
  simp only
  rw [runCalls, getNext_eof d3 x3 (by rw [c3]; decide)]
  simp only [runCalls, f3, hf3]
  have : Parser.hasError (Private.init.readNext (m0 :: (mbody ++ B.tokens))).2 = m0.lexError := by
    simp [Parser.hasError, Private.readNext, FlexLexerWrap.readNext, Private.init]
  rw [this]


/-- C4 (as the code has it), an instance: between two good defects, a
separator followed by a stray file reference. -/
theorem resynchronization_witness :
    (parseNext [Tok.clean T_INIT "Error:".toList, Tok.clean T_FILE "x.c".toList]
      Private.init Defect.empty).1 = Outcome.ret false ∧
    runCalls [Defect.empty, Defect.empty, Defect.empty]
      [Tok.clean T_INIT "Error:".toList, Tok.clean T_DEFECT "A:".toList,
        Tok.clean T_FILE "a.c".toList, Tok.clean T_LINE ":1:".toList,
        Tok.clean T_MSG "ma".toList,
        Tok.clean T_INIT "Error:".toList, Tok.clean T_FILE "x.c".toList,
        Tok.clean T_INIT "Error:".toList, Tok.clean T_DEFECT "B:".toList,
        Tok.clean T_FILE "b.c".toList, Tok.clean T_LINE ":2:3:".toList,
        Tok.clean T_MSG "mb".toList]
      Private.init =
      [(Outcome.ret true, ⟨"A".toList, [], [⟨"a.c".toList, 1, 0, [], "ma".toList⟩], 0⟩, false),
        (Outcome.ret true, ⟨"B".toList, [], [⟨"b.c".toList, 2, 3, [], "mb".toList⟩], 0⟩, true),
        (Outcome.ret false, Defect.empty, true)] :=
  have hA : (⟨"Error:".toList, "A:".toList,
      [⟨"a.c".toList, ":1:".toList, "ma".toList, []⟩]⟩ : DefectBlock).WellFormed :=
    ⟨by decide, by decide, fun e he => by
      simp only [List.mem_singleton] at he
      subst he
      exact ⟨"1".toList, by decide, Or.inl (by decide)⟩⟩
  have hB : (⟨"Error:".toList, "B:".toList,
      [⟨"b.c".toList, ":2:3:".toList, "mb".toList, []⟩]⟩ : DefectBlock).WellFormed :=
    ⟨by decide, by decide, fun e he => by
      simp only [List.mem_singleton] at he
      subst he
      exact ⟨"2".toList, by decide, Or.inr ⟨"3".toList, by decide, by decide⟩⟩⟩
  have hM : NoSep [Tok.clean T_FILE "x.c".toList] := fun t ht => by
    simp only [List.mem_singleton] at ht
    subst ht
    decide
  have hfail : (parseNext [Tok.clean T_INIT "Error:".toList, Tok.clean T_FILE "x.c".toList]
      Private.init Defect.empty).1 = Outcome.ret false := by decide
  ⟨hfail, resynchronization _ _ (Tok.clean T_INIT "Error:".toList)
    [Tok.clean T_FILE "x.c".toList] Defect.empty Defect.empty Defect.empty hA hB rfl hM hfail⟩

/-- C4 fails as stated: the middle block `M` begins with a separator, has
no other separator and no end-of-stream token, and is not a well-formed
defect block (a message token stands between its file reference and its
position); yet `getNext` returns true three times, the second time with a
defect made from `M`. -/
theorem resynchronization_counterexample :
    (∀ b : DefectBlock, b.tokens ≠
      [Tok.clean T_INIT "Error:".toList, Tok.clean T_DEFECT "M:".toList,
        Tok.clean T_FILE "g.c".toList, Tok.clean T_MSG "junk".toList,
        Tok.clean T_LINE ":7:".toList, Tok.clean T_MSG "mm".toList]) ∧
    runCalls [Defect.empty, Defect.empty, Defect.empty, Defect.empty]
      [Tok.clean T_INIT "Error:".toList, Tok.clean T_DEFECT "A:".toList,
        Tok.clean T_FILE "a.c".toList, Tok.clean T_LINE ":1:".toList,
        Tok.clean T_MSG "ma".toList,
        Tok.clean T_INIT "Error:".toList, Tok.clean T_DEFECT "M:".toList,
        Tok.clean T_FILE "g.c".toList, Tok.clean T_MSG "junk".toList,
        Tok.clean T_LINE ":7:".toList, Tok.clean T_MSG "mm".toList,
        Tok.clean T_INIT "Error:".toList, Tok.clean T_DEFECT "B:".toList,
        Tok.clean T_FILE "b.c".toList, Tok.clean T_LINE ":2:3:".toList,
        Tok.clean T_MSG "mb".toList]
      Private.init =
      [(Outcome.ret true, ⟨"A".toList, [], [⟨"a.c".toList, 1, 0, [], "ma".toList⟩], 0⟩, false),
        (Outcome.ret true, ⟨"M".toList, [], [⟨"g.c".toList, 7, 0, [], "mm".toList⟩], 0⟩, true),
        (Outcome.ret true, ⟨"B".toList, [], [⟨"b.c".toList, 2, 3, [], "mb".toList⟩], 0⟩, true),
        (Outcome.ret false, Defect.empty, true)] := by
  refine ⟨?_, by decide⟩
  intro b h
  have h1 : (b.tokens.map Tok.code)[3]? = some T_MSG := by rw [h]; rfl
  cases hb : b.events with
  | nil => simp [DefectBlock.tokens, DefectBlock.body, hb, eventTokens] at h1
  | cons e es =>
    simp [DefectBlock.tokens, DefectBlock.body, hb, eventTokens, EventBlock.tokens,
      Tok.clean] at h1


/-! ## Every call returns

The loops of `parseNext` and `getNext` are given fuel in the embedding.
Every pass of either loop takes at least one token from the scanner, so
the fuel they are started with is never used up. -/

theorem seekLoop_progress (token : EToken) (ts : List Tok) (d : Private) :
    (seekLoop token ts d).2.1.length ≤ ts.length ∧
    ((seekLoop token ts d).2.2.code = T_NULL ∨ (seekLoop token ts d).2.1.length < ts.length) ∧
    ((seekLoop token ts d).1 = true →
      (seekLoop token ts d).2.1.length < ts.length ∧ (seekLoop token ts d).2.2.code = token) := by
  induction ts generalizing d with
  | nil => exact ⟨le_refl _, Or.inl rfl, fun h => by simp [seekLoop] at h⟩
  | cons t ts ih =>
    have hc : ((d.readNext (t :: ts)).2.wrongToken).code = t.code := rfl
    rw [seekLoop]
    simp only [readNext_code, hc]
    split
    · rename_i h
      exact ⟨by simp, Or.inl h, fun h1 => by cases h1⟩
    · split
      · rename_i h
        exact ⟨by simp, Or.inr (by simp), fun _ => ⟨by simp, h.symm⟩⟩
      · split
        · exact ⟨by simp, Or.inr (by simp), fun h1 => by cases h1⟩
        · obtain ⟨i0, i1, i2⟩ := ih (d.readNext (t :: ts)).2.wrongToken
          refine ⟨by simp only [List.length_cons]; omega,
            Or.inr (by simp only [List.length_cons]; omega), fun h1 => ?_⟩
          obtain ⟨j1, j2⟩ := i2 h1
          exact ⟨by simp only [List.length_cons]; omega, j2⟩

theorem seekForToken_progress (token : EToken) (ts : List Tok) (d : Private) :
    (seekForToken token ts d).2.1.length ≤ ts.length ∧
    ((seekForToken token ts d).1 = true → (seekForToken token ts d).2.2.code = token) ∧
    ((seekForToken token ts d).1 = true → token ≠ d.code →
      (seekForToken token ts d).2.1.length < ts.length) ∧
    ((seekForToken token ts d).1 = false →
      (seekForToken token ts d).2.2.code = T_NULL ∨
        (seekForToken token ts d).2.1.length < ts.length) := by
  unfold seekForToken
  split
  · rename_i h
    exact ⟨le_refl _, fun _ => h.symm, fun _ hn => absurd h hn, fun h1 => by cases h1⟩
  · obtain ⟨i0, i1, i2⟩ := seekLoop_progress token ts d
    exact ⟨i0, fun h1 => (i2 h1).2, fun h1 _ => (i2 h1).1, fun _ => i1⟩

theorem parseMsgExtra_length (ts : List Tok) (d : Private) (evt : DefEvent) :
    (parseMsgExtra ts d evt).2.1.length ≤ ts.length := by
  induction ts generalizing d evt with
  | nil => simp [parseMsgExtra]
  | cons t ts ih =>
    rw [parseMsgExtra]
    split
    · exact Nat.le_succ _
    · exact Nat.le_succ _
    · exact Nat.le_succ _
    · have := ih (d.readNext (t :: ts)).2
        { evt with msg := evt.msg ++ '\n' :: (d.readNext (t :: ts)).2.lexer.yytext }
      simp only [List.length_cons]
      omega
    · exact Nat.le_succ _

theorem parseLine_ne_nofuel (d : Private) (evt : DefEvent) :
    (parseLine d evt).1 ≠ Outcome.nofuel := by
  unfold parseLine
  split
  · simp
  · split
    · simp
    · split
      · simp
      · split
        · simp
        · split
          · split <;> simp
          · simp

theorem parseMsg_progress (ts : List Tok) (d : Private) (evt : DefEvent) :
    (parseMsg ts d evt).2.1.length ≤ ts.length ∧
    ((parseMsg ts d evt).1 = Outcome.ret true → (parseMsg ts d evt).2.1.length < ts.length) ∧
    (parseMsg ts d evt).1 ≠ Outcome.nofuel := by
  unfold parseMsg
  have a1 := seekForToken_progress T_FILE ts d
  split
  · rename_i ts1 d1 h1
    rw [h1] at a1
    exact ⟨a1.1, fun h => (by cases h), fun h => (by cases h)⟩
  · rename_i ts1 d1 h1
    rw [h1] at a1
    have c1 : d1.code = T_FILE := a1.2.1 rfl
    have a2 := seekForToken_progress T_LINE ts1 d1
    simp only
    split
    · rename_i ts2 d2 h2
      rw [h2] at a2
      exact ⟨le_trans a2.1 a1.1, fun h => (by cases h), fun h => (by cases h)⟩
    · rename_i ts2 d2 h2
      rw [h2] at a2
      have l2 : ts2.length < ts1.length := a2.2.2.1 rfl (by rw [c1]; decide)
      have l1 : ts1.length ≤ ts.length := a1.1
      have a3 := seekForToken_progress T_MSG ts2 d2
      split
      · split
        · rename_i ts3 d3 h3
          rw [h3] at a3
          have := a3.1
          exact ⟨(by simp only at this ⊢; omega), fun h => (by cases h), fun h => (by cases h)⟩
        · rename_i evt2 _ _ ts3 d3 h3
          rw [h3] at a3
          have l3 := a3.1
          have a4 := parseMsgExtra_length ts3 d3 (parseMsgText d3.lexer.yytext evt2)
          simp only at l3
          split
          · rename_i h4
            rw [h4] at a4
            simp only at a4
            exact ⟨(by simp only; omega), fun _ => (by simp only; omega), fun h => (by cases h)⟩
          · rename_i h4
            rw [h4] at a4
            simp only at a4
            exact ⟨(by simp only; omega), fun h => (by cases h), fun h => (by cases h)⟩
      · exact ⟨(by simp only; omega), fun h => (by cases h), fun h => (by cases h)⟩
      · rename_i o evt2 hne hne2 hp
        refine ⟨(by simp only; omega), fun h => ?_, fun h => ?_⟩
        · simp only at h
          subst h
          exact absurd rfl hne
        · simp only at h
          subst h
          have := parseLine_ne_nofuel d2 { evt with fileName := d1.lexer.yytext }
          rw [hp] at this
          exact this rfl


theorem parseBody_progress (n : Nat) (ts : List Tok) (d : Private) (dfc : Defect)
    (hn : ts.length < n) :
    (parseBody n ts d dfc).1 ≠ Outcome.nofuel ∧
    (parseBody n ts d dfc).2.1.length ≤ ts.length := by
  induction n generalizing ts d dfc with
  | zero => omega
  | succ k ih =>
    rw [parseBody]
    split
    · have a1 := parseMsg_progress ts d DefEvent.empty
      split
      · rename_i ts1 d1 evt h1
        rw [h1] at a1
        have l1 : ts1.length < ts.length := a1.2.1 rfl
        obtain ⟨i1, i2⟩ := ih ts1 d1 { dfc with events := dfc.events ++ [evt] } (by omega)
        exact ⟨i1, by omega⟩
      · rename_i o ts1 d1 evt _ h1
        rw [h1] at a1
        exact ⟨a1.2.2, a1.1⟩
    · exact ⟨fun h => (by cases h), le_refl _⟩

/-- An attempt never runs out of fuel; one that fails has taken at least
one token from the scanner, unless it ended at the end of the stream. -/
theorem parseNext_progress (ts : List Tok) (d : Private) (dfc : Defect) :
    (parseNext ts d dfc).1 ≠ Outcome.nofuel ∧
    ((parseNext ts d dfc).1 = Outcome.ret false →
      (parseNext ts d dfc).2.2.1.code = T_NULL ∨
        (parseNext ts d dfc).2.1.length < ts.length) := by
  unfold parseNext
  have a1 := seekForToken_progress T_INIT ts d
  split
  · rename_i ts1 d1 h1
    rw [h1] at a1
    exact ⟨fun h => (by cases h), fun _ => a1.2.2.2 rfl⟩
  · rename_i ts1 d1 h1
    rw [h1] at a1
    have c1 : d1.code = T_INIT := a1.2.1 rfl
    have l1 : ts1.length ≤ ts.length := a1.1
    have a2 := seekForToken_progress T_DEFECT ts1 d1
    split
    · rename_i ts2 d2 h2
      rw [h2] at a2
      refine ⟨fun h => (by cases h), fun _ => ?_⟩
      rcases a2.2.2.2 rfl with h | h
      · exact Or.inl h
      · exact Or.inr (by simp only at h ⊢; omega)
    · rename_i ts2 d2 h2
      rw [h2] at a2
      have l2 : ts2.length < ts1.length := a2.2.2.1 rfl (by rw [c1]; decide)
      split
      · exact ⟨fun h => (by cases h), fun _ => Or.inr (by simp only; omega)⟩
      · rename_i dfc1 _
        have a3 := parseBody_progress (ts2.length + 1) ts2 d2 dfc1 (by omega)
        split
        · rename_i ts3 d3 dfc3 h3
          rw [h3] at a3
          have l3 : ts3.length ≤ ts2.length := a3.2
          split
          · exact ⟨fun h => (by cases h), fun h => (by cases h)⟩
          · exact ⟨fun h => (by cases h), fun _ => Or.inr (by simp only; omega)⟩
        · exact ⟨a3.1, fun _ => Or.inr (by have := a3.2; omega)⟩

theorem getNextLoop_total (n : Nat) (ts : List Tok) (d : Private) (dfc : Defect)
    (hn : ts.length + 1 ≤ n) : (getNextLoop n ts d dfc).1 ≠ Outcome.nofuel := by
  induction n generalizing ts d dfc with
  | zero => omega
  | succ k ih =>
    have a1 := parseNext_progress ts d dfc
    rw [getNextLoop]
    split
    · exact fun h => (by cases h)
    · rename_i ts1 d1 dfc1 h1
      rw [h1] at a1
      split
      · rename_i hc
        rcases a1.2 rfl with h | h
        · exact absurd h hc
        · exact ih ts1 d1 dfc1 (by simp only at h; omega)
      · exact fun h => (by cases h)
    · exact a1.1

/-- `getNext` returns or raises on every token stream, from every state:
the fuel of the embedding is never used up. -/
theorem getNext_total (ts : List Tok) (d : Private) (dfc : Defect) :
    (getNext ts d dfc).1 ≠ Outcome.nofuel :=
  getNextLoop_total _ ts d dfc (by omega)



/-! ## The position decoder -/

theorem parseLine_no_lead (d : Private) (evt : DefEvent)
    (h : d.lexer.yytext.head? ≠ some ':') : parseLine d evt = (Outcome.ret false, evt) := by
  unfold parseLine
  cases ht : d.lexer.yytext with
  | nil => rfl
  | cons c beg =>
    have hc : c ≠ ':' := by
      intro e
      rw [ht, e] at h
      exact h rfl
    simp only [ne_eq, hc, not_false_eq_true, ite_true]

theorem parseLine_no_end (d : Private) (evt : DefEvent) (beg : Str)
    (ht : d.lexer.yytext = ':' :: beg) (h : ':' ∉ beg) :
    parseLine d evt = (Outcome.ret false, evt) := by
  unfold parseLine
  rw [ht]
  simp only [ne_eq, not_true_eq_false, ite_false]
  rw [strchr_none ':' beg h]

theorem parseLine_line (d : Private) (evt : DefEvent) (l : Str) (v : Int)
    (ht : d.lexer.yytext = ':' :: l ++ [':']) (hv : lexical_cast l = some v) :
    parseLine d evt = (Outcome.ret true, { evt with line := v, column := 0 }) := by
  have hl := intText_no_colon l (by unfold IntText; rw [hv]; rfl)
  unfold parseLine
  rw [ht]
  simp only [List.cons_append, ne_eq, not_true_eq_false, ite_false]
  rw [strchr_split ':' l [] hl]
  simp only [hv]
  rw [strchr_none ':' [] (by simp)]

theorem parseLine_line_column (d : Private) (evt : DefEvent) (l c : Str) (v w : Int)
    (ht : d.lexer.yytext = ':' :: l ++ ':' :: c ++ [':']) (hv : lexical_cast l = some v)
    (hw : lexical_cast c = some w) :
    parseLine d evt = (Outcome.ret true, { evt with line := v, column := w }) := by
  have hl := intText_no_colon l (by unfold IntText; rw [hv]; rfl)
  have hc := intText_no_colon c (by unfold IntText; rw [hw]; rfl)
  unfold parseLine
  rw [ht]
  simp only [List.cons_append, List.append_assoc, ne_eq, not_true_eq_false, ite_false]
  rw [strchr_split ':' l (c ++ [':']) hl]
  simp only [hv]
  rw [strchr_split ':' c [] hc]
  simp only [hw]

/-- C12: the position decoder `parseLine` returns false when the text does
not start with ':' and when no second ':' ends the line field; on the text
`:<L>:` with `L` an integer `lexical_cast` accepts it returns true with
that line and column 0; on `:<L>:<C>:` with two such integers it returns
true with that line and that column. -/
theorem parseLine_contract (d : Private) (evt : DefEvent) :
    (d.lexer.yytext.head? ≠ some ':' → parseLine d evt = (Outcome.ret false, evt)) ∧
    (∀ beg : Str, d.lexer.yytext = ':' :: beg → ':' ∉ beg →
      parseLine d evt = (Outcome.ret false, evt)) ∧
    (∀ (l : Str) (v : Int), d.lexer.yytext = ':' :: l ++ [':'] → lexical_cast l = some v →
      parseLine d evt = (Outcome.ret true, { evt with line := v, column := 0 })) ∧
    (∀ (l c : Str) (v w : Int), d.lexer.yytext = ':' :: l ++ ':' :: c ++ [':'] →
      lexical_cast l = some v → lexical_cast c = some w →
      parseLine d evt = (Outcome.ret true, { evt with line := v, column := w })) :=
  ⟨parseLine_no_lead d evt, parseLine_no_end d evt, parseLine_line d evt,
    parseLine_line_column d evt⟩

/-- C12, instances: the position texts `:10:5:`, `:12:`, `10:` and `:10`. -/
theorem parseLine_contract_witness :
    parseLine (Private.atToken T_LINE ":10:5:".toList) DefEvent.empty =
      (Outcome.ret true, ⟨[], 10, 5, [], []⟩) ∧
    parseLine (Private.atToken T_LINE ":12:".toList) DefEvent.empty =
      (Outcome.ret true, ⟨[], 12, 0, [], []⟩) ∧
    parseLine (Private.atToken T_LINE "10:".toList) DefEvent.empty =
      (Outcome.ret false, DefEvent.empty) ∧
    parseLine (Private.atToken T_LINE ":10".toList) DefEvent.empty =
      (Outcome.ret false, DefEvent.empty) :=
  ⟨(parseLine_contract (Private.atToken T_LINE ":10:5:".toList) DefEvent.empty).2.2.2
      "10".toList "5".toList 10 5 (by decide) (by decide) (by decide),
    (parseLine_contract (Private.atToken T_LINE ":12:".toList) DefEvent.empty).2.2.1
      "12".toList 12 (by decide) (by decide),
    (parseLine_contract (Private.atToken T_LINE "10:".toList) DefEvent.empty).1 (by decide),
    (parseLine_contract (Private.atToken T_LINE ":10".toList) DefEvent.empty).2.1
      "10".toList (by decide) (by decide)⟩

/-! ## What the message decoder drops -/

theorem parseMsgText_tag_any (t m : Str) (c : Char) (evt : DefEvent)
    (hup : ∀ a, t.head? = some a → isupper a = false) (hcolon : ':' ∉ t) :
    parseMsgText (t ++ ':' :: c :: m) evt = { evt with event := t, msg := m } := by
  have hhead : isupper ((t ++ ':' :: c :: m).headD (Char.ofNat 0)) = false := by
    cases t with
    | nil => show isupper ':' = false; decide
    | cons a t => exact hup a rfl
  unfold parseMsgText
  rw [if_pos hhead, strchr_split ':' t (c :: m) hcolon]

/-- C14 (what the code does instead): the message decoder drops the
character that follows the first ':' whatever it is, not only a space.  On
every text `t ++ ":" ++ [c] ++ m` whose `t` has no ':' and does not start
with an uppercase letter the tag is `t` and the body is `m`: `c` is lost.
On `a:b` the body is empty, the `b` is not kept; on `see http://x` the
first '/' is lost. -/
theorem parseMsgText_drops_char :
    (∀ (t m : Str) (c : Char) (evt : DefEvent),
      (∀ a, t.head? = some a → isupper a = false) → ':' ∉ t →
      parseMsgText (t ++ ':' :: c :: m) evt = { evt with event := t, msg := m }) ∧
    parseMsgText "a:b".toList DefEvent.empty = ⟨[], 0, 0, "a".toList, []⟩ ∧
    parseMsgText "see http://x".toList DefEvent.empty =
      ⟨[], 0, 0, "see http".toList, "/x".toList⟩ :=
  ⟨parseMsgText_tag_any, by decide, by decide⟩

/-! ## Printing and decoding the message part -/

/-- C19: round trip of the message part.  An event whose tag has no ':' and
does not start with an uppercase letter, and whose message, when the tag
is empty, starts with an uppercase letter or has no ':', is printed as the
message alone (empty tag) or as tag, ": ", message; decoding that text
with the message decoder into a fresh event gives the tag and the message
back. -/
theorem printMsg_roundtrip (evt evt0 : DefEvent) (hfresh : evt0.event = [])
    (hcolon : ':' ∉ evt.event) (hup : ∀ c, evt.event.head? = some c → isupper c = false)
    (hm : evt.event = [] →
      ((∃ c, evt.msg.head? = some c ∧ isupper c = true) ∨ ':' ∉ evt.msg)) :
    (printMsg evt = if evt.event = [] then evt.msg else evt.event ++ ':' :: ' ' :: evt.msg) ∧
    (parseMsgText (printMsg evt) evt0).event = evt.event ∧
    (parseMsgText (printMsg evt) evt0).msg = evt.msg := by
  by_cases ht : evt.event = []
  · have hp : printMsg evt = evt.msg := by simp [printMsg, ht]
    have hplain : parseMsgText evt.msg evt0 = { evt0 with msg := evt.msg } := by
      apply parseMsgText_plain
      rcases hm ht with h | h
      · exact Or.inl h
      · exact Or.inr (Or.inl h)
    rw [hp, hplain, if_pos ht]
    exact ⟨rfl, by rw [ht]; exact hfresh, rfl⟩
  · have hp : printMsg evt = evt.event ++ ':' :: ' ' :: evt.msg := by
      simp [printMsg, ht]
    rw [hp, parseMsgText_tag evt.event evt.msg evt0 hup hcolon, if_neg ht]
    exact ⟨rfl, rfl, rfl⟩

/-- C19, instances: a tagged event and an untagged one. -/
theorem printMsg_roundtrip_witness :
    (printMsg ⟨"f.c".toList, 10, 5, "returned_null".toList, "pointer: null".toList⟩ =
        "returned_null: pointer: null".toList ∧
      (parseMsgText (printMsg ⟨"f.c".toList, 10, 5, "returned_null".toList,
        "pointer: null".toList⟩) DefEvent.empty).event = "returned_null".toList ∧
      (parseMsgText (printMsg ⟨"f.c".toList, 10, 5, "returned_null".toList,
        "pointer: null".toList⟩) DefEvent.empty).msg = "pointer: null".toList) ∧
    (printMsg ⟨"f.c".toList, 12, 0, [], "Null: dereferenced".toList⟩ =
        "Null: dereferenced".toList ∧
      (parseMsgText (printMsg ⟨"f.c".toList, 12, 0, [], "Null: dereferenced".toList⟩)
        DefEvent.empty).event = [] ∧
      (parseMsgText (printMsg ⟨"f.c".toList, 12, 0, [], "Null: dereferenced".toList⟩)
        DefEvent.empty).msg = "Null: dereferenced".toList) :=
  ⟨printMsg_roundtrip ⟨"f.c".toList, 10, 5, "returned_null".toList, "pointer: null".toList⟩
      DefEvent.empty rfl (by decide) (by decide) (by decide),
    printMsg_roundtrip ⟨"f.c".toList, 12, 0, [], "Null: dereferenced".toList⟩
      DefEvent.empty rfl (by decide) (by decide)
      (fun _ => Or.inl ⟨'N', by decide, by decide⟩)⟩


/-! ## Termination -/

theorem parseBody_fuel (n : Nat) :
    ∀ (m : Nat) (ts : List Tok) (d : Private) (dfc : Defect), ts.length < n → ts.length < m →
      parseBody n ts d dfc = parseBody m ts d dfc := by
  induction n with
  | zero => intro m ts d dfc hn; omega
  | succ k ih =>
    intro m ts d dfc hn hm
    obtain ⟨j, rfl⟩ : ∃ j, m = j + 1 := ⟨m - 1, by omega⟩
    rw [parseBody, parseBody]
    split
    · have a1 := parseMsg_progress ts d DefEvent.empty
      split
      · rename_i ts1 d1 evt h1
        rw [h1] at a1
        have l1 : ts1.length < ts.length := a1.2.1 rfl
        exact ih j ts1 d1 _ (by omega) (by omega)
      · rfl
    · rfl

/-- Every attempt, however it ends, has taken at least one token from the
scanner unless it ended at the end of the stream. -/
theorem parseNext_consumes (ts : List Tok) (d : Private) (dfc : Defect) :
    (parseNext ts d dfc).2.2.1.code = T_NULL ∨ (parseNext ts d dfc).2.1.length < ts.length := by
  unfold parseNext
  have a1 := seekForToken_progress T_INIT ts d
  split
  · rename_i ts1 d1 h1
    rw [h1] at a1
    exact a1.2.2.2 rfl
  · rename_i ts1 d1 h1
    rw [h1] at a1
    have c1 : d1.code = T_INIT := a1.2.1 rfl
    have l1 : ts1.length ≤ ts.length := a1.1
    have a2 := seekForToken_progress T_DEFECT ts1 d1
    split
    · rename_i ts2 d2 h2
      rw [h2] at a2
      rcases a2.2.2.2 rfl with h | h
      · exact Or.inl h
      · exact Or.inr (by simp only at h ⊢; omega)
    · rename_i ts2 d2 h2
      rw [h2] at a2
      have l2 : ts2.length < ts1.length := a2.2.2.1 rfl (by rw [c1]; decide)
      split
      · exact Or.inr (by simp only; omega)
      · rename_i dfc1 _
        have a3 := parseBody_progress (ts2.length + 1) ts2 d2 dfc1 (by omega)
        split
        · rename_i ts3 d3 dfc3 h3
          rw [h3] at a3
          have l3 : ts3.length ≤ ts2.length := a3.2
          split
          · exact Or.inr (by simp only; omega)
          · exact Or.inr (by simp only; omega)
        · exact Or.inr (by have := a3.2; omega)

theorem getNextLoop_fuel (n : Nat) :
    ∀ (m : Nat) (ts : List Tok) (d : Private) (dfc : Defect), ts.length + 1 ≤ n →
      ts.length + 1 ≤ m → getNextLoop n ts d dfc = getNextLoop m ts d dfc := by
  induction n with
  | zero => intro m ts d dfc hn; omega
  | succ k ih =>
    intro m ts d dfc hn hm
    obtain ⟨j, rfl⟩ : ∃ j, m = j + 1 := ⟨m - 1, by omega⟩
    have a1 := parseNext_consumes ts d dfc
    rw [getNextLoop, getNextLoop]
    split
    · rfl
    · rename_i ts1 d1 dfc1 h1
      rw [h1] at a1
      split
      · rename_i hc
        rcases a1 with h | h
        · exact absurd h hc
        · exact ih j ts1 d1 dfc1 (by simp only at h; omega) (by simp only at h; omega)
      · rfl
    · rfl

/-- C13: every call of `getNext` terminates, on every finite token stream
and from every parser state.  The fuel the embedding gives the loops of
`getNext` and `parseNext` is never used up, and any larger amount of fuel
gives the same result; the reason is the one the claim names: every
attempt that does not end at the end of the stream has taken at least one
token from the scanner, so the recovery loop never retries from the same
position. -/
theorem getNext_terminates (ts : List Tok) (d : Private) (dfc : Defect) :
    (getNext ts d dfc).1 ≠ Outcome.nofuel ∧
    (∀ n, ts.length + 2 ≤ n → getNextLoop n ts d dfc = getNext ts d dfc) ∧
    (parseNext ts d dfc).1 ≠ Outcome.nofuel ∧
    (∀ n, ts.length + 1 ≤ n → parseBody n ts d dfc = parseBody (ts.length + 1) ts d dfc) ∧
    ((parseNext ts d dfc).2.2.1.code ≠ T_NULL →
      (parseNext ts d dfc).2.1.length < ts.length) :=
  ⟨getNextLoop_total _ ts d dfc (by omega),
    fun n hn => getNextLoop_fuel n (ts.length + 2) ts d dfc (by omega) (by omega),
    (parseNext_progress ts d dfc).1,
    fun n hn => parseBody_fuel n (ts.length + 1) ts d dfc (by omega) (by omega),
    fun hc => (parseNext_consumes ts d dfc).resolve_left hc⟩

/-- C13, an instance: a failed attempt that stops inside a block has taken
tokens from the scanner. -/
theorem getNext_terminates_witness :
    (parseNext [Tok.clean T_INIT "Error:".toList, Tok.clean T_DEFECT "oops".toList,
        Tok.clean T_FILE "f.c".toList] Private.init Defect.empty).2.2.1.code ≠ T_NULL ∧
    (parseNext [Tok.clean T_INIT "Error:".toList, Tok.clean T_DEFECT "oops".toList,
        Tok.clean T_FILE "f.c".toList] Private.init Defect.empty).2.1.length <
      [Tok.clean T_INIT "Error:".toList, Tok.clean T_DEFECT "oops".toList,
        Tok.clean T_FILE "f.c".toList].length :=
  ⟨by decide, (getNext_terminates _ Private.init Defect.empty).2.2.2.2 (by decide)⟩


/-! ## The caller's `Defect` object does not matter -/

theorem parseBody_indep (n : Nat) :
    ∀ (ts : List Tok) (d : Private) (x y : Defect), sameContents x y →
      (parseBody n ts d x).1 = (parseBody n ts d y).1 ∧
      (parseBody n ts d x).2.1 = (parseBody n ts d y).2.1 ∧
      (parseBody n ts d x).2.2.1 = (parseBody n ts d y).2.2.1 ∧
      sameContents (parseBody n ts d x).2.2.2 (parseBody n ts d y).2.2.2 := by
  induction n with
  | zero => intro ts d x y h; exact ⟨rfl, rfl, rfl, h⟩
  | succ k ih =>
    intro ts d x y h
    rw [parseBody, parseBody]
    split
    · split
      · rename_i ts1 d1 evt h1
        exact ih ts1 d1 _ _ ⟨h.1, h.2.1, by simp [h.2.2]⟩
      · exact ⟨rfl, rfl, rfl, h⟩
    · exact ⟨rfl, rfl, rfl, h⟩

theorem guessKeyEvent_indep (x y : Defect) (h : sameContents x y) :
    (guessKeyEvent x).1 = (guessKeyEvent y).1 ∧
    ((guessKeyEvent x).1 = true → (guessKeyEvent x).2 = (guessKeyEvent y).2) := by
  obtain ⟨h1, h2, h3⟩ := h
  by_cases he : x.events = []
  · have he0 : y.events = [] := by rw [← h3]; exact he
    simp [guessKeyEvent, he, he0]
  · have he0 : y.events ≠ [] := by rw [← h3]; exact he
    rw [guessKeyEvent_eq x he, guessKeyEvent_eq y he0]
    refine ⟨rfl, fun _ => ?_⟩
    cases x
    cases y
    simp only at h1 h2 h3
    subst h1
    subst h2
    subst h3
    rfl

theorem parseClass_sameContents (d : Private) (x y : Defect) :
    (parseClass d x).1 = (parseClass d y).1 ∧
    ((parseClass d x).1 = true → sameContents (parseClass d x).2 (parseClass d y).2) := by
  by_cases hcls : (parseClass d Defect.empty).1 = true
  · rw [parseClass_indep d x Defect.empty hcls, parseClass_indep d y Defect.empty hcls]
    exact ⟨rfl, fun _ => ⟨rfl, rfl, rfl⟩⟩
  · have h1 : (parseClass d x).1 = false := by
      cases h : (parseClass d x).1 with
      | false => rfl
      | true => exact absurd (parseClass_ok_transfer d Defect.empty x h) hcls
    have h2 : (parseClass d y).1 = false := by
      cases h : (parseClass d y).1 with
      | false => rfl
      | true => exact absurd (parseClass_ok_transfer d Defect.empty y h) hcls
    rw [h1, h2]
    exact ⟨rfl, fun h => (by cases h)⟩

theorem parseNext_indep (ts : List Tok) (d : Private) (x y : Defect) :
    (parseNext ts d x).1 = (parseNext ts d y).1 ∧
    (parseNext ts d x).2.1 = (parseNext ts d y).2.1 ∧
    (parseNext ts d x).2.2.1 = (parseNext ts d y).2.2.1 ∧
    ((parseNext ts d x).1 = Outcome.ret true →
      (parseNext ts d x).2.2.2 = (parseNext ts d y).2.2.2) := by
  cases h1 : seekForToken T_INIT ts d with
  | mk b1 r1 =>
    obtain ⟨ts1, d1⟩ := r1
    cases b1 with
    | false =>
      simp only [parseNext, h1]
      refine ⟨?_, ?_, ?_, ?_⟩ <;> first | trivial | rfl | (intro h; cases h)
    | true =>
      cases h2 : seekForToken T_DEFECT ts1 d1 with
      | mk b2 r2 =>
        obtain ⟨ts2, d2⟩ := r2
        cases b2 with
        | false =>
          simp only [parseNext, h1, h2]
          refine ⟨?_, ?_, ?_, ?_⟩ <;> first | trivial | rfl | (intro h; cases h)
        | true =>
          obtain ⟨c1, c2⟩ := parseClass_sameContents d2 x y
          cases hx : parseClass d2 x with
          | mk bx x1 =>
            cases hy : parseClass d2 y with
            | mk by1 y1 =>
              rw [hx, hy] at c1 c2
              simp only at c1 c2
              subst c1
              cases bx with
              | false =>
                simp only [parseNext, h1, h2, hx, hy]
                refine ⟨?_, ?_, ?_, ?_⟩ <;> first | trivial | rfl | (intro h; cases h)
              | true =>
                obtain ⟨e1, e2, e3, e4⟩ :=
                  parseBody_indep (ts2.length + 1) ts2 d2 x1 y1 (c2 rfl)
                cases hbx : parseBody (ts2.length + 1) ts2 d2 x1 with
                | mk ox rx =>
                  obtain ⟨tx, dx, x3⟩ := rx
                  cases hby : parseBody (ts2.length + 1) ts2 d2 y1 with
                  | mk oy ry =>
                    obtain ⟨ty, dy, y3⟩ := ry
                    rw [hbx, hby] at e1 e2 e3 e4
                    simp only at e1 e2 e3 e4
                    subst e1
                    subst e2
                    subst e3
                    obtain ⟨g1, g2⟩ := guessKeyEvent_indep x3 y3 e4
                    cases ox with
                    | ret bb =>
                      cases bb with
                      | true =>
                        cases hgx : guessKeyEvent x3 with
                        | mk gx x4 =>
                          cases hgy : guessKeyEvent y3 with
                          | mk gy y4 =>
                            rw [hgx, hgy] at g1 g2
                            simp only at g1 g2
                            subst g1
                            cases gx with
                            | true =>
                              simp only [parseNext, h1, h2, hx, hy, hbx, hby, hgx, hgy]
                              refine ⟨?_, ?_, ?_, ?_⟩ <;> first | trivial | rfl | (intro _; exact g2 rfl)
                            | false =>
                              simp only [parseNext, h1, h2, hx, hy, hbx, hby, hgx, hgy]
                              refine ⟨?_, ?_, ?_, ?_⟩ <;> first | trivial | rfl | (intro h; cases h)
                      | false =>
                        simp only [parseNext, h1, h2, hx, hy, hbx, hby]
                        refine ⟨?_, ?_, ?_, ?_⟩ <;> first | trivial | rfl | (intro h; cases h)
                    | thrown =>
                      simp only [parseNext, h1, h2, hx, hy, hbx, hby]
                      refine ⟨?_, ?_, ?_, ?_⟩ <;> first | trivial | rfl | (intro h; cases h)
                    | nofuel =>
                      simp only [parseNext, h1, h2, hx, hy, hbx, hby]
                      refine ⟨?_, ?_, ?_, ?_⟩ <;> first | trivial | rfl | (intro h; cases h)

theorem getNextLoop_indep (n : Nat) :
    ∀ (ts : List Tok) (d : Private) (x y : Defect),
      (getNextLoop n ts d x).1 = (getNextLoop n ts d y).1 ∧
      (getNextLoop n ts d x).2.1 = (getNextLoop n ts d y).2.1 ∧
      (getNextLoop n ts d x).2.2.1 = (getNextLoop n ts d y).2.2.1 ∧
      ((getNextLoop n ts d x).1 = Outcome.ret true →
        (getNextLoop n ts d x).2.2.2 = (getNextLoop n ts d y).2.2.2) := by
  induction n with
  | zero => intro ts d x y; exact ⟨rfl, rfl, rfl, fun h => (by cases h)⟩
  | succ k ih =>
    intro ts d x y
    obtain ⟨e1, e2, e3, e4⟩ := parseNext_indep ts d x y
    cases hx : parseNext ts d x with
    | mk ox rx =>
      obtain ⟨tx, dx, x1⟩ := rx
      cases hy : parseNext ts d y with
      | mk oy ry =>
        obtain ⟨ty, dy, y1⟩ := ry
        rw [hx, hy] at e1 e2 e3 e4
        simp only at e1 e2 e3 e4
        subst e1
        subst e2
        subst e3
        cases ox with
        | ret bb =>
          cases bb with
          | true =>
            have := e4 rfl
            subst this
            simp only [getNextLoop, hx, hy]
            exact ⟨trivial, trivial, trivial, fun _ => trivial⟩
          | false =>
            simp only [getNextLoop, hx, hy]
            by_cases hc : dx.code ≠ T_NULL
            · rw [if_pos hc, if_pos hc]
              exact ih tx dx x1 y1
            · rw [if_neg hc, if_neg hc]
              exact ⟨rfl, rfl, rfl, fun h => (by cases h)⟩
        | thrown =>
          simp only [getNextLoop, hx, hy]
          exact ⟨trivial, trivial, trivial, fun h => (by cases h)⟩
        | nofuel =>
          simp only [getNextLoop, hx, hy]
          exact ⟨trivial, trivial, trivial, fun h => (by cases h)⟩

theorem runCalls_indep (dfcs : List Defect) :
    ∀ (dfcs1 : List Defect) (ts : List Tok) (d : Private), dfcs.length = dfcs1.length →
      (runCalls dfcs ts d).map callView = (runCalls dfcs1 ts d).map callView := by
  induction dfcs with
  | nil =>
    intro dfcs1 ts d h
    cases dfcs1 with
    | nil => rfl
    | cons _ _ => simp at h
  | cons x rest ih =>
    intro dfcs1 ts d h
    cases dfcs1 with
    | nil => simp at h
    | cons y rest1 =>
      obtain ⟨e1, e2, e3, e4⟩ := getNextLoop_indep (ts.length + 2) ts d x y
      have hx : getNext ts d x = getNextLoop (ts.length + 2) ts d x := rfl
      have hy : getNext ts d y = getNextLoop (ts.length + 2) ts d y := rfl
      rw [← hx, ← hy] at e1 e2 e3 e4
      cases hgx : getNext ts d x with
      | mk ox rx =>
        obtain ⟨tx, dx, x1⟩ := rx
        cases hgy : getNext ts d y with
        | mk oy ry =>
          obtain ⟨ty, dy, y1⟩ := ry
          rw [hgx, hgy] at e1 e2 e3 e4
          simp only at e1 e2 e3 e4
          subst e1
          subst e2
          subst e3
          simp only [runCalls, hgx, hgy, List.map_cons]
          rw [ih rest1 tx dx (by simpa using h)]
          congr 1
          unfold callView
          by_cases ho : ox = Outcome.ret true
          · have := e4 ho
            subst this
            rfl
          · simp only [ho, ite_false]


/-! ## The paths through `parseMsg` and `parseNext` -/

theorem parseLine_fst (d : Private) (evt evt0 : DefEvent) :
    (parseLine d evt).1 = (parseLine d evt0).1 := by
  unfold parseLine
  split
  · rfl
  · split
    · rfl
    · split
      · rfl
      · split
        · rfl
        · split
          · split
            · rfl
            · rfl
          · rfl

/-- Every way `parseMsg` can run: which step fails, or all succeed. -/
theorem parseMsg_cases (ts : List Tok) (d : Private) (evt : DefEvent) :
    (∃ ts1 d1, seekForToken T_FILE ts d = (false, ts1, d1) ∧
      parseMsg ts d evt = (Outcome.ret false, ts1, d1.wrongToken, evt)) ∨
    (∃ ts1 d1 ts2 d2, seekForToken T_FILE ts d = (true, ts1, d1) ∧
      seekForToken T_LINE ts1 d1 = (false, ts2, d2) ∧
      parseMsg ts d evt =
        (Outcome.ret false, ts2, d2.wrongToken, { evt with fileName := d1.lexer.yytext })) ∨
    (∃ ts1 d1 ts2 d2 o evt2, seekForToken T_FILE ts d = (true, ts1, d1) ∧
      seekForToken T_LINE ts1 d1 = (true, ts2, d2) ∧
      parseLine d2 { evt with fileName := d1.lexer.yytext } = (o, evt2) ∧
      ((o = Outcome.ret false ∧
          parseMsg ts d evt = (Outcome.ret false, ts2, d2.wrongToken, evt2)) ∨
        (o = Outcome.thrown ∧ parseMsg ts d evt = (Outcome.thrown, ts2, d2, evt2)) ∨
        (o = Outcome.ret true ∧ ∃ ts3 d3, seekForToken T_MSG ts2 d2 = (false, ts3, d3) ∧
          parseMsg ts d evt = (Outcome.ret false, ts3, d3.wrongToken, evt2)) ∨
        (o = Outcome.ret true ∧ ∃ ts3 d3 b ts4 d4 evt4,
          seekForToken T_MSG ts2 d2 = (true, ts3, d3) ∧
          parseMsgExtra ts3 d3 (parseMsgText d3.lexer.yytext evt2) = (b, ts4, d4, evt4) ∧
          parseMsg ts d evt = (Outcome.ret b, ts4, d4, evt4)))) := by
  cases h1 : seekForToken T_FILE ts d with
  | mk b1 r1 =>
    obtain ⟨ts1, d1⟩ := r1
    cases b1 with
    | false =>
      left
      exact ⟨ts1, d1, rfl, by simp only [parseMsg, h1]⟩
    | true =>
      right
      cases h2 : seekForToken T_LINE ts1 d1 with
      | mk b2 r2 =>
        obtain ⟨ts2, d2⟩ := r2
        cases b2 with
        | false =>
          left
          exact ⟨ts1, d1, ts2, d2, rfl, h2, by simp only [parseMsg, h1, h2]⟩
        | true =>
          right
          cases h3 : parseLine d2 { evt with fileName := d1.lexer.yytext } with
          | mk o evt2 =>
            refine ⟨ts1, d1, ts2, d2, o, evt2, rfl, h2, h3, ?_⟩
            cases o with
            | ret b =>
              cases b with
              | false =>
                left
                exact ⟨rfl, by simp only [parseMsg, h1, h2, h3]⟩
              | true =>
                right; right
                cases h4 : seekForToken T_MSG ts2 d2 with
                | mk b4 r4 =>
                  obtain ⟨ts3, d3⟩ := r4
                  cases b4 with
                  | false =>
                    left
                    exact ⟨rfl, ts3, d3, rfl, by simp only [parseMsg, h1, h2, h3, h4]⟩
                  | true =>
                    right
                    cases h5 : parseMsgExtra ts3 d3 (parseMsgText d3.lexer.yytext evt2) with
                    | mk b5 r5 =>
                      obtain ⟨ts4, d4, evt4⟩ := r5
                      refine ⟨rfl, ts3, d3, b5, ts4, d4, evt4, rfl, h5, ?_⟩
                      cases b5 with
                      | false => simp only [parseMsg, h1, h2, h3, h4, h5]
                      | true => simp only [parseMsg, h1, h2, h3, h4, h5]
            | thrown =>
              right; left
              exact ⟨rfl, by simp only [parseMsg, h1, h2, h3]⟩
            | nofuel =>
              exact absurd (congrArg Prod.fst h3) (parseLine_ne_nofuel d2 _)

/-- Every way `parseNext` can run. -/
theorem parseNext_cases (ts : List Tok) (d : Private) (dfc : Defect) :
    (∃ ts1 d1, seekForToken T_INIT ts d = (false, ts1, d1) ∧
      parseNext ts d dfc = (Outcome.ret false, ts1, d1, dfc)) ∨
    (∃ ts1 d1 ts2 d2, seekForToken T_INIT ts d = (true, ts1, d1) ∧
      seekForToken T_DEFECT ts1 d1 = (false, ts2, d2) ∧
      parseNext ts d dfc = (Outcome.ret false, ts2, d2.wrongToken, dfc)) ∨
    (∃ ts1 d1 ts2 d2, seekForToken T_INIT ts d = (true, ts1, d1) ∧
      seekForToken T_DEFECT ts1 d1 = (true, ts2, d2) ∧
      (((parseClass d2 dfc).1 = false ∧
          parseNext ts d dfc = (Outcome.ret false, ts2, d2.wrongToken, dfc)) ∨
        ((parseClass d2 dfc).1 = true ∧ ∃ o ts3 d3 dfc3,
          parseBody (ts2.length + 1) ts2 d2 (parseClass d2 dfc).2 = (o, ts3, d3, dfc3) ∧
          ((o = Outcome.ret true ∧ dfc3.events ≠ [] ∧
              parseNext ts d dfc = (Outcome.ret true, ts3, d3, (guessKeyEvent dfc3).2)) ∨
            (o = Outcome.ret true ∧ dfc3.events = [] ∧
              parseNext ts d dfc = (Outcome.ret false, ts3, d3.wrongToken, dfc3)) ∨
            (o ≠ Outcome.ret true ∧ parseNext ts d dfc = (o, ts3, d3, dfc3)))))) := by
  cases h1 : seekForToken T_INIT ts d with
  | mk b1 r1 =>
    obtain ⟨ts1, d1⟩ := r1
    cases b1 with
    | false =>
      left
      exact ⟨ts1, d1, rfl, by simp only [parseNext, h1]⟩
    | true =>
      right
      cases h2 : seekForToken T_DEFECT ts1 d1 with
      | mk b2 r2 =>
        obtain ⟨ts2, d2⟩ := r2
        cases b2 with
        | false =>
          left
          exact ⟨ts1, d1, ts2, d2, rfl, h2, by simp only [parseNext, h1, h2]⟩
        | true =>
          right
          refine ⟨ts1, d1, ts2, d2, rfl, h2, ?_⟩
          cases h3 : parseClass d2 dfc with
          | mk b3 dfc1 =>
            cases b3 with
            | false =>
              left
              have hsame : dfc1 = dfc := by
                rcases parseClass_cases d2 dfc with ⟨hok, _⟩ | ⟨hfail, _⟩
                · rw [h3] at hok; cases hok
                · rw [h3] at hfail
                  exact (Prod.mk.inj hfail).2
              subst hsame
              exact ⟨rfl, by simp only [parseNext, h1, h2, h3]⟩
            | true =>
              right
              refine ⟨rfl, ?_⟩
              cases h4 : parseBody (ts2.length + 1) ts2 d2 dfc1 with
              | mk o r4 =>
                obtain ⟨ts3, d3, dfc3⟩ := r4
                refine ⟨o, ts3, d3, dfc3, rfl, ?_⟩
                cases o with
                | ret b =>
                  cases b with
                  | true =>
                    by_cases he : dfc3.events = []
                    · right; left
                      have hg : guessKeyEvent dfc3 = (false, dfc3) := by
                        simp [guessKeyEvent, he]
                      exact ⟨rfl, he, by simp only [parseNext, h1, h2, h3, h4, hg]⟩
                    · left
                      have hg := guessKeyEvent_eq dfc3 he
                      refine ⟨rfl, he, ?_⟩
                      simp only [parseNext, h1, h2, h3, h4, hg]
                  | false =>
                    right; right
                    exact ⟨fun h => (by cases h), by simp only [parseNext, h1, h2, h3, h4]⟩
                | thrown =>
                  right; right
                  exact ⟨fun h => (by cases h), by simp only [parseNext, h1, h2, h3, h4]⟩
                | nofuel =>
                  right; right
                  exact ⟨fun h => (by cases h), by simp only [parseNext, h1, h2, h3, h4]⟩


/-! ## Line and column of the returned events -/

theorem lexical_cast_range (s : Str) (n : Int) (h : lexical_cast s = some n) : intRange n := by
  unfold lexical_cast at h
  simp only at h
  split_ifs at h <;>
    · have hv := Option.some.inj h
      subst hv
      constructor <;> omega

theorem parseLine_range (d : Private) (evt e : DefEvent)
    (h : parseLine d evt = (Outcome.ret true, e)) : e.InRange := by
  unfold parseLine at h
  split at h
  · cases h
  · split at h
    · cases h
    · split at h
      · cases h
      · split at h
        · cases h
        · rename_i line hl
          have r1 := lexical_cast_range _ _ hl
          split at h
          · split at h
            · cases h
            · rename_i col hcol
              have r2 := lexical_cast_range _ _ hcol
              cases h
              exact ⟨r1, r2⟩
          · cases h
            exact ⟨r1, (by show intRange 0; constructor <;> decide)⟩

theorem parseMsgText_pos (text : Str) (evt : DefEvent) :
    (parseMsgText text evt).line = evt.line ∧ (parseMsgText text evt).column = evt.column := by
  unfold parseMsgText
  split
  · split
    · exact ⟨rfl, rfl⟩
    · exact ⟨rfl, rfl⟩
  · exact ⟨rfl, rfl⟩

theorem parseMsgExtra_pos (ts : List Tok) (d : Private) (evt : DefEvent) :
    (parseMsgExtra ts d evt).2.2.2.line = evt.line ∧
    (parseMsgExtra ts d evt).2.2.2.column = evt.column := by
  induction ts generalizing d evt with
  | nil => exact ⟨rfl, rfl⟩
  | cons t ts ih =>
    rw [parseMsgExtra]
    split
    · exact ⟨rfl, rfl⟩
    · exact ⟨rfl, rfl⟩
    · exact ⟨rfl, rfl⟩
    · exact ih _ _
    · exact ⟨rfl, rfl⟩

theorem parseMsg_range (ts ts1 : List Tok) (d d1 : Private) (evt e : DefEvent)
    (h : parseMsg ts d evt = (Outcome.ret true, ts1, d1, e)) : e.InRange := by
  rcases parseMsg_cases ts d evt with ⟨_, _, _, hr⟩ | ⟨_, _, _, _, _, _, hr⟩ |
    ⟨_, d0, ts2, d2, o, evt2, _, _, hl, hr⟩
  · rw [hr] at h; cases h
  · rw [hr] at h; cases h
  · rcases hr with ⟨_, hr⟩ | ⟨_, hr⟩ | ⟨_, _, _, _, hr⟩ | ⟨ho, ts3, d3, b, ts4, d4, evt4, _, hx, hr⟩
    · rw [hr] at h; cases h
    · rw [hr] at h; cases h
    · rw [hr] at h; cases h
    · rw [hr] at h
      subst ho
      have r2 := parseLine_range _ _ _ hl
      have p1 := parseMsgText_pos d3.lexer.yytext evt2
      have p2 := parseMsgExtra_pos ts3 d3 (parseMsgText d3.lexer.yytext evt2)
      rw [hx] at p2
      simp only at p2
      have he : evt4 = e := by
        have := (Prod.mk.inj (Prod.mk.inj (Prod.mk.inj h).2).2).2
        exact this
      subst he
      unfold DefEvent.InRange at r2 ⊢
      rw [p2.1, p2.2, p1.1, p1.2]
      exact r2

theorem parseBody_range (n : Nat) :
    ∀ (ts : List Tok) (d : Private) (dfc : Defect), (∀ e ∈ dfc.events, e.InRange) →
      ∀ e ∈ (parseBody n ts d dfc).2.2.2.events, e.InRange := by
  induction n with
  | zero => intro ts d dfc h; exact h
  | succ k ih =>
    intro ts d dfc h
    rw [parseBody]
    split
    · split
      · rename_i ts1 d1 evt h1
        apply ih
        intro e he
        simp only [List.mem_append, List.mem_singleton] at he
        rcases he with he | he
        · exact h e he
        · subst he
          exact parseMsg_range _ _ _ _ _ _ h1
      · exact h
    · exact h

theorem guessKeyEvent_events (dfc : Defect) : (guessKeyEvent dfc).2.events = dfc.events := by
  by_cases he : dfc.events = []
  · simp [guessKeyEvent, he]
  · rw [guessKeyEvent_eq dfc he]

theorem parseNext_range (ts : List Tok) (d : Private) (dfc : Defect)
    (h : (parseNext ts d dfc).1 = Outcome.ret true) :
    ∀ e ∈ (parseNext ts d dfc).2.2.2.events, e.InRange := by
  rcases parseNext_cases ts d dfc with ⟨_, _, _, hr⟩ | ⟨_, _, _, _, _, _, hr⟩ |
    ⟨ts1, d1, ts2, d2, _, _, hr⟩
  · rw [hr] at h; cases h
  · rw [hr] at h; cases h
  · rcases hr with ⟨_, hr⟩ | ⟨hcls, o, ts3, d3, dfc3, hb, hr⟩
    · rw [hr] at h; cases h
    · have hev : (parseClass d2 dfc).2.events = [] := by
        rw [parseClass_indep d2 dfc dfc hcls]
      have hrange := parseBody_range (ts2.length + 1) ts2 d2 (parseClass d2 dfc).2
        (by rw [hev]; intro e he; cases he)
      rw [hb] at hrange
      rcases hr with ⟨_, _, hr⟩ | ⟨_, _, hr⟩ | ⟨hne, hr⟩
      · rw [hr]
        simp only [guessKeyEvent_events]
        exact hrange
      · rw [hr] at h; cases h
      · rw [hr] at h
        exact absurd h hne

theorem getNextLoop_range (n : Nat) :
    ∀ (ts : List Tok) (d : Private) (dfc : Defect),
      (getNextLoop n ts d dfc).1 = Outcome.ret true →
      ∀ e ∈ (getNextLoop n ts d dfc).2.2.2.events, e.InRange := by
  induction n with
  | zero => intro ts d dfc h; cases h
  | succ k ih =>
    intro ts d dfc
    have hp := parseNext_range ts d dfc
    rw [getNextLoop]
    split
    · rename_i r hr
      rw [hr] at hp
      intro _
      exact hp rfl
    · rename_i ts1 d1 dfc1 hr
      split
      · exact ih ts1 d1 dfc1
      · intro h; cases h
    · rename_i r h1 h2
      intro h
      exact hp h

/-- C15, as the code has it: every event of a defect returned by `getNext`
has a line and a column that are values of `int`, between -2147483648 and
2147483647. Neither `line >= 1` nor `column >= 0` is enforced: the position
decoder stores whatever integer the position text spells. -/
theorem getNext_event_range (ts : List Tok) (d : Private) (dfc : Defect)
    (h : (getNext ts d dfc).1 = Outcome.ret true) :
    ∀ e ∈ (getNext ts d dfc).2.2.2.events,
      (-2147483648 ≤ e.line ∧ e.line ≤ 2147483647) ∧
      (-2147483648 ≤ e.column ∧ e.column ≤ 2147483647) :=
  getNextLoop_range (ts.length + 2) ts d dfc h

theorem getNext_event_range_witness :
    (getNext (oneEventStream ":5:7:".toList) Private.init Defect.empty).1 = Outcome.ret true ∧
    ∀ e ∈ (getNext (oneEventStream ":5:7:".toList) Private.init Defect.empty).2.2.2.events,
      (-2147483648 ≤ e.line ∧ e.line ≤ 2147483647) ∧
      (-2147483648 ≤ e.column ∧ e.column ≤ 2147483647) :=
  ⟨by decide, getNext_event_range _ Private.init Defect.empty (by decide)⟩

/-- C15 fails as stated: the position texts `:0:`, `:-3:` and `:5:-1:` each
give a returned defect, with no error flagged, whose event has line 0,
line -3 and column -1. -/
theorem getNext_event_range_counterexample :
    ((getNext (oneEventStream ":0:".toList) Private.init Defect.empty).1 = Outcome.ret true ∧
      Parser.hasError
        (getNext (oneEventStream ":0:".toList) Private.init Defect.empty).2.2.1 = false ∧
      (getNext (oneEventStream ":0:".toList) Private.init Defect.empty).2.2.2.events.map
        (fun e => (e.line, e.column)) = [(0, 0)]) ∧
    ((getNext (oneEventStream ":-3:".toList) Private.init Defect.empty).1 = Outcome.ret true ∧
      (getNext (oneEventStream ":-3:".toList) Private.init Defect.empty).2.2.2.events.map
        (fun e => (e.line, e.column)) = [(-3, 0)]) ∧
    ((getNext (oneEventStream ":5:-1:".toList) Private.init Defect.empty).1 = Outcome.ret true ∧
      (getNext (oneEventStream ":5:-1:".toList) Private.init Defect.empty).2.2.2.events.map
        (fun e => (e.line, e.column)) = [(5, -1)]) := by
  decide


/-! ## Where the parser stands after each step -/

theorem noNull_suffix {ts1 ts : List Tok} (h : ts1 <:+ ts) (hnn : NoNull ts) : NoNull ts1 :=
  fun t ht => hnn t (h.subset ht)

theorem seekLoop_pos (token : EToken) (ts : List Tok) (d : Private) :
    (seekLoop token ts d).2.1 <:+ ts ∧
    (NoNull ts → Synced (seekLoop token ts d).2.1 (seekLoop token ts d).2.2) ∧
    ((seekLoop token ts d).1 = false →
      (seekLoop token ts d).2.2.code = T_NULL ∨
        ((seekLoop token ts d).2.2.code = T_INIT ∧ token ≠ T_INIT)) := by
  induction ts generalizing d with
  | nil => exact ⟨List.suffix_refl _, fun _ _ => rfl, fun _ => Or.inl rfl⟩
  | cons t ts ih =>
    have hc : ((d.readNext (t :: ts)).2.wrongToken).code = t.code := rfl
    rw [seekLoop]
    simp only [readNext_code, hc]
    split
    · rename_i h
      exact ⟨List.suffix_cons t ts, fun hnn _ => absurd h (hnn t (List.mem_cons_self _ _)),
        fun _ => Or.inl h⟩
    · rename_i hnull
      split
      · exact ⟨List.suffix_cons t ts, fun _ hcode => absurd hcode hnull, fun h1 => (by cases h1)⟩
      · rename_i hne
        split
        · rename_i hinit
          exact ⟨List.suffix_cons t ts, fun _ hcode => absurd hcode hnull,
            fun _ => Or.inr ⟨hinit, fun e => hne (e.trans hinit.symm)⟩⟩
        · obtain ⟨i0, i1, i2⟩ := ih (d.readNext (t :: ts)).2.wrongToken
          exact ⟨i0.trans (List.suffix_cons t ts),
            fun hnn => i1 (fun u hu => hnn u (List.mem_cons_of_mem _ hu)), i2⟩

theorem seekForToken_pos (token : EToken) (ts : List Tok) (d : Private) :
    (seekForToken token ts d).2.1 <:+ ts ∧
    (NoNull ts → (token ≠ d.code ∨ Synced ts d) →
      Synced (seekForToken token ts d).2.1 (seekForToken token ts d).2.2) ∧
    ((seekForToken token ts d).1 = false →
      (seekForToken token ts d).2.2.code = T_NULL ∨
        ((seekForToken token ts d).2.2.code = T_INIT ∧ token ≠ T_INIT)) := by
  unfold seekForToken
  split
  · rename_i h
    refine ⟨List.suffix_refl _, fun _ hs => ?_, fun h1 => (by cases h1)⟩
    rcases hs with hs | hs
    · exact absurd h hs
    · exact hs
  · obtain ⟨i0, i1, i2⟩ := seekLoop_pos token ts d
    exact ⟨i0, fun hnn _ => i1 hnn, i2⟩

theorem parseMsgExtra_position (ts : List Tok) (d : Private) (evt : DefEvent) :
    (parseMsgExtra ts d evt).2.1 <:+ ts ∧
    (NoNull ts → Synced (parseMsgExtra ts d evt).2.1 (parseMsgExtra ts d evt).2.2.1) ∧
    ((parseMsgExtra ts d evt).1 = false →
      (parseMsgExtra ts d evt).2.2.1.code = T_DEFECT ∨
      (parseMsgExtra ts d evt).2.2.1.code = T_LINE ∨
      (parseMsgExtra ts d evt).2.2.1.code = T_MSG) := by
  induction ts generalizing d evt with
  | nil => exact ⟨List.suffix_refl _, fun _ _ => rfl, fun h => (by cases h)⟩
  | cons t ts ih =>
    have hcode : (d.readNext (t :: ts)).2.code = t.code := readNext_code d t ts
    rw [parseMsgExtra]
    split
    · rename_i h
      rw [hcode] at h
      exact ⟨List.suffix_cons t ts, fun hnn _ => absurd h (hnn t (List.mem_cons_self _ _)),
        fun h1 => (by cases h1)⟩
    · rename_i h
      refine ⟨List.suffix_cons t ts, fun _ hc => ?_, fun h1 => (by cases h1)⟩
      rw [h] at hc
      cases hc
    · rename_i h
      refine ⟨List.suffix_cons t ts, fun _ hc => ?_, fun h1 => (by cases h1)⟩
      rw [h] at hc
      cases hc
    · obtain ⟨i0, i1, i2⟩ := ih (d.readNext (t :: ts)).2
        { evt with msg := evt.msg ++ '\n' :: (d.readNext (t :: ts)).2.lexer.yytext }
      exact ⟨i0.trans (List.suffix_cons t ts),
        fun hnn => i1 (fun u hu => hnn u (List.mem_cons_of_mem _ hu)), i2⟩
    · rename_i n1 n2 n3 n4
      have hw : ((d.readNext (t :: ts)).2.wrongToken).code = (d.readNext (t :: ts)).2.code := rfl
      refine ⟨List.suffix_cons t ts, fun _ hc => ?_, fun _ => ?_⟩
      · exact absurd (hw ▸ hc) n1
      · show ((d.readNext (t :: ts)).2.wrongToken).code = T_DEFECT ∨
          ((d.readNext (t :: ts)).2.wrongToken).code = T_LINE ∨
          ((d.readNext (t :: ts)).2.wrongToken).code = T_MSG
        rw [hw]
        cases hk : (d.readNext (t :: ts)).2.code with
        | T_NULL => exact absurd hk n1
        | T_INIT => exact absurd hk n2
        | T_FILE => exact absurd hk n3
        | T_MSG_EX => exact absurd hk n4
        | T_DEFECT => exact Or.inl rfl
        | T_LINE => exact Or.inr (Or.inl rfl)
        | T_MSG => exact Or.inr (Or.inr rfl)

theorem failCode_of_seek {c : EToken} {token : EToken}
    (h : c = T_NULL ∨ (c = T_INIT ∧ token ≠ T_INIT)) : FailCode c := by
  rcases h with h | ⟨h, _⟩
  · exact Or.inl h
  · exact Or.inr (Or.inl h)

theorem parseMsg_position (ts : List Tok) (d : Private) (evt : DefEvent) :
    (parseMsg ts d evt).2.1 <:+ ts ∧
    (NoNull ts → Synced ts d → Synced (parseMsg ts d evt).2.1 (parseMsg ts d evt).2.2.1) ∧
    ((parseMsg ts d evt).1 = Outcome.ret false → FailCode (parseMsg ts d evt).2.2.1.code) ∧
    ((parseMsg ts d evt).1 = Outcome.thrown → (parseMsg ts d evt).2.2.1.code = T_LINE) := by
  have a1 := seekForToken_pos T_FILE ts d
  rcases parseMsg_cases ts d evt with ⟨ts1, d1, h1, hr⟩ | ⟨ts1, d1, ts2, d2, h1, h2, hr⟩ |
    ⟨ts1, d1, ts2, d2, o, evt2, h1, h2, hl, hr⟩
  · rw [h1] at a1
    rw [hr]
    exact ⟨a1.1, fun hnn hs => a1.2.1 hnn (Or.inr hs), fun _ => failCode_of_seek (a1.2.2 rfl),
      fun h => (by cases h)⟩
  · rw [h1] at a1
    have a2 := seekForToken_pos T_LINE ts1 d1
    rw [h2] at a2
    rw [hr]
    exact ⟨a2.1.trans a1.1,
      fun hnn hs => a2.2.1 (noNull_suffix a1.1 hnn) (Or.inr (a1.2.1 hnn (Or.inr hs))),
      fun _ => failCode_of_seek (a2.2.2 rfl), fun h => (by cases h)⟩
  · rw [h1] at a1
    have a2 := seekForToken_pos T_LINE ts1 d1
    have c2 := (seekForToken_progress T_LINE ts1 d1).2.1
    rw [h2] at a2 c2
    have hcode : d2.code = T_LINE := c2 rfl
    have s2 : NoNull ts → Synced ts d → Synced ts2 d2 :=
      fun hnn hs => a2.2.1 (noNull_suffix a1.1 hnn) (Or.inr (a1.2.1 hnn (Or.inr hs)))
    have l2 : ts2 <:+ ts := a2.1.trans a1.1
    rcases hr with ⟨_, hr⟩ | ⟨_, hr⟩ | ⟨_, ts3, d3, h3, hr⟩ |
      ⟨_, ts3, d3, b, ts4, d4, evt4, h3, hx, hr⟩
    · rw [hr]
      exact ⟨l2, s2, fun _ => Or.inr (Or.inr (Or.inr (Or.inl hcode))), fun h => (by cases h)⟩
    · rw [hr]
      exact ⟨l2, s2, fun h => (by cases h), fun _ => hcode⟩
    · have a3 := seekForToken_pos T_MSG ts2 d2
      rw [h3] at a3
      rw [hr]
      exact ⟨a3.1.trans l2,
        fun hnn hs => a3.2.1 (noNull_suffix l2 hnn) (Or.inr (s2 hnn hs)),
        fun _ => failCode_of_seek (a3.2.2 rfl), fun h => (by cases h)⟩
    · have a3 := seekForToken_pos T_MSG ts2 d2
      rw [h3] at a3
      have a4 := parseMsgExtra_position ts3 d3 (parseMsgText d3.lexer.yytext evt2)
      rw [hx] at a4
      have l3 : ts3 <:+ ts := a3.1.trans l2
      rw [hr]
      refine ⟨a4.1.trans l3, fun hnn _ => a4.2.1 (noNull_suffix l3 hnn), fun h => ?_,
        fun h => (by cases h)⟩
      have hb : b = false := by
        cases b with
        | false => rfl
        | true => cases h
      rcases a4.2.2 hb with k | k | k
      · exact Or.inr (Or.inr (Or.inl k))
      · exact Or.inr (Or.inr (Or.inr (Or.inl k)))
      · exact Or.inr (Or.inr (Or.inr (Or.inr k)))

theorem parseBody_position (n : Nat) :
    ∀ (ts : List Tok) (d : Private) (dfc : Defect),
      (parseBody n ts d dfc).2.1 <:+ ts ∧
      (NoNull ts → Synced ts d →
        Synced (parseBody n ts d dfc).2.1 (parseBody n ts d dfc).2.2.1) ∧
      ((parseBody n ts d dfc).1 = Outcome.ret false →
        FailCode (parseBody n ts d dfc).2.2.1.code) ∧
      ((parseBody n ts d dfc).1 = Outcome.ret true →
        (parseBody n ts d dfc).2.2.1.code = T_NULL ∨
          (parseBody n ts d dfc).2.2.1.code = T_INIT) ∧
      ((parseBody n ts d dfc).1 = Outcome.thrown →
        (parseBody n ts d dfc).2.2.1.code = T_LINE) := by
  induction n with
  | zero =>
    intro ts d dfc
    exact ⟨List.suffix_refl _, fun _ hs => hs, fun h => (by cases h), fun h => (by cases h),
      fun h => (by cases h)⟩
  | succ k ih =>
    intro ts d dfc
    rw [parseBody]
    split
    · have a1 := parseMsg_position ts d DefEvent.empty
      split
      · rename_i ts1 d1 evt h1
        rw [h1] at a1
        obtain ⟨i0, i1, i2, i3, i4⟩ := ih ts1 d1 { dfc with events := dfc.events ++ [evt] }
        exact ⟨i0.trans a1.1, fun hnn hs => i1 (noNull_suffix a1.1 hnn) (a1.2.1 hnn hs),
          i2, i3, i4⟩
      · rename_i o ts1 d1 evt hne h1
        rw [h1] at a1
        refine ⟨a1.1, a1.2.1, a1.2.2.1, fun h => ?_, a1.2.2.2⟩
        exact (hne h).elim
    · rename_i hcond
      refine ⟨List.suffix_refl _, fun _ hs => hs, fun h => (by cases h), fun _ => ?_,
        fun h => (by cases h)⟩
      by_cases hn : d.code = T_NULL
      · exact Or.inl hn
      · by_cases hi : d.code = T_INIT
        · exact Or.inr hi
        · exact absurd ⟨hn, hi⟩ hcond

theorem parseNext_position (ts : List Tok) (d : Private) (dfc : Defect) :
    (parseNext ts d dfc).2.1 <:+ ts ∧
    (NoNull ts → Synced (parseNext ts d dfc).2.1 (parseNext ts d dfc).2.2.1) ∧
    ((parseNext ts d dfc).1 = Outcome.ret false → FailCode (parseNext ts d dfc).2.2.1.code) ∧
    ((parseNext ts d dfc).1 = Outcome.thrown → (parseNext ts d dfc).2.2.1.code = T_LINE) := by
  have a1 := seekForToken_pos T_INIT ts d
  have hstart : NoNull ts → Synced (seekForToken T_INIT ts d).2.1 (seekForToken T_INIT ts d).2.2 := by
    intro hnn
    by_cases hc : T_INIT = d.code
    · rw [seekForToken_here T_INIT ts d hc]
      intro hnull
      rw [← hc] at hnull
      cases hnull
    · exact a1.2.1 hnn (Or.inl hc)
  rcases parseNext_cases ts d dfc with ⟨ts1, d1, h1, hr⟩ | ⟨ts1, d1, ts2, d2, h1, h2, hr⟩ |
    ⟨ts1, d1, ts2, d2, h1, h2, hr⟩
  · rw [h1] at a1 hstart
    rw [hr]
    exact ⟨a1.1, hstart, fun _ => failCode_of_seek (a1.2.2 rfl), fun h => (by cases h)⟩
  · rw [h1] at a1 hstart
    have a2 := seekForToken_pos T_DEFECT ts1 d1
    rw [h2] at a2
    rw [hr]
    exact ⟨a2.1.trans a1.1,
      fun hnn => a2.2.1 (noNull_suffix a1.1 hnn) (Or.inr (hstart hnn)),
      fun _ => failCode_of_seek (a2.2.2 rfl), fun h => (by cases h)⟩
  · rw [h1] at a1 hstart
    have a2 := seekForToken_pos T_DEFECT ts1 d1
    have c2 := (seekForToken_progress T_DEFECT ts1 d1).2.1
    rw [h2] at a2 c2
    have hcode : d2.code = T_DEFECT := c2 rfl
    have l2 : ts2 <:+ ts := a2.1.trans a1.1
    have s2 : NoNull ts → Synced ts2 d2 :=
      fun hnn => a2.2.1 (noNull_suffix a1.1 hnn) (Or.inr (hstart hnn))
    rcases hr with ⟨_, hr⟩ | ⟨_, o, ts3, d3, dfc3, hb, hr⟩
    · rw [hr]
      exact ⟨l2, s2, fun _ => Or.inr (Or.inr (Or.inl hcode)), fun h => (by cases h)⟩
    · obtain ⟨i0, i1, i2, i3, i4⟩ := parseBody_position (ts2.length + 1) ts2 d2 (parseClass d2 dfc).2
      rw [hb] at i0 i1 i2 i3 i4
      have s3 : NoNull ts → Synced ts3 d3 := fun hnn => i1 (noNull_suffix l2 hnn) (s2 hnn)
      rcases hr with ⟨ho, _, hr⟩ | ⟨ho, _, hr⟩ | ⟨hne, hr⟩
      · rw [hr]
        exact ⟨i0.trans l2, s3, fun h => (by cases h), fun h => (by cases h)⟩
      · rw [hr]
        refine ⟨i0.trans l2, s3, fun _ => ?_, fun h => (by cases h)⟩
        rcases i3 ho with k | k
        · exact Or.inl k
        · exact Or.inr (Or.inl k)
      · rw [hr]
        exact ⟨i0.trans l2, s3, i2, i4⟩

theorem getNextLoop_eos (n : Nat) :
    ∀ (ts : List Tok) (d : Private) (dfc : Defect), NoNull ts →
      (getNextLoop n ts d dfc).1 = Outcome.ret false →
      (getNextLoop n ts d dfc).2.1 = [] ∧ (getNextLoop n ts d dfc).2.2.1.code = T_NULL := by
  induction n with
  | zero => intro ts d dfc _ h; cases h
  | succ k ih =>
    intro ts d dfc hnn
    obtain ⟨p0, p1, _, _⟩ := parseNext_position ts d dfc
    rw [getNextLoop]
    split
    · intro h; cases h
    · rename_i ts1 d1 dfc1 hr
      rw [hr] at p0 p1
      split
      · exact ih ts1 d1 dfc1 (noNull_suffix p0 hnn)
      · rename_i hc
        intro _
        have hc1 : d1.code = T_NULL := by
          by_contra hcon
          exact hc hcon
        exact ⟨p1 hnn hc1, hc1⟩
    · rename_i r h1 h2
      intro h
      exact (h2 _ _ _ (Prod.ext h rfl)).elim

theorem runCalls_eos (dfcs : List Defect) :
    ∀ (d : Private), d.code = T_NULL →
      runCalls dfcs [] d = dfcs.map (fun x => (Outcome.ret false, x, Parser.hasError d)) := by
  induction dfcs with
  | nil => intro d _; rfl
  | cons x rest ih =>
    intro d hc
    rw [runCalls, getNext_eof d x (by rw [hc]; decide)]
    simp only [List.map_cons]
    rw [ih (d.readNext []).2 (readNext_nil_code d), hasError_readNext_nil]


/-! ## End of stream, and where a failed attempt stops -/

/-- C11: the end of the stream is absorbing. The token list holds the tokens
before the end of the stream, after which the source yields `T_NULL` forever.
Once a call of `getNext` has returned false, the current token is `T_NULL`
and the source is exhausted; every later call returns false, leaves
`hasError()` as it was, and does not touch the caller's `Defect`. -/
theorem getNext_eos_absorbing (ts : List Tok) (d : Private) (dfc : Defect)
    (hnn : NoNull ts) (h : (getNext ts d dfc).1 = Outcome.ret false) :
    (getNext ts d dfc).2.2.1.code = T_NULL ∧ (getNext ts d dfc).2.1 = [] ∧
    ∀ dfcs : List Defect,
      runCalls dfcs (getNext ts d dfc).2.1 (getNext ts d dfc).2.2.1 =
        dfcs.map (fun x => (Outcome.ret false, x, Parser.hasError (getNext ts d dfc).2.2.1)) := by
  obtain ⟨e1, e2⟩ := getNextLoop_eos (ts.length + 2) ts d dfc hnn h
  refine ⟨e2, e1, fun dfcs => ?_⟩
  have e3 : (getNext ts d dfc).2.1 = [] := e1
  rw [e3]
  exact runCalls_eos dfcs _ e2

theorem getNext_eos_absorbing_witness :
    NoNull [Tok.clean T_MSG "stray".toList] ∧
    (getNext [Tok.clean T_MSG "stray".toList] Private.init Defect.empty).1 =
      Outcome.ret false ∧
    runCalls [Defect.empty, Defect.empty]
        (getNext [Tok.clean T_MSG "stray".toList] Private.init Defect.empty).2.1
        (getNext [Tok.clean T_MSG "stray".toList] Private.init Defect.empty).2.2.1 =
      [(Outcome.ret false, Defect.empty, true), (Outcome.ret false, Defect.empty, true)] :=
  ⟨by simp [NoNull, Tok.clean], by decide,
    (getNext_eos_absorbing [Tok.clean T_MSG "stray".toList] Private.init Defect.empty
      (by simp [NoNull, Tok.clean]) (by decide)).2.2 [Defect.empty, Defect.empty]⟩

/-- C16, as the code has it: when an attempt (`parseNext`) fails, the current
token is the end of the stream, a separator, or the token the attempt gave up
at, of kind `T_DEFECT`, `T_LINE` or `T_MSG`; the unread tokens are a suffix of
the stream. When the attempt started at a separator and another separator
`sep` follows, the attempt has not read past `sep`: it stands inside the
failed block or at `sep`, and it is the search for `T_INIT` that opens the
next attempt which takes the parser to `sep`. -/
theorem parseNext_failure_position (ts : List Tok) (d : Private) (dfc : Defect)
    (h : (parseNext ts d dfc).1 = Outcome.ret false) :
    ((parseNext ts d dfc).2.2.1.code = T_NULL ∨ (parseNext ts d dfc).2.2.1.code = T_INIT ∨
      (parseNext ts d dfc).2.2.1.code = T_DEFECT ∨ (parseNext ts d dfc).2.2.1.code = T_LINE ∨
      (parseNext ts d dfc).2.2.1.code = T_MSG) ∧
    (∃ pre, ts = pre ++ (parseNext ts d dfc).2.1) ∧
    (∀ suf sep rest, ts = suf ++ sep :: rest → NoSep suf → sep.code = T_INIT →
      d.code = T_INIT →
      ResyncPos sep rest (parseNext ts d dfc).2.1 (parseNext ts d dfc).2.2.1 ∧
      ∃ d2, seekForToken T_INIT (parseNext ts d dfc).2.1 (parseNext ts d dfc).2.2.1 =
          (true, rest, d2) ∧ d2.code = T_INIT) := by
  obtain ⟨p0, _, p2, _⟩ := parseNext_position ts d dfc
  refine ⟨p2 h, ?_, ?_⟩
  · obtain ⟨pre, hpre⟩ := p0
    exact ⟨pre, hpre.symm⟩
  · intro suf sep rest hts hs hsep hc
    subst hts
    obtain ⟨_, hres⟩ := parseNext_sync sep rest hsep suf hs d dfc dfc hc
    have hp := (hres h).2
    refine ⟨hp, ?_⟩
    rcases hp with ⟨suf1, e1, hs1, hn1, _⟩ | ⟨e1, hc1⟩
    · rw [e1, seekForToken, if_neg (fun e => hn1 e.symm)]
      obtain ⟨d2, hd2, hcode, _⟩ := seekLoop_to_sep sep rest hsep suf1 hs1
        (parseNext (suf ++ sep :: rest) d dfc).2.2.1
      exact ⟨d2, hd2, hcode⟩
    · rw [e1]
      exact ⟨_, seekForToken_here T_INIT rest _ hc1.symm, hc1⟩

theorem parseNext_failure_position_witness :
    (parseNext [Tok.clean T_INIT "Error:".toList, Tok.clean T_DEFECT "A:".toList,
        Tok.clean T_FILE "f.c".toList, Tok.clean T_MSG "m".toList,
        Tok.clean T_INIT "Error:".toList] Private.init Defect.empty).1 = Outcome.ret false ∧
    ∃ pre, [Tok.clean T_INIT "Error:".toList, Tok.clean T_DEFECT "A:".toList,
        Tok.clean T_FILE "f.c".toList, Tok.clean T_MSG "m".toList,
        Tok.clean T_INIT "Error:".toList] =
      pre ++ (parseNext [Tok.clean T_INIT "Error:".toList, Tok.clean T_DEFECT "A:".toList,
        Tok.clean T_FILE "f.c".toList, Tok.clean T_MSG "m".toList,
        Tok.clean T_INIT "Error:".toList] Private.init Defect.empty).2.1 :=
  ⟨by decide, (parseNext_failure_position _ Private.init Defect.empty (by decide)).2.1⟩

/-- C16 fails as stated: an attempt whose class line is rejected fails with
the `T_DEFECT` token current and the rest of the block unread, and one whose
position text is rejected fails with the `T_LINE` token current. -/
theorem parseNext_failure_counterexample :
    ((parseNext [Tok.clean T_INIT "Error:".toList, Tok.clean T_DEFECT "oops".toList,
        Tok.clean T_FILE "f.c".toList] Private.init Defect.empty).1 = Outcome.ret false ∧
      (parseNext [Tok.clean T_INIT "Error:".toList, Tok.clean T_DEFECT "oops".toList,
        Tok.clean T_FILE "f.c".toList] Private.init Defect.empty).2.2.1.code = T_DEFECT ∧
      (parseNext [Tok.clean T_INIT "Error:".toList, Tok.clean T_DEFECT "oops".toList,
        Tok.clean T_FILE "f.c".toList] Private.init Defect.empty).2.1 =
        [Tok.clean T_FILE "f.c".toList]) ∧
    ((parseNext (oneEventStream "5".toList) Private.init Defect.empty).1 = Outcome.ret false ∧
      (parseNext (oneEventStream "5".toList) Private.init Defect.empty).2.2.1.code = T_LINE ∧
      (parseNext (oneEventStream "5".toList) Private.init Defect.empty).2.1 =
        [Tok.clean T_MSG "m".toList]) := by
  decide


/-! ## A run that leaves the error flag clear -/

theorem clean_back {d d1 : Private} (h : flagsLe d d1) (hc : Parser.hasError d1 = false) :
    Parser.hasError d = false := by
  cases hd : Parser.hasError d with
  | false => rfl
  | true =>
    rw [flagsLe_hasError h hd] at hc
    cases hc

theorem wrongToken_flag (d : Private) : Parser.hasError d.wrongToken = true := by
  simp [Parser.hasError, Private.wrongToken]

theorem readNext_clean_tok (d : Private) (t : Tok) (ts : List Tok)
    (h : Parser.hasError (d.readNext (t :: ts)).2 = false) :
    t = Tok.clean t.code t.text ∧ d.readNext (t :: ts) = (ts, d.setTok t.code t.text) := by
  cases t with
  | mk c s l =>
    have hl : l = false := by
      cases l with
      | false => rfl
      | true => simp [Parser.hasError, Private.readNext, FlexLexerWrap.readNext] at h
    subst hl
    exact ⟨rfl, readNext_clean d c s ts⟩

theorem seekForToken_clean (token : EToken) (ts : List Tok) (d : Private)
    (h1 : token ≠ d.code) (hnn : NoNull ts)
    (hclean : Parser.hasError (seekForToken token ts d).2.2 = false) :
    (ts = [] ∧ seekForToken token ts d = (false, [], (d.readNext []).2)) ∨
    (∃ s rest, ts = Tok.clean token s :: rest ∧
      seekForToken token ts d = (true, rest, d.setTok token s)) := by
  cases ts with
  | nil =>
    left
    refine ⟨rfl, ?_⟩
    rw [seekForToken, if_neg h1, seekLoop]
  | cons t rest =>
    right
    have hn : t.code ≠ T_NULL := hnn t (List.mem_cons_self _ _)
    by_cases ht : t.code = token
    · have hs := seekForToken_next token t rest d h1 ht (by rw [← ht]; exact hn)
      rw [hs] at hclean
      obtain ⟨e1, e2⟩ := readNext_clean_tok d t rest hclean
      rw [ht] at e1 e2
      refine ⟨t.text, rest, ?_, ?_⟩
      · rw [← e1]
      · rw [hs, e2]
    · exfalso
      have hflag : Parser.hasError (seekForToken token (t :: rest) d).2.2 = true := by
        rw [seekForToken, if_neg h1, seekLoop]
        simp only [readNext_code]
        rw [if_neg hn, if_neg (fun e => ht e.symm)]
        split
        · exact wrongToken_flag _
        · exact flagsLe_hasError (seekLoop_flags token rest _) (wrongToken_flag _)
      rw [hflag] at hclean
      cases hclean

theorem parseMsgExtra_clean (ts : List Tok) (d : Private) (evt : DefEvent) (hnn : NoNull ts)
    (hclean : Parser.hasError (parseMsgExtra ts d evt).2.2.1 = false) :
    ∃ (extra : List Str) (rest : List Tok),
      ts = extra.map (Tok.clean T_MSG_EX) ++ rest ∧ Delimited rest := by
  induction ts generalizing d evt with
  | nil => exact ⟨[], [], rfl, trivial⟩
  | cons t ts ih =>
    have hcode : (d.readNext (t :: ts)).2.code = t.code := readNext_code d t ts
    have hn : t.code ≠ T_NULL := hnn t (List.mem_cons_self _ _)
    revert hclean
    rw [parseMsgExtra]
    split
    · rename_i h
      rw [hcode] at h
      exact absurd h hn
    · rename_i h
      rw [hcode] at h
      intro _
      exact ⟨[], t :: ts, rfl, Or.inl h⟩
    · rename_i h
      rw [hcode] at h
      intro _
      exact ⟨[], t :: ts, rfl, Or.inr h⟩
    · rename_i h
      rw [hcode] at h
      intro hclean
      obtain ⟨extra, rest, e1, e2⟩ := ih (d.readNext (t :: ts)).2 _
        (fun u hu => hnn u (List.mem_cons_of_mem _ hu)) hclean
      have hd1 := clean_back (parseMsgExtra_flags ts (d.readNext (t :: ts)).2 _) hclean
      obtain ⟨k1, _⟩ := readNext_clean_tok d t ts hd1
      rw [h] at k1
      refine ⟨t.text :: extra, rest, ?_, e2⟩
      rw [List.map_cons, List.cons_append, ← e1, ← k1]
    · intro hclean
      rw [wrongToken_flag] at hclean
      cases hclean

theorem parseMsg_ok (e : EventBlock) (rest : List Tok) (d : Private)
    (hc : d.code = T_FILE) (hy : d.lexer.yytext = e.file)
    (hpos : (parseLine (Private.atToken T_LINE e.pos) DefEvent.empty).1 = Outcome.ret true)
    (hrest : Delimited rest) :
    parseMsg (e.tokens.tail ++ rest) d DefEvent.empty =
      (Outcome.ret true, rest.tail, (d.readNext rest).2, e.decode) := by
  have hline : (parseLine (Private.atToken T_LINE e.pos)
      { DefEvent.empty with fileName := e.file }).1 = Outcome.ret true := by
    rw [parseLine_fst _ _ DefEvent.empty]
    exact hpos
  have hline2 : parseLine (d.setTok T_LINE e.pos)
      { DefEvent.empty with fileName := e.file } =
      (Outcome.ret true, (parseLine (Private.atToken T_LINE e.pos)
        { DefEvent.empty with fileName := e.file }).2) := by
    rw [parseLine_text _ T_LINE]
    exact Prod.ext hline rfl
  unfold parseMsg
  rw [seekForToken_here T_FILE _ _ hc.symm]
  simp only [EventBlock.tokens, List.tail_cons, List.cons_append]
  rw [seekForToken_next T_LINE _ _ _ (by rw [hc]; decide) rfl (by decide)]
  simp only [readNext_clean, hy]
  rw [hline2]
  simp only
  rw [seekForToken_next T_MSG _ _ _ (by show T_MSG ≠ T_LINE; decide) rfl (by decide)]
  simp only [readNext_clean]
  have e2 : ((d.setTok T_LINE e.pos).setTok T_MSG e.msg).lexer.yytext = e.msg := rfl
  rw [e2, parseMsgExtra_wf e.extra rest _ _ hrest, setTok_readNext, setTok_readNext]
  simp only [EventBlock.decode]

theorem parseMsg_resume (ts ts1 : List Tok) (d d1 : Private) (evt : DefEvent)
    (h : seekForToken T_FILE ts d = (true, ts1, d1)) (hc : d1.code = T_FILE) :
    parseMsg ts d evt = parseMsg ts1 d1 evt := by
  unfold parseMsg
  rw [h, seekForToken_here T_FILE ts1 d1 hc.symm]

/-- An event read with the error flag left clear, from a file reference. -/
theorem parseMsg_clean_at (ts : List Tok) (d : Private) (hc : d.code = T_FILE)
    (hnn : NoNull ts)
    (hclean : Parser.hasError (parseMsg ts d DefEvent.empty).2.2.1 = false)
    (hthrow : (parseMsg ts d DefEvent.empty).1 ≠ Outcome.thrown) :
    ∃ (e : EventBlock) (rest : List Tok), d.lexer.yytext = e.file ∧
      (parseLine (Private.atToken T_LINE e.pos) DefEvent.empty).1 = Outcome.ret true ∧
      Delimited rest ∧ ts = e.tokens.tail ++ rest := by
  have hhere := seekForToken_here T_FILE ts d hc.symm
  rcases parseMsg_cases ts d DefEvent.empty with ⟨ts1, d1, h1, hr⟩ |
    ⟨ts1, d1, ts2, d2, h1, h2, hr⟩ | ⟨ts1, d1, ts2, d2, o, evt2, h1, h2, hl, hr⟩
  · rw [hhere] at h1
    cases h1
  · rw [hr, wrongToken_flag] at hclean
    cases hclean
  · rw [hhere] at h1
    obtain ⟨rfl, rfl⟩ : ts = ts1 ∧ d = d1 := by
      have := (Prod.mk.inj h1).2
      exact ⟨(Prod.mk.inj this).1, (Prod.mk.inj this).2⟩
    rcases hr with ⟨_, hr⟩ | ⟨_, hr⟩ | ⟨_, ts3, d3, h3, hr⟩ |
      ⟨ho, ts3, d3, b, ts4, d4, evt4, h3, hx, hr⟩
    · rw [hr, wrongToken_flag] at hclean
      cases hclean
    · rw [hr] at hthrow
      exact absurd rfl hthrow
    · rw [hr, wrongToken_flag] at hclean
      cases hclean
    · rw [hr] at hclean
      have c4 : Parser.hasError d4 = false := hclean
      have f4 := parseMsgExtra_flags ts3 d3 (parseMsgText d3.lexer.yytext evt2)
      rw [hx] at f4
      have c3 : Parser.hasError d3 = false := clean_back f4 c4
      have f3 := seekForToken_flags T_MSG ts2 d2
      rw [h3] at f3
      have c2 : Parser.hasError d2 = false := clean_back f3 c3
      have k2 := seekForToken_clean T_LINE ts d (by rw [hc]; decide) hnn (by rw [h2]; exact c2)
      rcases k2 with ⟨_, k2⟩ | ⟨s, r1, e1, k2⟩
      · rw [h2] at k2
        cases k2
      · rw [h2] at k2
        obtain ⟨rfl, rfl⟩ : ts2 = r1 ∧ d2 = d.setTok T_LINE s := by
          have := (Prod.mk.inj k2).2
          exact ⟨(Prod.mk.inj this).1, (Prod.mk.inj this).2⟩
        have hnn1 : NoNull ts2 := fun u hu => hnn u (by rw [e1]; exact List.mem_cons_of_mem _ hu)
        have k3 := seekForToken_clean T_MSG ts2 (d.setTok T_LINE s)
          (by show T_MSG ≠ T_LINE; decide) hnn1 (by rw [h3]; exact c3)
        rcases k3 with ⟨_, k3⟩ | ⟨m, r2, e2, k3⟩
        · rw [h3] at k3
          cases k3
        · rw [h3] at k3
          obtain ⟨rfl, rfl⟩ : ts3 = r2 ∧ d3 = (d.setTok T_LINE s).setTok T_MSG m := by
            have := (Prod.mk.inj k3).2
            exact ⟨(Prod.mk.inj this).1, (Prod.mk.inj this).2⟩
          have hnn2 : NoNull ts3 :=
            fun u hu => hnn1 u (by rw [e2]; exact List.mem_cons_of_mem _ hu)
          obtain ⟨extra, rest, e3, hdel⟩ := parseMsgExtra_clean ts3 _ _ hnn2
            (by rw [hx]; exact c4)
          refine ⟨⟨d.lexer.yytext, s, m, extra⟩, rest, rfl, ?_, hdel, ?_⟩
          · subst ho
            have hl1 : (parseLine (d.setTok T_LINE s)
                { DefEvent.empty with fileName := d.lexer.yytext }).1 = Outcome.ret true := by
              rw [hl]
            rw [parseLine_text _ T_LINE, parseLine_fst _ _ DefEvent.empty] at hl1
            exact hl1
          · rw [e1, e2, e3]
            simp [EventBlock.tokens]


/-- An event read with the error flag left clear, in the body of a defect. -/
theorem parseMsg_clean (ts : List Tok) (d : Private) (hc : d.code = T_FILE ∨ d.code = T_DEFECT)
    (hnn : NoNull ts)
    (hclean : Parser.hasError (parseMsg ts d DefEvent.empty).2.2.1 = false)
    (hthrow : (parseMsg ts d DefEvent.empty).1 ≠ Outcome.thrown) :
    ∃ (e : EventBlock) (rest : List Tok),
      (parseLine (Private.atToken T_LINE e.pos) DefEvent.empty).1 = Outcome.ret true ∧
      Delimited rest ∧ pendingTokens d ++ ts = e.tokens ++ rest ∧
      parseMsg ts d DefEvent.empty =
        (Outcome.ret true, rest.tail, (d.readNext rest).2, e.decode) := by
  rcases hc with hc | hc
  · obtain ⟨e, rest, hy, hp, hdel, hts⟩ := parseMsg_clean_at ts d hc hnn hclean hthrow
    refine ⟨e, rest, hp, hdel, ?_, ?_⟩
    · simp [pendingTokens, hc, hy, hts, EventBlock.tokens]
    · rw [hts]
      exact parseMsg_ok e rest d hc hy hp hdel
  · have hpend : pendingTokens d = [] := by simp [pendingTokens, hc]
    cases h1 : seekForToken T_FILE ts d with
    | mk b1 r1 =>
      obtain ⟨ts1, d1⟩ := r1
      cases b1 with
      | false =>
        have hr : parseMsg ts d DefEvent.empty =
            (Outcome.ret false, ts1, d1.wrongToken, DefEvent.empty) := by
          simp only [parseMsg, h1]
        rw [hr, wrongToken_flag] at hclean
        cases hclean
      | true =>
        have hc1 : d1.code = T_FILE := by
          have := (seekForToken_progress T_FILE ts d).2.1
          rw [h1] at this
          exact this rfl
        have hres := parseMsg_resume ts ts1 d d1 DefEvent.empty h1 hc1
        rw [hres] at hclean hthrow
        have c1 := clean_back (parseMsg_flags ts1 d1 DefEvent.empty) hclean
        rcases seekForToken_clean T_FILE ts d (by rw [hc]; decide) hnn (by rw [h1]; exact c1)
          with ⟨_, k⟩ | ⟨f, r, e1, k⟩
        · rw [h1] at k
          cases k
        · rw [h1] at k
          obtain ⟨rfl, rfl⟩ : ts1 = r ∧ d1 = d.setTok T_FILE f := by
            have := (Prod.mk.inj k).2
            exact ⟨(Prod.mk.inj this).1, (Prod.mk.inj this).2⟩
          have hnn1 : NoNull ts1 := fun u hu => hnn u (by rw [e1]; exact List.mem_cons_of_mem _ hu)
          obtain ⟨e, rest, hy, hp, hdel, hts⟩ :=
            parseMsg_clean_at ts1 (d.setTok T_FILE f) hc1 hnn1 hclean hthrow
          have hy1 : f = e.file := hy
          refine ⟨e, rest, hp, hdel, ?_, ?_⟩
          · rw [hpend, e1, hts, hy1]
            simp [EventBlock.tokens]
          · rw [hres, hts, parseMsg_ok e rest _ hc1 hy hp hdel, setTok_readNext]

/-- The body loop run with the error flag left clear: it reads one or more
complete events and stops at a separator or at the end of the stream. -/
theorem parseBody_clean (n : Nat) :
    ∀ (ts : List Tok) (d : Private) (dfc : Defect), (d.code = T_FILE ∨ d.code = T_DEFECT) →
      NoNull ts → ts.length < n →
      Parser.hasError (parseBody n ts d dfc).2.2.1 = false →
      (parseBody n ts d dfc).1 ≠ Outcome.thrown →
      ∃ (e : EventBlock) (es : List EventBlock) (rest : List Tok),
        (∀ x ∈ e :: es,
          (parseLine (Private.atToken T_LINE x.pos) DefEvent.empty).1 = Outcome.ret true) ∧
        AtBoundary rest ∧ pendingTokens d ++ ts = eventTokens (e :: es) ++ rest ∧
        parseBody n ts d dfc =
          (Outcome.ret true, rest.tail, (d.readNext rest).2,
            { dfc with events := dfc.events ++ (e :: es).map EventBlock.decode }) := by
  induction n with
  | zero => intro ts d dfc _ _ hlen; omega
  | succ k ih =>
    intro ts d dfc hc hnn hlen hclean hthrow
    have hcond : d.code ≠ T_NULL ∧ d.code ≠ T_INIT := by
      rcases hc with hc | hc <;> rw [hc] <;> constructor <;> decide
    cases hpm : parseMsg ts d DefEvent.empty with
    | mk o r =>
      obtain ⟨ts1, d1, evt⟩ := r
      have hstep : parseBody (k + 1) ts d dfc =
          if o = Outcome.ret true then
            parseBody k ts1 d1 { dfc with events := dfc.events ++ [evt] }
          else (o, ts1, d1, dfc) := by
        rw [parseBody, if_pos hcond, hpm]
        cases o with
        | ret b => cases b <;> simp
        | thrown => simp
        | nofuel => simp
      have hc1 : Parser.hasError d1 = false ∧ o ≠ Outcome.thrown := by
        by_cases ho : o = Outcome.ret true
        · rw [hstep, if_pos ho] at hclean
          exact ⟨clean_back (parseBody_flags k ts1 d1 _) hclean, by rw [ho]; intro h; cases h⟩
        · rw [hstep, if_neg ho] at hclean hthrow
          exact ⟨hclean, hthrow⟩
      obtain ⟨e, rest1, hp, hdel, hts, hres⟩ := parseMsg_clean ts d hc hnn
        (by rw [hpm]; exact hc1.1) (by rw [hpm]; exact hc1.2)
      have hsuf : ts1 <:+ ts := by
        have := (parseMsg_position ts d DefEvent.empty).1
        rw [hpm] at this
        exact this
      rw [hpm] at hres
      obtain ⟨ho, hts1, hd1, hevt⟩ : o = Outcome.ret true ∧ ts1 = rest1.tail ∧
          d1 = (d.readNext rest1).2 ∧ evt = e.decode := by
        simpa using hres
      have hlen1 : ts1.length < ts.length := by
        have := (parseMsg_progress ts d DefEvent.empty).2.1
        rw [hpm] at this
        exact this ho
      rw [hstep, if_pos ho] at hclean hthrow ⊢
      by_cases hb : AtBoundary rest1
      · obtain ⟨m, rfl⟩ : ∃ m, k = m + 1 := ⟨k - 1, by omega⟩
        refine ⟨e, [], rest1, fun x hx => ?_, hb, ?_, ?_⟩
        · simp only [List.mem_singleton] at hx
          rw [hx]
          exact hp
        · rw [hts]
          simp [eventTokens]
        · rw [parseBody, hd1, if_neg (readNext_boundary d rest1 hb), hts1, hevt]
          simp
      · cases rest1 with
        | nil => exact absurd trivial hb
        | cons t r =>
          have ht : t.code = T_FILE := by
            rcases hdel with h | h
            · exact absurd h hb
            · exact h
          have hts1r : ts1 = r := hts1
          obtain ⟨k1, k2⟩ := readNext_clean_tok d t r (by rw [← hd1]; exact hc1.1)
          rw [ht] at k1 k2
          have hd1r : d1 = d.setTok T_FILE t.text := by rw [hd1, k2]
          subst hts1r
          subst hd1r
          obtain ⟨e1, es1, rest, hp1, hb1, hts2, hres2⟩ :=
            ih ts1 (d.setTok T_FILE t.text) { dfc with events := dfc.events ++ [evt] }
              (Or.inl rfl) (noNull_suffix hsuf hnn) (by omega) hclean hthrow
          have hpend : pendingTokens (d.setTok T_FILE t.text) = [t] := by
            conv_rhs => rw [k1]
            simp [pendingTokens, Private.setTok]
          rw [hpend] at hts2
          refine ⟨e, e1 :: es1, rest, fun x hx => ?_, hb1, ?_, ?_⟩
          · rcases List.mem_cons.mp hx with hx | hx
            · rw [hx]
              exact hp
            · exact hp1 x hx
          · rw [hts]
            have : t :: ts1 = eventTokens (e1 :: es1) ++ rest := hts2
            rw [this]
            simp [eventTokens, List.append_assoc]
          · rw [hres2, setTok_readNext, hevt]
            simp


/-- An attempt that starts at a separator and leaves the error flag clear
has read one accepted block and returns its defect. -/
theorem parseNext_clean_at (ts : List Tok) (d : Private) (dfc : Defect) (hc : d.code = T_INIT)
    (hnn : NoNull ts)
    (hclean : Parser.hasError (parseNext ts d dfc).2.2.1 = false)
    (hthrow : (parseNext ts d dfc).1 ≠ Outcome.thrown) :
    ∃ (b : DefectBlock) (rest : List Tok), b.Accepted ∧ b.init = d.lexer.yytext ∧
      AtBoundary rest ∧ ts = b.body ++ rest ∧
      parseNext ts d dfc = (Outcome.ret true, rest.tail, (d.readNext rest).2, b.decode) := by
  have hhere := seekForToken_here T_INIT ts d hc.symm
  rcases parseNext_cases ts d dfc with ⟨ts1, d1, h1, hr⟩ | ⟨ts1, d1, ts2, d2, h1, h2, hr⟩ |
    ⟨ts1, d1, ts2, d2, h1, h2, hr⟩
  · rw [hhere] at h1
    cases h1
  · rw [hr, wrongToken_flag] at hclean
    cases hclean
  · rw [hhere] at h1
    obtain ⟨rfl, rfl⟩ : ts = ts1 ∧ d = d1 := by
      have := (Prod.mk.inj h1).2
      exact ⟨(Prod.mk.inj this).1, (Prod.mk.inj this).2⟩
    rcases hr with ⟨_, hr⟩ | ⟨hcls, o, ts3, d3, dfc3, hb, hr⟩
    · rw [hr, wrongToken_flag] at hclean
      cases hclean
    · have hd3 : Parser.hasError d3 = false ∧ o ≠ Outcome.thrown := by
        rcases hr with ⟨ho, _, hr⟩ | ⟨_, _, hr⟩ | ⟨_, hr⟩
        · rw [hr] at hclean
          exact ⟨hclean, by rw [ho]; intro h; cases h⟩
        · rw [hr, wrongToken_flag] at hclean
          cases hclean
        · rw [hr] at hclean hthrow
          exact ⟨hclean, hthrow⟩
      have f3 := parseBody_flags (ts2.length + 1) ts2 d2 (parseClass d2 dfc).2
      rw [hb] at f3
      have c2 : Parser.hasError d2 = false := clean_back f3 hd3.1
      rcases seekForToken_clean T_DEFECT ts d (by rw [hc]; decide) hnn (by rw [h2]; exact c2)
        with ⟨_, k⟩ | ⟨c, r, e1, k⟩
      · rw [h2] at k
        cases k
      · rw [h2] at k
        obtain ⟨rfl, rfl⟩ : ts2 = r ∧ d2 = d.setTok T_DEFECT c := by
          have := (Prod.mk.inj k).2
          exact ⟨(Prod.mk.inj this).1, (Prod.mk.inj this).2⟩
        have hnn2 : NoNull ts2 := fun u hu => hnn u (by rw [e1]; exact List.mem_cons_of_mem _ hu)
        obtain ⟨e, es, rest, hp, hbd, hts, hres⟩ :=
          parseBody_clean (ts2.length + 1) ts2 (d.setTok T_DEFECT c) (parseClass _ dfc).2
            (Or.inr rfl) hnn2 (by omega) (by rw [hb]; exact hd3.1) (by rw [hb]; exact hd3.2)
        have hpend : pendingTokens (d.setTok T_DEFECT c) = [] := by
          simp [pendingTokens, Private.setTok]
        rw [hpend, List.nil_append] at hts
        rw [hb] at hres
        obtain ⟨ho, hts3, hd3e, hdfc3⟩ : o = Outcome.ret true ∧ ts3 = rest.tail ∧
            d3 = ((d.setTok T_DEFECT c).readNext rest).2 ∧
            dfc3 = { (parseClass (d.setTok T_DEFECT c) dfc).2 with
              events := (parseClass (d.setTok T_DEFECT c) dfc).2.events ++
                (e :: es).map EventBlock.decode } := by
          simpa using hres
        have hcls0 : (parseClass (d.setTok T_DEFECT c) Defect.empty).1 = true :=
          parseClass_ok_transfer _ Defect.empty dfc hcls
        have hcls1 : (parseClass (Private.atToken T_DEFECT c) Defect.empty).1 = true := hcls0
        rcases hr with ⟨_, hne, hr⟩ | ⟨_, _, hr⟩ | ⟨hno, _⟩
        · refine ⟨⟨d.lexer.yytext, c, e :: es⟩, rest, ⟨hcls1, by simp, hp⟩, rfl, hbd, ?_, ?_⟩
          · rw [e1, hts]
            simp [DefectBlock.body]
          · rw [hr, hts3, hd3e, setTok_readNext]
            have hsame : sameContents dfc3
                { (parseClass (Private.atToken T_DEFECT c) Defect.empty).2 with
                  events := (e :: es).map EventBlock.decode } := by
              rw [hdfc3, parseClass_indep (d.setTok T_DEFECT c) dfc Defect.empty hcls0]
              exact ⟨rfl, rfl, by simp⟩
            obtain ⟨g1, g2⟩ := guessKeyEvent_indep _ _ hsame
            have gt : (guessKeyEvent dfc3).1 = true := by
              rw [guessKeyEvent_eq dfc3 hne]
            have g3 := g2 gt
            simp only [DefectBlock.decode]
            rw [g3]
        · rw [hr, wrongToken_flag] at hclean
          cases hclean
        · exact absurd ho hno

/-- An attempt made between defects that leaves the error flag clear either
finds the stream exhausted or has read one accepted block. -/
theorem parseNext_clean (ts : List Tok) (d : Private) (dfc : Defect)
    (hc : d.code = T_NULL ∨ d.code = T_INIT) (hnn : NoNull ts)
    (hclean : Parser.hasError (parseNext ts d dfc).2.2.1 = false)
    (hthrow : (parseNext ts d dfc).1 ≠ Outcome.thrown) :
    (pendingTokens d ++ ts = [] ∧
      parseNext ts d dfc = (Outcome.ret false, [], (d.readNext []).2, dfc)) ∨
    (∃ (b : DefectBlock) (rest : List Tok), b.Accepted ∧ AtBoundary rest ∧
      pendingTokens d ++ ts = b.tokens ++ rest ∧
      parseNext ts d dfc = (Outcome.ret true, rest.tail, (d.readNext rest).2, b.decode)) := by
  rcases hc with hc | hc
  · have hpend : pendingTokens d = [] := by simp [pendingTokens, hc]
    cases h1 : seekForToken T_INIT ts d with
    | mk b1 r1 =>
      obtain ⟨ts1, d1⟩ := r1
      cases b1 with
      | false =>
        have hr : parseNext ts d dfc = (Outcome.ret false, ts1, d1, dfc) := by
          simp only [parseNext, h1]
        rw [hr] at hclean
        rcases seekForToken_clean T_INIT ts d (by rw [hc]; decide) hnn
            (by rw [h1]; exact hclean) with ⟨e0, k⟩ | ⟨s, r, e1, k⟩
        · left
          rw [h1] at k
          obtain ⟨rfl, rfl⟩ : ts1 = [] ∧ d1 = (d.readNext []).2 := by
            have := (Prod.mk.inj k).2
            exact ⟨(Prod.mk.inj this).1, (Prod.mk.inj this).2⟩
          exact ⟨by rw [hpend, e0]; rfl, hr⟩
        · rw [h1] at k
          cases k
      | true =>
        have hc1 : d1.code = T_INIT := by
          have := (seekForToken_progress T_INIT ts d).2.1
          rw [h1] at this
          exact this rfl
        have hres := parseNext_resume ts ts1 d d1 dfc h1 hc1
        rw [hres] at hclean hthrow
        have c1 := clean_back (parseNext_flags ts1 d1 dfc) hclean
        rcases seekForToken_clean T_INIT ts d (by rw [hc]; decide) hnn (by rw [h1]; exact c1)
          with ⟨_, k⟩ | ⟨s, r, e1, k⟩
        · rw [h1] at k
          cases k
        · rw [h1] at k
          obtain ⟨rfl, rfl⟩ : ts1 = r ∧ d1 = d.setTok T_INIT s := by
            have := (Prod.mk.inj k).2
            exact ⟨(Prod.mk.inj this).1, (Prod.mk.inj this).2⟩
          have hnn1 : NoNull ts1 := fun u hu => hnn u (by rw [e1]; exact List.mem_cons_of_mem _ hu)
          obtain ⟨b, rest, hacc, hinit, hbd, hts, hres2⟩ :=
            parseNext_clean_at ts1 (d.setTok T_INIT s) dfc hc1 hnn1 hclean hthrow
          have hinit1 : b.init = s := hinit
          right
          refine ⟨b, rest, hacc, hbd, ?_, ?_⟩
          · rw [hpend, e1, hts, ← hinit1]
            simp [DefectBlock.tokens]
          · rw [hres, hres2, setTok_readNext]
  · obtain ⟨b, rest, hacc, hinit, hbd, hts, hres⟩ :=
      parseNext_clean_at ts d dfc hc hnn hclean hthrow
    right
    refine ⟨b, rest, hacc, hbd, ?_, hres⟩
    rw [hts]
    simp [pendingTokens, hc, DefectBlock.tokens, hinit]

/-- A call of `getNext` made between defects that leaves the error flag
clear either finds the stream exhausted or returns the defect of one
accepted block. -/
theorem getNext_clean (ts : List Tok) (d : Private) (dfc : Defect)
    (hc : d.code = T_NULL ∨ d.code = T_INIT) (hnn : NoNull ts)
    (hclean : Parser.hasError (getNext ts d dfc).2.2.1 = false)
    (hthrow : (getNext ts d dfc).1 ≠ Outcome.thrown) :
    (pendingTokens d ++ ts = [] ∧
      getNext ts d dfc = (Outcome.ret false, [], (d.readNext []).2, dfc)) ∨
    (∃ (b : DefectBlock) (rest : List Tok), b.Accepted ∧ AtBoundary rest ∧
      pendingTokens d ++ ts = b.tokens ++ rest ∧
      getNext ts d dfc = (Outcome.ret true, rest.tail, (d.readNext rest).2, b.decode)) := by
  have key : Parser.hasError (getNext ts d dfc).2.2.1 = false →
      (getNext ts d dfc).1 ≠ Outcome.thrown →
      Parser.hasError (parseNext ts d dfc).2.2.1 = false ∧
        (parseNext ts d dfc).1 ≠ Outcome.thrown := by
    cases hp : parseNext ts d dfc with
    | mk o r =>
      obtain ⟨ts1, d1, dfc1⟩ := r
      unfold getNext
      rw [getNextLoop, hp]
      cases o with
      | ret b =>
        cases b with
        | true => intro a _; exact ⟨a, fun h => (by cases h)⟩
        | false =>
          simp only
          split
          · intro a _
            exact ⟨clean_back (getNextLoop_flags _ ts1 d1 dfc1) a, fun h => (by cases h)⟩
          · intro a _
            exact ⟨a, fun h => (by cases h)⟩
      | thrown => intro a b; exact ⟨a, b⟩
      | nofuel => intro a b; exact ⟨a, b⟩
  obtain ⟨k1, k2⟩ := key hclean hthrow
  rcases parseNext_clean ts d dfc hc hnn k1 k2 with ⟨e0, hr⟩ | ⟨b, rest, hacc, hbd, hts, hr⟩
  · left
    refine ⟨e0, ?_⟩
    unfold getNext
    rw [getNextLoop, hr]
    simp only
    rw [if_neg (by simp [readNext_nil_code])]
  · right
    exact ⟨b, rest, hacc, hbd, hts, getNextLoop_true_step _ _ _ _ _ _ _ hr⟩

theorem pending_readNext (d : Private) (rest : List Tok) (hb : AtBoundary rest)
    (hclean : Parser.hasError (d.readNext rest).2 = false) :
    pendingTokens (d.readNext rest).2 ++ rest.tail = rest ∧
    ((d.readNext rest).2.code = T_NULL ∨ (d.readNext rest).2.code = T_INIT) := by
  cases rest with
  | nil =>
    have hcode := readNext_nil_code d
    exact ⟨by simp [pendingTokens, hcode], Or.inl hcode⟩
  | cons t r =>
    have ht : t.code = T_INIT := hb
    obtain ⟨k1, k2⟩ := readNext_clean_tok d t r hclean
    rw [ht] at k1 k2
    rw [k2]
    refine ⟨?_, Or.inr rfl⟩
    conv_rhs => rw [k1]
    simp [pendingTokens, Private.setTok]

theorem noNull_pending (d : Private) (ts : List Tok) (hnn : NoNull ts) :
    NoNull (pendingTokens d ++ ts) := by
  intro t ht
  rcases List.mem_append.mp ht with h | h
  · unfold pendingTokens at h
    split at h
    · rename_i hcode
      simp only [List.mem_singleton] at h
      rw [h]
      rcases hcode with hcode | hcode
      · show d.code ≠ T_NULL
        rw [hcode]
        decide
      · show d.code ≠ T_NULL
        rw [hcode]
        decide
    · cases h
  · exact hnn t h

/-- A run of calls that ends with a false return and a clear error flag,
all earlier calls having returned true: the stream is a concatenation of
accepted blocks, one per true return, and each call returned the defect of
its block. -/
theorem runCalls_clean (dfcs : List Defect) :
    ∀ (ts : List Tok) (d : Private) (res : List (Outcome × Defect × Bool)) (last x : Defect),
      (d.code = T_NULL ∨ d.code = T_INIT) → NoNull ts →
      runCalls (dfcs ++ [last]) ts d = res ++ [(Outcome.ret false, x, false)] →
      (∀ r ∈ res, r.1 = Outcome.ret true) →
      ∃ bs : List DefectBlock, (∀ b ∈ bs, b.Accepted) ∧ pendingTokens d ++ ts = streamOf bs ∧
        res = bs.map (fun b => (Outcome.ret true, b.decode, false)) ∧ x = last := by
  induction dfcs with
  | nil =>
    intro ts d res last x hc hnn hrun htrue
    cases hg : getNext ts d last with
    | mk o r =>
      obtain ⟨ts1, d1, dfc1⟩ := r
      simp only [List.nil_append, runCalls, hg] at hrun
      cases res with
      | cons r0 res1 =>
        have := congrArg List.length hrun
        simp at this
      | nil =>
        simp only [List.nil_append, List.cons.injEq, Prod.mk.injEq, and_true] at hrun
        obtain ⟨ho, hx, hflag⟩ := hrun
        rcases getNext_clean ts d last hc hnn (by rw [hg]; exact hflag)
            (by rw [hg, ho]; intro h; cases h) with ⟨e0, hr⟩ | ⟨b, rest, _, _, _, hr⟩
        · rw [hg] at hr
          refine ⟨[], fun b hb => (by cases hb), e0, rfl, ?_⟩
          have := (Prod.mk.inj (Prod.mk.inj (Prod.mk.inj hr).2).2).2
          rw [← hx, this]
        · rw [hg, ho] at hr
          cases hr
  | cons y rest1 ih =>
    intro ts d res last x hc hnn hrun htrue
    cases hg : getNext ts d y with
    | mk o r =>
      obtain ⟨ts1, d1, dfc1⟩ := r
      simp only [List.cons_append, runCalls, hg] at hrun
      cases res with
      | nil =>
        have := congrArg List.length hrun
        cases rest1 <;> simp [runCalls] at this
      | cons r0 res1 =>
        simp only [List.cons_append, List.cons.injEq] at hrun
        obtain ⟨h0, hrun0⟩ := hrun
        have hrun1 : runCalls (rest1 ++ [last]) ts1 d1 =
            res1 ++ [(Outcome.ret false, x, false)] := hrun0
        have ho : o = Outcome.ret true := by
          have := htrue r0 (List.mem_cons_self _ _)
          rw [← h0] at this
          exact this
        have hflag : Parser.hasError d1 = false := by
          cases hf : Parser.hasError d1 with
          | false => rfl
          | true =>
            have hall := runCalls_flag_from (rest1 ++ [last]) ts1 d1 hf
              (Outcome.ret false, x, false) (by rw [hrun1]; simp)
            cases hall
        rcases getNext_clean ts d y hc hnn (by rw [hg]; exact hflag)
            (by rw [hg, ho]; intro h; cases h) with ⟨_, hr⟩ | ⟨b, rest, hacc, hbd, hts, hr⟩
        · rw [hg, ho] at hr
          cases hr
        · rw [hg] at hr
          obtain ⟨_, hts1, hd1, hdfc1⟩ : o = Outcome.ret true ∧ ts1 = rest.tail ∧
              d1 = (d.readNext rest).2 ∧ dfc1 = b.decode := by
            simpa using hr
          have hnnr : NoNull rest := by
            have hall := noNull_pending d ts hnn
            rw [hts] at hall
            exact fun u hu => hall u (List.mem_append_right _ hu)
          have hnn1 : NoNull ts1 := by
            rw [hts1]
            exact fun u hu => hnnr u (List.mem_of_mem_tail hu)
          obtain ⟨p1, p2⟩ := pending_readNext d rest hbd (by rw [← hd1]; exact hflag)
          rw [← hd1] at p1 p2
          obtain ⟨bs, hbs, hstream, hres, hx⟩ := ih ts1 d1 res1 last x p2 hnn1 hrun1
            (fun r hr => htrue r (List.mem_cons_of_mem _ hr))
          refine ⟨b :: bs, fun c hcm => ?_, ?_, ?_, hx⟩
          · rcases List.mem_cons.mp hcm with h | h
            · rw [h]
              exact hacc
            · exact hbs c h
          · rw [hts, streamOf, ← hstream, hts1, p1]
          · rw [List.map_cons, ← hres, ← h0, ho, hdfc1, hflag]


theorem wellFormed_accepted (b : DefectBlock) (h : b.WellFormed) : b.Accepted :=
  ⟨h.1, h.2.1, fun e he => parseLine_wf e.pos DefEvent.empty (h.2.2 e he)⟩

theorem positionText_last (s : Str) (h : PositionText s) : s.getLast? = some ':' := by
  obtain ⟨l, _, hs⟩ := h
  rcases hs with hs | ⟨c, _, hs⟩
  · rw [hs, List.getLast?_append]
    rfl
  · rw [hs, List.getLast?_append]
    rfl

theorem line_of_eventTokens (es : List EventBlock) (hpos : ∀ e ∈ es, PositionText e.pos) :
    ∀ t ∈ eventTokens es, t.code = T_LINE → PositionText t.text := by
  induction es with
  | nil => intro t ht; cases ht
  | cons e es ih =>
    intro t ht hcode
    simp only [eventTokens, EventBlock.tokens, List.cons_append, List.mem_cons,
      List.mem_append, List.mem_map] at ht
    rcases ht with h | h | h | ⟨s, _, h⟩ | h
    · rw [h] at hcode; cases hcode
    · rw [h]
      exact hpos e (List.mem_cons_self _ _)
    · rw [h] at hcode; cases hcode
    · rw [← h] at hcode; cases hcode
    · exact ih (fun x hx => hpos x (List.mem_cons_of_mem _ hx)) t h hcode

theorem line_of_streamOf (bs : List DefectBlock) (hwf : ∀ b ∈ bs, b.WellFormed) :
    ∀ t ∈ streamOf bs, t.code = T_LINE → PositionText t.text := by
  induction bs with
  | nil => intro t ht; cases ht
  | cons b bs ih =>
    intro t ht hcode
    simp only [streamOf, DefectBlock.tokens, DefectBlock.body, List.cons_append,
      List.mem_cons, List.mem_append] at ht
    rcases ht with h | h | h | h
    · rw [h] at hcode; cases hcode
    · rw [h] at hcode; cases hcode
    · exact line_of_eventTokens b.events (hwf b (List.mem_cons_self _ _)).2.2 t h hcode
    · exact ih (fun x hx => hwf x (List.mem_cons_of_mem _ hx)) t h hcode

/-- C17, as the code has it: no silent loss, with the blocks the decoders
accept in place of the well-formed ones. The token list holds the tokens
before the end of the stream. If the calls of `getNext` made from the
constructor state return true until one returns false, and `hasError()` is
false after that call (so no lexical error was reported and no call raised),
then the stream is exactly a concatenation of blocks of the form separator,
class line, one or more events (file reference, position, message, message
continuations), all scanned without lexical error, whose class text the class
decoder accepts and whose position texts the position decoder accepts;
`getNext` returned true once per block, with the defect decoded from that
block and `hasError()` false. Every well-formed block is such a block. -/
theorem no_silent_loss (ts : List Tok) (dfcs : List Defect) (last x : Defect)
    (res : List (Outcome × Defect × Bool)) (hnn : NoNull ts)
    (hrun : runCalls (dfcs ++ [last]) ts Private.init =
      res ++ [(Outcome.ret false, x, false)])
    (htrue : ∀ r ∈ res, r.1 = Outcome.ret true) :
    (∃ bs : List DefectBlock, (∀ b ∈ bs, b.Accepted) ∧ ts = streamOf bs ∧
      res = bs.map (fun b => (Outcome.ret true, b.decode, false))) ∧
    (∀ b : DefectBlock, b.WellFormed → b.Accepted) := by
  obtain ⟨bs, h1, h2, h3, _⟩ :=
    runCalls_clean dfcs ts Private.init res last x (Or.inl rfl) hnn hrun htrue
  exact ⟨⟨bs, h1, h2, h3⟩, wellFormed_accepted⟩

theorem no_silent_loss_witness :
    ∃ bs : List DefectBlock, (∀ b ∈ bs, b.Accepted) ∧
      oneEventStream ":5:7:".toList = streamOf bs ∧
      (runCalls [Defect.empty, Defect.empty] (oneEventStream ":5:7:".toList)
          Private.init).take 1 =
        bs.map (fun b => (Outcome.ret true, b.decode, false)) :=
  (no_silent_loss (oneEventStream ":5:7:".toList) [Defect.empty] Defect.empty Defect.empty
    ((runCalls [Defect.empty, Defect.empty] (oneEventStream ":5:7:".toList)
      Private.init).take 1)
    (by simp [NoNull, oneEventStream, Tok.clean]) (by decide) (by decide)).1

/-- C17 fails as stated: the position text `:5:x` is not `:<int>:` nor
`:<int>:<int>:`, yet the report is parsed with no error flagged, the defect
is returned with line 5 and column 0, and the `x` is lost; the stream is not
a concatenation of well-formed blocks. -/
theorem no_silent_loss_counterexample :
    runCalls [Defect.empty, Defect.empty] (oneEventStream ":5:x".toList) Private.init =
      [(Outcome.ret true,
          ⟨"A".toList, [], [⟨"f.c".toList, 5, 0, [], "m".toList⟩], 0⟩, false),
        (Outcome.ret false, Defect.empty, false)] ∧
    ¬ ∃ bs : List DefectBlock, (∀ b ∈ bs, b.WellFormed) ∧
      oneEventStream ":5:x".toList = streamOf bs := by
  refine ⟨by decide, ?_⟩
  rintro ⟨bs, hwf, hs⟩
  have hmem : Tok.clean T_LINE ":5:x".toList ∈ streamOf bs := by
    rw [← hs]
    simp [oneEventStream]
  have hpos := line_of_streamOf bs hwf _ hmem rfl
  have hlast := positionText_last _ hpos
  revert hlast
  decide


/-! ## Nothing is carried over in the caller's object -/

theorem getNextLoop_fresh (n : Nat) :
    ∀ (ts : List Tok) (d : Private) (x : Defect),
      (getNextLoop n ts d x).1 = (getNextFresh n ts d).1 ∧
      (getNextLoop n ts d x).2.1 = (getNextFresh n ts d).2.1 ∧
      (getNextLoop n ts d x).2.2.1 = (getNextFresh n ts d).2.2.1 ∧
      ((getNextLoop n ts d x).1 = Outcome.ret true →
        (getNextLoop n ts d x).2.2.2 = (getNextFresh n ts d).2.2.2) := by
  induction n with
  | zero => intro ts d x; exact ⟨rfl, rfl, rfl, fun h => (by cases h)⟩
  | succ k ih =>
    intro ts d x
    obtain ⟨e1, e2, e3, e4⟩ := parseNext_indep ts d x Defect.empty
    cases hx : parseNext ts d x with
    | mk ox rx =>
      obtain ⟨tx, dx, x1⟩ := rx
      cases hy : parseNext ts d Defect.empty with
      | mk oy ry =>
        obtain ⟨ty, dy, y1⟩ := ry
        rw [hx, hy] at e1 e2 e3 e4
        simp only at e1 e2 e3 e4
        subst e1
        subst e2
        subst e3
        cases ox with
        | ret bb =>
          cases bb with
          | true =>
            have := e4 rfl
            subst this
            simp only [getNextLoop, getNextFresh, hx, hy]
            exact ⟨trivial, trivial, trivial, fun _ => trivial⟩
          | false =>
            simp only [getNextLoop, getNextFresh, hx, hy]
            by_cases hc : dx.code ≠ T_NULL
            · rw [if_pos hc, if_pos hc]
              exact ih tx dx x1
            · rw [if_neg hc, if_neg hc]
              exact ⟨rfl, rfl, rfl, fun h => (by cases h)⟩
        | thrown =>
          simp only [getNextLoop, getNextFresh, hx, hy]
          exact ⟨trivial, trivial, trivial, fun h => (by cases h)⟩
        | nofuel =>
          simp only [getNextLoop, getNextFresh, hx, hy]
          exact ⟨trivial, trivial, trivial, fun h => (by cases h)⟩

/-- A true return of the loop is the true return of its last attempt, which
started somewhere further on in the stream. -/
theorem getNextFresh_last (n : Nat) :
    ∀ (ts : List Tok) (d : Private), (getNextFresh n ts d).1 = Outcome.ret true →
      ∃ (pre ts0 : List Tok) (d0 : Private), ts = pre ++ ts0 ∧
        parseNext ts0 d0 Defect.empty = getNextFresh n ts d := by
  induction n with
  | zero => intro ts d h; cases h
  | succ k ih =>
    intro ts d
    have hsuf := (parseNext_position ts d Defect.empty).1
    rw [getNextFresh]
    split
    · rename_i r hr
      intro _
      exact ⟨[], ts, d, rfl, hr⟩
    · rename_i ts1 d1 dfc1 hr
      rw [hr] at hsuf
      split
      · intro h
        obtain ⟨pre, ts0, d0, e1, e2⟩ := ih ts1 d1 h
        obtain ⟨p, hp⟩ := hsuf
        exact ⟨p ++ pre, ts0, d0, by rw [List.append_assoc, ← e1, hp], e2⟩
      · intro h; cases h
    · rename_i r h1 h2
      intro h
      exact (h1 _ (Prod.ext h rfl)).elim

theorem runReuse_fresh (n : Nat) :
    ∀ (ts : List Tok) (d : Private) (x : Defect),
      (runReuse n ts d x).map callView = (runFresh n ts d).map callView := by
  induction n with
  | zero => intro ts d x; rfl
  | succ k ih =>
    intro ts d x
    obtain ⟨e1, e2, e3, e4⟩ := getNextLoop_fresh (ts.length + 2) ts d x
    have hx : getNext ts d x = getNextLoop (ts.length + 2) ts d x := rfl
    rw [← hx] at e1 e2 e3 e4
    cases hgx : getNext ts d x with
    | mk ox rx =>
      obtain ⟨tx, dx, x1⟩ := rx
      cases hgy : getNextFresh (ts.length + 2) ts d with
      | mk oy ry =>
        obtain ⟨ty, dy, y1⟩ := ry
        rw [hgx, hgy] at e1 e2 e3 e4
        simp only at e1 e2 e3 e4
        subst e1
        subst e2
        subst e3
        simp only [runReuse, runFresh, hgx, hgy, List.map_cons]
        rw [ih tx dx x1]
        congr 1
        unfold callView
        by_cases ho : ox = Outcome.ret true
        · have := e4 ho
          subst this
          rfl
        · simp only [ho, ite_false]

/-- C18: the result of `getNext` does not depend on what the caller's
`Defect` object held before the call. For any two initial objects the call
ends the same way, leaves the same tokens unread and the same parser state,
and when it returns true the two objects are equal in every field (class,
annotation, events and key-event index). The same holds along any sequence
of calls, whatever objects are passed in. Nothing of a failed attempt or of
an earlier defect gets into a returned defect: every single attempt
(`parseNext`), from any state and with any leftover in the object, ends as it
does on an empty object and returns the same defect; `getNext` gives the
result it would give if each attempt of its retry loop started from an empty
object; the defect it returns is the one a single attempt builds from an
empty object on the rest of the stream; and a caller reusing one object for
all calls gets what a run that carries nothing over gives. -/
theorem getNext_defect_independent (ts : List Tok) (d : Private) (x y : Defect) :
    (getNext ts d x).1 = (getNext ts d y).1 ∧
    (getNext ts d x).2.1 = (getNext ts d y).2.1 ∧
    (getNext ts d x).2.2.1 = (getNext ts d y).2.2.1 ∧
    ((getNext ts d x).1 = Outcome.ret true →
      (getNext ts d x).2.2.2 = (getNext ts d y).2.2.2) ∧
    (∀ dfcs dfcs1 : List Defect, dfcs.length = dfcs1.length →
      (runCalls dfcs ts d).map callView = (runCalls dfcs1 ts d).map callView) ∧
    (∀ (ts0 : List Tok) (d0 : Private) (x0 : Defect),
      (parseNext ts0 d0 x0).1 = (parseNext ts0 d0 Defect.empty).1 ∧
      (parseNext ts0 d0 x0).2.1 = (parseNext ts0 d0 Defect.empty).2.1 ∧
      (parseNext ts0 d0 x0).2.2.1 = (parseNext ts0 d0 Defect.empty).2.2.1 ∧
      ((parseNext ts0 d0 x0).1 = Outcome.ret true →
        (parseNext ts0 d0 x0).2.2.2 = (parseNext ts0 d0 Defect.empty).2.2.2)) ∧
    ((getNext ts d x).1 = (getNextFresh (ts.length + 2) ts d).1 ∧
      (getNext ts d x).2.1 = (getNextFresh (ts.length + 2) ts d).2.1 ∧
      (getNext ts d x).2.2.1 = (getNextFresh (ts.length + 2) ts d).2.2.1 ∧
      ((getNext ts d x).1 = Outcome.ret true →
        (getNext ts d x).2.2.2 = (getNextFresh (ts.length + 2) ts d).2.2.2)) ∧
    ((getNext ts d x).1 = Outcome.ret true →
      ∃ (pre ts0 : List Tok) (d0 : Private), ts = pre ++ ts0 ∧
        parseNext ts0 d0 Defect.empty = getNext ts d x) ∧
    (∀ n : Nat, (runReuse n ts d x).map callView = (runFresh n ts d).map callView) := by
  obtain ⟨e1, e2, e3, e4⟩ := getNextLoop_indep (ts.length + 2) ts d x y
  obtain ⟨f1, f2, f3, f4⟩ := getNextLoop_fresh (ts.length + 2) ts d x
  refine ⟨e1, e2, e3, e4, fun dfcs dfcs1 h => runCalls_indep dfcs dfcs1 ts d h,
    fun ts0 d0 x0 => parseNext_indep ts0 d0 x0 Defect.empty, ⟨f1, f2, f3, f4⟩, ?_,
    fun n => runReuse_fresh n ts d x⟩
  intro h
  have h1 : (getNextLoop (ts.length + 2) ts d x).1 = Outcome.ret true := h
  obtain ⟨pre, ts0, d0, g1, g2⟩ := getNextFresh_last (ts.length + 2) ts d (by rw [← f1]; exact h1)
  refine ⟨pre, ts0, d0, g1, ?_⟩
  rw [g2]
  exact (Prod.ext f1 (Prod.ext f2 (Prod.ext f3 (f4 h1)))).symm

theorem getNext_defect_independent_witness :
    (getNext [Tok.clean T_INIT "Error:".toList, Tok.clean T_DEFECT "A:".toList,
        Tok.clean T_FILE "f.c".toList, Tok.clean T_LINE ":5:".toList,
        Tok.clean T_MSG "m".toList] Private.init
        ⟨"OLD".toList, " (stale)".toList,
          [⟨"old.c".toList, 9, 9, "tag".toList, "left over".toList⟩], 7⟩).1
      = Outcome.ret true ∧
    (getNext [Tok.clean T_INIT "Error:".toList, Tok.clean T_DEFECT "A:".toList,
        Tok.clean T_FILE "f.c".toList, Tok.clean T_LINE ":5:".toList,
        Tok.clean T_MSG "m".toList] Private.init
        ⟨"OLD".toList, " (stale)".toList,
          [⟨"old.c".toList, 9, 9, "tag".toList, "left over".toList⟩], 7⟩).2.2.2
      = (getNext [Tok.clean T_INIT "Error:".toList, Tok.clean T_DEFECT "A:".toList,
        Tok.clean T_FILE "f.c".toList, Tok.clean T_LINE ":5:".toList,
        Tok.clean T_MSG "m".toList] Private.init Defect.empty).2.2.2 ∧
    (parseNext leakStream Private.init Defect.empty).1 = Outcome.ret false ∧
    (parseNext leakStream Private.init Defect.empty).2.2.2.events.map DefEvent.msg =
      ["lost".toList] ∧
    (getNext leakStream Private.init
        ⟨"OLD".toList, " (stale)".toList,
          [⟨"old.c".toList, 9, 9, "tag".toList, "left over".toList⟩], 7⟩).1
      = Outcome.ret true ∧
    (getNext leakStream Private.init
        ⟨"OLD".toList, " (stale)".toList,
          [⟨"old.c".toList, 9, 9, "tag".toList, "left over".toList⟩], 7⟩).2.2.2
      = ⟨"B".toList, [], [⟨"b.c".toList, 2, 0, [], "kept".toList⟩], 0⟩ :=
  ⟨by decide, (getNext_defect_independent _ Private.init _ Defect.empty).2.2.2.1 (by decide),
    by decide, by decide, by decide,
    ((getNext_defect_independent leakStream Private.init
        ⟨"OLD".toList, " (stale)".toList,
          [⟨"old.c".toList, 9, 9, "tag".toList, "left over".toList⟩], 7⟩
        Defect.empty).2.2.2.2.2.2.1.2.2.2 (by decide)).trans (by decide)⟩


/-! ## Reading a block with skipped tokens -/

theorem junk_tail {X : EToken} {t : Tok} {j : List Tok} (h : Junk X (t :: j)) : Junk X j :=
  fun x hx => h x (List.mem_cons_of_mem _ hx)

theorem readNext_text (d : Private) (t : Tok) (ts : List Tok) :
    (d.readNext (t :: ts)).2.lexer.yytext = t.text := rfl

theorem seek_found (X : EToken) (j : List Tok) (u : Tok) (rest : List Tok) (d : Private)
    (hj : Junk X j) (hu : u.code = X) (h1 : X ≠ d.code) (h3 : X ≠ T_NULL) :
    ∃ d0 : Private, seekForToken X (j ++ u :: rest) d = (true, rest, (d0.readNext (u :: rest)).2) := by
  induction j generalizing d with
  | nil => exact ⟨d, seekForToken_next X u rest d h1 hu h3⟩
  | cons t j ih =>
    obtain ⟨a, b, c⟩ := hj t (List.mem_cons_self _ _)
    show ∃ d0 : Private, seekForToken X (t :: (j ++ u :: rest)) d = _
    rw [seekForToken_skip X t _ d h1 a b c]
    exact ih _ (junk_tail hj) (by show X ≠ t.code; exact fun e => a e.symm)

theorem seek_stop (X : EToken) (j : List Tok) (rest : List Tok) (d : Private)
    (hj : Junk X j) (hs : Stops rest) (h1 : X ≠ d.code) (h2 : X ≠ T_INIT) :
    ∃ ts1 d1, seekForToken X (j ++ rest) d = (false, ts1, d1) := by
  induction j generalizing d with
  | nil => exact seekForToken_stops X rest d h1 h2 hs
  | cons t j ih =>
    obtain ⟨a, b, c⟩ := hj t (List.mem_cons_self _ _)
    show ∃ ts1 d1, seekForToken X (t :: (j ++ rest)) d = _
    rw [seekForToken_skip X t _ d h1 a b c]
    exact ih _ (junk_tail hj) (by show X ≠ t.code; exact fun e => a e.symm)

theorem parseMsgExtra_lax (exts rest : List Tok) (d : Private) (evt : DefEvent)
    (hx : ∀ t ∈ exts, t.code = T_MSG_EX) (hr : LookOk rest) :
    ∃ d0 : Private, parseMsgExtra (exts ++ rest) d evt =
      (true, rest.tail, (d0.readNext rest).2,
        { evt with msg := mergeExtra evt.msg (exts.map Tok.text) }) := by
  induction exts generalizing d evt with
  | nil =>
    refine ⟨d, ?_⟩
    cases rest with
    | nil => rfl
    | cons t rest =>
      show parseMsgExtra (t :: rest) d evt = _
      rw [parseMsgExtra]
      simp only [readNext_code]
      rcases hr with h | h | h <;> rw [h] <;> rfl
  | cons x exts ih =>
    show ∃ d0 : Private, parseMsgExtra (x :: (exts ++ rest)) d evt = _
    rw [parseMsgExtra]
    have hc : (d.readNext (x :: (exts ++ rest))).2.code = T_MSG_EX := by
      rw [readNext_code]
      exact hx x (List.mem_cons_self _ _)
    simp only [hc]
    obtain ⟨d0, h⟩ := ih (d.readNext (x :: (exts ++ rest))).2
      { evt with msg := evt.msg ++ '\n' :: (d.readNext (x :: (exts ++ rest))).2.lexer.yytext }
      (fun t ht => hx t (List.mem_cons_of_mem _ ht))
    refine ⟨d0, ?_⟩
    rw [h, List.map_cons, mergeExtra_cons]
    rfl

theorem parseMsgExtra_lax_bad (exts : List Tok) (u : Tok) (rest : List Tok) (d : Private)
    (evt : DefEvent) (hx : ∀ t ∈ exts, t.code = T_MSG_EX)
    (hu : u.code = T_DEFECT ∨ u.code = T_LINE ∨ u.code = T_MSG) :
    ∃ (d1 : Private) (evt1 : DefEvent), parseMsgExtra (exts ++ u :: rest) d evt = (false, rest, d1, evt1) ∧
      d1.hasError = true ∧ d1.code = u.code := by
  induction exts generalizing d evt with
  | nil =>
    show ∃ (d1 : Private) (evt1 : DefEvent), parseMsgExtra (u :: rest) d evt = _ ∧ _
    rw [parseMsgExtra]
    simp only [readNext_code]
    rcases hu with h | h | h <;> rw [h] <;>
      exact ⟨(d.readNext (u :: rest)).2.wrongToken, _, rfl, rfl, (readNext_code d u rest).trans h⟩
  | cons x exts ih =>
    show ∃ (d1 : Private) (evt1 : DefEvent), parseMsgExtra (x :: (exts ++ u :: rest)) d evt = _ ∧ _
    rw [parseMsgExtra]
    have hc : (d.readNext (x :: (exts ++ u :: rest))).2.code = T_MSG_EX := by
      rw [readNext_code]
      exact hx x (List.mem_cons_self _ _)
    simp only [hc]
    exact ih _ _ (fun t ht => hx t (List.mem_cons_of_mem _ ht))

theorem parseLine_at (d0 : Private) (t : Tok) (ts : List Tok) (evt : DefEvent)
    (h : (parseLine (Private.atToken T_LINE t.text) DefEvent.empty).1 = Outcome.ret true) :
    parseLine (d0.readNext (t :: ts)).2 evt =
      (Outcome.ret true, (parseLine (Private.atToken T_LINE t.text) evt).2) := by
  rw [parseLine_text _ T_LINE, readNext_text]
  exact Prod.ext ((parseLine_fst _ evt DefEvent.empty).trans h) rfl

/-- The event loop reads one event, tokens skipped in between included. -/
theorem parseMsg_lax (e : LaxEvent) (rest : List Tok) (d : Private)
    (hc : d.code = T_FILE) (hy : d.lexer.yytext = e.file.text) (hv : e.Valid)
    (hr : LookOk rest) :
    ∃ d0 : Private, parseMsg (e.afterFile ++ rest) d DefEvent.empty =
      (Outcome.ret true, rest.tail, (d0.readNext rest).2, e.block.decode) := by
  obtain ⟨_, hjl, hl, hpl, hjm, hm, hex⟩ := hv
  have e0 : e.afterFile ++ rest = e.jl ++ e.line :: (e.jm ++ e.msg :: (e.extra ++ rest)) := by
    simp [LaxEvent.afterFile]
  obtain ⟨d1, h1⟩ := seek_found T_LINE e.jl e.line (e.jm ++ e.msg :: (e.extra ++ rest)) d
    hjl hl (by rw [hc]; decide) (by decide)
  obtain ⟨d2, h2⟩ := seek_found T_MSG e.jm e.msg (e.extra ++ rest)
    (d1.readNext (e.line :: (e.jm ++ e.msg :: (e.extra ++ rest)))).2
    hjm hm (by rw [readNext_code, hl]; decide) (by decide)
  obtain ⟨d3, h3⟩ := parseMsgExtra_lax e.extra rest (d2.readNext (e.msg :: (e.extra ++ rest))).2
    (parseMsgText e.msg.text (parseLine (Private.atToken T_LINE e.line.text)
      { DefEvent.empty with fileName := e.file.text }).2) hex hr
  refine ⟨d3, ?_⟩
  unfold parseMsg
  rw [seekForToken_here T_FILE _ _ hc.symm, e0]
  simp only [h1, hy]
  rw [parseLine_at d1 e.line _ _ hpl]
  simp only [h2, readNext_text, h3]
  rfl

theorem parseMsg_resume_found (j : List Tok) (u : Tok) (ts : List Tok) (d : Private)
    (evt : DefEvent) (hj : Junk T_FILE j) (hu : u.code = T_FILE) (hc : d.code ≠ T_FILE) :
    ∃ d0 : Private, parseMsg (j ++ u :: ts) d evt = parseMsg ts (d0.readNext (u :: ts)).2 evt := by
  obtain ⟨d0, h⟩ := seek_found T_FILE j u ts d hj hu (fun e => hc e.symm) (by decide)
  exact ⟨d0, parseMsg_resume _ _ _ _ evt h ((readNext_code d0 u ts).trans hu)⟩

/-- The attempt waits for the position and a separator or the end of the
stream arrives, after skipped tokens or not. -/
theorem parseMsg_lax_stop_line (j rest : List Tok) (d : Private) (evt : DefEvent)
    (hc : d.code = T_FILE) (hj : Junk T_LINE j) (hs : Stops rest) :
    ∃ ts1 d1 evt1, parseMsg (j ++ rest) d evt = (Outcome.ret false, ts1, d1, evt1) ∧
      d1.hasError = true := by
  obtain ⟨ts1, d1, h1⟩ := seek_stop T_LINE j rest d hj hs (by rw [hc]; decide) (by decide)
  unfold parseMsg
  rw [seekForToken_here T_FILE _ _ hc.symm]
  simp only [h1]
  exact ⟨_, _, _, rfl, rfl⟩

/-- The attempt waits for the message and a separator or the end of the
stream arrives. -/
theorem parseMsg_lax_stop_msg (jl : List Tok) (line : Tok) (j rest : List Tok) (d : Private)
    (evt : DefEvent) (hc : d.code = T_FILE) (hjl : Junk T_LINE jl) (hl : line.code = T_LINE)
    (hpl : (parseLine (Private.atToken T_LINE line.text) DefEvent.empty).1 = Outcome.ret true)
    (hj : Junk T_MSG j) (hs : Stops rest) :
    ∃ ts1 d1 evt1, parseMsg (jl ++ line :: (j ++ rest)) d evt =
        (Outcome.ret false, ts1, d1, evt1) ∧ d1.hasError = true := by
  obtain ⟨d1, h1⟩ := seek_found T_LINE jl line (j ++ rest) d hjl hl (by rw [hc]; decide)
    (by decide)
  obtain ⟨ts2, d2, h2⟩ := seek_stop T_MSG j rest (d1.readNext (line :: (j ++ rest))).2 hj hs
    (by rw [readNext_code, hl]; decide) (by decide)
  unfold parseMsg
  rw [seekForToken_here T_FILE _ _ hc.symm]
  simp only [h1]
  rw [parseLine_at d1 line _ _ hpl]
  simp only [h2]
  exact ⟨_, _, _, rfl, rfl⟩

/-- A defect-class, position or message token arrives right after an event. -/
theorem parseMsg_lax_bad_after (e : LaxEvent) (u : Tok) (rest : List Tok) (d : Private)
    (hc : d.code = T_FILE) (hv : e.Valid)
    (hu : u.code = T_DEFECT ∨ u.code = T_LINE ∨ u.code = T_MSG) :
    ∃ ts1 d1 evt1, parseMsg (e.afterFile ++ u :: rest) d DefEvent.empty =
        (Outcome.ret false, ts1, d1, evt1) ∧ d1.hasError = true := by
  obtain ⟨_, hjl, hl, hpl, hjm, hm, hex⟩ := hv
  have e0 : e.afterFile ++ u :: rest =
      e.jl ++ e.line :: (e.jm ++ e.msg :: (e.extra ++ u :: rest)) := by
    simp [LaxEvent.afterFile]
  obtain ⟨d1, h1⟩ := seek_found T_LINE e.jl e.line (e.jm ++ e.msg :: (e.extra ++ u :: rest)) d
    hjl hl (by rw [hc]; decide) (by decide)
  obtain ⟨d2, h2⟩ := seek_found T_MSG e.jm e.msg (e.extra ++ u :: rest)
    (d1.readNext (e.line :: (e.jm ++ e.msg :: (e.extra ++ u :: rest)))).2
    hjm hm (by rw [readNext_code, hl]; decide) (by decide)
  obtain ⟨d3, evt3, h3, hf, _⟩ := parseMsgExtra_lax_bad e.extra u rest
    (d2.readNext (e.msg :: (e.extra ++ u :: rest))).2
    (parseMsgText e.msg.text (parseLine (Private.atToken T_LINE e.line.text)
      { DefEvent.empty with fileName := d.lexer.yytext }).2) hex hu
  unfold parseMsg
  rw [seekForToken_here T_FILE _ _ hc.symm, e0]
  simp only [h1]
  rw [parseLine_at d1 e.line _ _ hpl]
  simp only [h2, readNext_text, h3]
  exact ⟨_, _, _, rfl, hf⟩

/-- The attempt waits for the first file reference and a separator or the
end of the stream arrives. -/
theorem parseMsg_lax_stop_file (j rest : List Tok) (d : Private) (evt : DefEvent)
    (hc : d.code ≠ T_FILE) (hj : Junk T_FILE j) (hs : Stops rest) :
    ∃ ts1 d1 evt1, parseMsg (j ++ rest) d evt = (Outcome.ret false, ts1, d1, evt1) ∧
      d1.hasError = true := by
  obtain ⟨ts1, d1, h1⟩ := seek_stop T_FILE j rest d hj hs (fun e => hc e.symm) (by decide)
  unfold parseMsg
  simp only [h1]
  exact ⟨_, _, _, rfl, rfl⟩


theorem laxTokens_length (es : List LaxEvent) : es.length ≤ (laxTokens es).length := by
  induction es with
  | nil => simp [laxTokens]
  | cons e es ih =>
    simp only [laxTokens, LaxEvent.tokens, LaxEvent.afterFile, List.length_append,
      List.length_cons]
    omega

theorem lookOk_of_stops (rest : List Tok) (h : Stops rest) : LookOk rest := by
  cases rest with
  | nil => trivial
  | cons t rest =>
    rcases h with h | h
    · exact Or.inl h
    · exact Or.inr (Or.inl h)

theorem readNext_stops (d : Private) (rest : List Tok) (h : Stops rest) :
    ¬ ((d.readNext rest).2.code ≠ T_NULL ∧ (d.readNext rest).2.code ≠ T_INIT) := by
  cases rest with
  | nil => simp [readNext_nil_code]
  | cons t rest =>
    rcases h with h | h <;> simp [readNext_code, h]

theorem laxTokens_cons_file (e : LaxEvent) (es : List LaxEvent) (rest : List Tok)
    (h : e.jf = []) :
    laxTokens (e :: es) ++ rest = e.file :: (e.afterFile ++ (laxTokens es ++ rest)) := by
  simp [laxTokens, LaxEvent.tokens, h]

theorem parseBody_lax_step (e : LaxEvent) (rest : List Tok) (d : Private) (dfc : Defect)
    (m : Nat) (hc : d.code = T_FILE) (hy : d.lexer.yytext = e.file.text) (hv : e.Valid)
    (hr : LookOk rest) :
    ∃ d0 : Private, parseBody (m + 1) (e.afterFile ++ rest) d dfc =
      parseBody m rest.tail (d0.readNext rest).2
        { dfc with events := dfc.events ++ [e.block.decode] } := by
  obtain ⟨d0, h⟩ := parseMsg_lax e rest d hc hy hv hr
  refine ⟨d0, ?_⟩
  rw [parseBody, if_pos (by rw [hc]; decide), h]

/-- The body loop over complete events, skipped tokens included. -/
theorem parseBody_lax_events (es : List LaxEvent) :
    ∀ (e : LaxEvent) (rest : List Tok) (d : Private) (dfc : Defect) (n : Nat),
      d.code = T_FILE → d.lexer.yytext = e.file.text → e.Valid →
      (∀ x ∈ es, x.jf = [] ∧ x.Valid) → LookOk rest → es.length + 1 ≤ n →
      ∃ d0 : Private, parseBody n (e.afterFile ++ (laxTokens es ++ rest)) d dfc =
        parseBody (n - (es.length + 1)) rest.tail (d0.readNext rest).2
          { dfc with events :=
              dfc.events ++ ((e :: es).map LaxEvent.block).map EventBlock.decode } := by
  induction es with
  | nil =>
    intro e rest d dfc n hc hy hv _ hr hn
    obtain ⟨m, rfl⟩ : ∃ m, n = m + 1 := ⟨n - 1, by simp at hn; omega⟩
    obtain ⟨d0, h⟩ := parseBody_lax_step e rest d dfc m hc hy hv hr
    refine ⟨d0, ?_⟩
    simp only [laxTokens, List.nil_append]
    rw [h]
    simp
  | cons e1 es ih =>
    intro e rest d dfc n hc hy hv hes hr hn
    obtain ⟨m, rfl⟩ : ∃ m, n = m + 1 := ⟨n - 1, by simp at hn; omega⟩
    obtain ⟨h1a, h1b⟩ := hes e1 (List.mem_cons_self _ _)
    have e0 := laxTokens_cons_file e1 es rest h1a
    obtain ⟨d0, h⟩ := parseBody_lax_step e (laxTokens (e1 :: es) ++ rest) d dfc m hc hy hv
      (by rw [e0]; exact Or.inr (Or.inr h1b.1))
    rw [h, e0]
    simp only [List.tail_cons]
    obtain ⟨d1, h2⟩ := ih e1 rest
      (d0.readNext (e1.file :: (e1.afterFile ++ (laxTokens es ++ rest)))).2
      { dfc with events := dfc.events ++ [e.block.decode] } m
      ((readNext_code _ _ _).trans h1b.1) (readNext_text _ _ _) h1b
      (fun x hx => hes x (List.mem_cons_of_mem _ hx)) hr (by simp at hn ⊢; omega)
    refine ⟨d1, ?_⟩
    rw [h2]
    have e4 : m + 1 - ((e1 :: es).length + 1) = m - (es.length + 1) := by simp
    rw [e4]
    simp

theorem parseBody_resume_found (j : List Tok) (u : Tok) (ts : List Tok) (d : Private)
    (dfc : Defect) (m : Nat) (hj : Junk T_FILE j) (hu : u.code = T_FILE)
    (hc : d.code = T_DEFECT) :
    ∃ d0 : Private, parseBody (m + 1) (j ++ u :: ts) d dfc =
      parseBody (m + 1) ts (d0.readNext (u :: ts)).2 dfc := by
  obtain ⟨d0, h⟩ := parseMsg_resume_found j u ts d DefEvent.empty hj hu (by rw [hc]; decide)
  refine ⟨d0, ?_⟩
  rw [parseBody, parseBody, if_pos (by rw [hc]; decide),
    if_pos (by rw [readNext_code, hu]; decide), h]

/-- The body loop on the events of a block that one attempt reads. -/
theorem parseBody_lax (es : List LaxEvent) (rest : List Tok) (d : Private) (dfc : Defect)
    (n : Nat) (hes : LaxEvents es) (hne : es ≠ []) (hs : Stops rest) (hd : d.code = T_DEFECT)
    (hn : (laxTokens es ++ rest).length < n) :
    ∃ d0 : Private, parseBody n (laxTokens es ++ rest) d dfc =
      (Outcome.ret true, rest.tail, (d0.readNext rest).2,
        { dfc with events := dfc.events ++ (es.map LaxEvent.block).map EventBlock.decode }) := by
  cases es with
  | nil => exact absurd rfl hne
  | cons e es =>
    obtain ⟨hjf, hv, hrest⟩ := hes
    obtain ⟨m, rfl⟩ : ∃ m, n = m + 1 := ⟨n - 1, by omega⟩
    have e0 : laxTokens (e :: es) ++ rest =
        e.jf ++ e.file :: (e.afterFile ++ (laxTokens es ++ rest)) := by
      simp [laxTokens, LaxEvent.tokens]
    have hlen := laxTokens_length es
    rw [e0] at hn ⊢
    obtain ⟨d0, h0⟩ := parseBody_resume_found e.jf e.file
      (e.afterFile ++ (laxTokens es ++ rest)) d dfc m hjf hv.1 hd
    obtain ⟨d1, h1⟩ := parseBody_lax_events es e rest
      (d0.readNext (e.file :: (e.afterFile ++ (laxTokens es ++ rest)))).2 dfc (m + 1)
      ((readNext_code _ _ _).trans hv.1) (readNext_text _ _ _) hv hrest (lookOk_of_stops rest hs)
      (by simp only [List.length_append, List.length_cons] at hn; omega)
    refine ⟨d1, ?_⟩
    rw [h0, h1]
    obtain ⟨k, hk⟩ : ∃ k, m + 1 - (es.length + 1) = k + 1 :=
      ⟨m + 1 - (es.length + 1) - 1, by
        simp only [List.length_append, List.length_cons, LaxEvent.afterFile] at hn; omega⟩
    rw [hk, parseBody, if_neg (readNext_stops d1 rest hs)]

theorem parseNext_lax_class (jd : List Tok) (cls : Tok) (ts : List Tok) (d : Private)
    (dfc : Defect) (hc : d.code = T_INIT) (hjd : Junk T_DEFECT jd) (hcl : cls.code = T_DEFECT)
    (hcls : (parseClass (Private.atToken T_DEFECT cls.text) Defect.empty).1 = true) :
    ∃ d2 : Private, d2.code = T_DEFECT ∧ parseNext (jd ++ cls :: ts) d dfc =
      (match parseBody (ts.length + 1) ts d2
          { dfc with
            defClass := (parseClass (Private.atToken T_DEFECT cls.text) Defect.empty).2.defClass,
            annotation :=
              Defect.annotation (parseClass (Private.atToken T_DEFECT cls.text) Defect.empty).2,
            events := [] } with
        | (Outcome.ret true, ts3, d3, dfc3) =>
          match guessKeyEvent dfc3 with
          | (true, dfc4) => (Outcome.ret true, ts3, d3, dfc4)
          | (false, dfc4) => (Outcome.ret false, ts3, d3.wrongToken, dfc4)
        | r => r) := by
  obtain ⟨d0, h⟩ := seek_found T_DEFECT jd cls ts d hjd hcl (by rw [hc]; decide) (by decide)
  refine ⟨(d0.readNext (cls :: ts)).2, (readNext_code _ _ _).trans hcl, ?_⟩
  unfold parseNext
  rw [seekForToken_here T_INIT _ _ hc.symm]
  simp only [h]
  rw [parseClass_text _ T_DEFECT, readNext_text,
    parseClass_indep (Private.atToken T_DEFECT cls.text) dfc Defect.empty hcls]

/-- One attempt on a block it reads as a defect returns that defect. -/
theorem parseNext_lax (b : LaxBlock) (rest : List Tok) (d : Private) (dfc : Defect)
    (hc : d.code = T_INIT) (hv : b.Valid) (hs : Stops rest) :
    ∃ d0 : Private, parseNext (b.body ++ rest) d dfc =
      (Outcome.ret true, rest.tail, (d0.readNext rest).2, b.decode) := by
  obtain ⟨hjd, hcl, hcls, hne, hes⟩ := hv
  have e0 : b.body ++ rest = b.jd ++ b.cls :: (laxTokens b.events ++ rest) := by
    simp [LaxBlock.body]
  obtain ⟨d2, hd2, h2⟩ := parseNext_lax_class b.jd b.cls (laxTokens b.events ++ rest) d dfc
    hc hjd hcl hcls
  obtain ⟨d3, h3⟩ := parseBody_lax b.events rest d2 _ ((laxTokens b.events ++ rest).length + 1)
    hes hne hs hd2 (Nat.lt_succ_self _)
  refine ⟨d3, ?_⟩
  rw [e0, h2, h3]
  simp only [List.nil_append]
  have hev : (b.events.map LaxEvent.block).map EventBlock.decode ≠ [] := by
    simpa using hne
  rw [guessKeyEvent_eq _ hev]
  simp only [LaxBlock.decode, DefectBlock.decode]
  rw [guessKeyEvent_eq _ hev]

/-- An attempt whose body loop fails, fails. -/
theorem parseNext_lax_body_fail (jd : List Tok) (cls : Tok) (ts : List Tok) (d : Private)
    (dfc : Defect) (hc : d.code = T_INIT) (hjd : Junk T_DEFECT jd) (hcl : cls.code = T_DEFECT)
    (hcls : (parseClass (Private.atToken T_DEFECT cls.text) Defect.empty).1 = true)
    (h : ∀ (d2 : Private) (dfc1 : Defect) (n : Nat), d2.code = T_DEFECT → ts.length < n →
      ∃ ts1 d1 dfc2, parseBody n ts d2 dfc1 = (Outcome.ret false, ts1, d1, dfc2) ∧
        d1.hasError = true) :
    AttemptFailed (parseNext (jd ++ cls :: ts) d dfc) := by
  obtain ⟨d2, hd2, h2⟩ := parseNext_lax_class jd cls ts d dfc hc hjd hcl hcls
  obtain ⟨ts1, d1, dfc2, h3, h4⟩ := h d2 _ (ts.length + 1) hd2 (Nat.lt_succ_self _)
  unfold AttemptFailed
  rw [h2, h3]
  exact ⟨rfl, h4⟩

/-- The body loop fails when, after complete events, the event that begins
at the next file reference fails. -/
theorem parseBody_lax_fail (es : List LaxEvent) (jf : List Tok) (la : Tok) (ts : List Tok)
    (hes : LaxEvents es) (hjf : Junk T_FILE jf) (hjf2 : es ≠ [] → jf = [])
    (hla : la.code = T_FILE)
    (h : ∀ d0 : Private, d0.code = T_FILE → ∃ ts1 d1 evt1,
      parseMsg ts d0 DefEvent.empty = (Outcome.ret false, ts1, d1, evt1) ∧ d1.hasError = true)
    (d2 : Private) (dfc1 : Defect) (n : Nat) (hd : d2.code = T_DEFECT)
    (hn : (laxTokens es ++ (jf ++ la :: ts)).length < n) :
    ∃ ts1 d1 dfc2, parseBody n (laxTokens es ++ (jf ++ la :: ts)) d2 dfc1 =
      (Outcome.ret false, ts1, d1, dfc2) ∧ d1.hasError = true := by
  obtain ⟨m, rfl⟩ : ∃ m, n = m + 1 := ⟨n - 1, by omega⟩
  cases es with
  | nil =>
    simp only [laxTokens, List.nil_append]
    obtain ⟨d0, h0⟩ := parseBody_resume_found jf la ts d2 dfc1 m hjf hla hd
    obtain ⟨ts1, d1, evt1, h1, h2⟩ := h (d0.readNext (la :: ts)).2 ((readNext_code _ _ _).trans hla)
    rw [h0, parseBody_fail m ts ts1 _ d1 _ evt1 (by rw [readNext_code, hla]; decide) h1]
    exact ⟨_, _, _, rfl, h2⟩
  | cons e es =>
    obtain ⟨hjf1, hv, hrest⟩ := hes
    have hj0 : jf = [] := hjf2 (by simp)
    subst hj0
    have e0 : laxTokens (e :: es) ++ ([] ++ la :: ts) =
        e.jf ++ e.file :: (e.afterFile ++ (laxTokens es ++ la :: ts)) := by
      simp [laxTokens, LaxEvent.tokens]
    have hlen := laxTokens_length es
    rw [e0] at hn ⊢
    obtain ⟨d0, h0⟩ := parseBody_resume_found e.jf e.file
      (e.afterFile ++ (laxTokens es ++ la :: ts)) d2 dfc1 m hjf1 hv.1 hd
    obtain ⟨d1, h1⟩ := parseBody_lax_events es e (la :: ts)
      (d0.readNext (e.file :: (e.afterFile ++ (laxTokens es ++ la :: ts)))).2 dfc1 (m + 1)
      ((readNext_code _ _ _).trans hv.1) (readNext_text _ _ _) hv hrest
      (Or.inr (Or.inr hla))
      (by simp only [List.length_append, List.length_cons] at hn; omega)
    obtain ⟨k, hk⟩ : ∃ k, m + 1 - (es.length + 1) = k + 1 :=
      ⟨m + 1 - (es.length + 1) - 1, by
        simp only [List.length_append, List.length_cons, LaxEvent.afterFile] at hn; omega⟩
    obtain ⟨ts1, d3, evt1, h3, h4⟩ := h (d1.readNext (la :: ts)).2
      ((readNext_code _ _ _).trans hla)
    rw [h0, h1, hk]
    simp only [List.tail_cons]
    rw [parseBody_fail k ts ts1 _ d3 _ evt1 (by rw [readNext_code, hla]; decide) h3]
    exact ⟨_, _, _, rfl, h4⟩

theorem parseBody_lax_fail_file (j rest : List Tok) (hj : Junk T_FILE j) (hs : Stops rest)
    (d2 : Private) (dfc1 : Defect) (n : Nat) (hd : d2.code = T_DEFECT)
    (hn : (j ++ rest).length < n) :
    ∃ ts1 d1 dfc2, parseBody n (j ++ rest) d2 dfc1 = (Outcome.ret false, ts1, d1, dfc2) ∧
      d1.hasError = true := by
  obtain ⟨m, rfl⟩ : ∃ m, n = m + 1 := ⟨n - 1, by omega⟩
  obtain ⟨ts1, d1, evt1, h1, h2⟩ := parseMsg_lax_stop_file j rest d2 DefEvent.empty
    (by rw [hd]; decide) hj hs
  rw [parseBody_fail m _ ts1 _ d1 _ evt1 (by rw [hd]; decide) h1]
  exact ⟨_, _, _, rfl, h2⟩

theorem parseNext_lax_stop_class (j rest : List Tok) (d : Private) (dfc : Defect)
    (hc : d.code = T_INIT) (hj : Junk T_DEFECT j) (hs : Stops rest) :
    AttemptFailed (parseNext (j ++ rest) d dfc) := by
  obtain ⟨ts1, d1, h1⟩ := seek_stop T_DEFECT j rest d hj hs (by rw [hc]; decide) (by decide)
  unfold AttemptFailed parseNext
  rw [seekForToken_here T_INIT _ _ hc.symm]
  simp only [h1]
  exact ⟨trivial, rfl⟩


/-! ## What a successful attempt has read -/

theorem seek_inv (X : EToken) (hX : X ≠ T_INIT) (ts : List Tok) :
    ∀ (d : Private) (ts1 : List Tok) (d1 : Private), X ≠ d.code →
      seekForToken X ts d = (true, ts1, d1) →
      ∃ (j : List Tok) (u : Tok) (d0 : Private), ts = j ++ u :: ts1 ∧ Junk X j ∧ u.code = X ∧
        d1 = (d0.readNext (u :: ts1)).2 := by
  induction ts with
  | nil =>
    intro d ts1 d1 h1 h
    rw [seekForToken, if_neg h1, seekLoop] at h
    cases h
  | cons t ts ih =>
    intro d ts1 d1 h1 h
    by_cases hn : t.code = T_NULL
    · obtain ⟨a, b, hs⟩ := seekForToken_stops X (t :: ts) d h1 hX (Or.inl hn)
      rw [hs] at h
      cases h
    · by_cases ht : t.code = X
      · rw [seekForToken_next X t ts d h1 ht (by rw [← ht]; exact hn)] at h
        obtain ⟨rfl, rfl⟩ : ts = ts1 ∧ (d.readNext (t :: ts)).2 = d1 := by
          have := (Prod.mk.inj h).2
          exact ⟨(Prod.mk.inj this).1, (Prod.mk.inj this).2⟩
        exact ⟨[], t, d, rfl, fun x hx => (by cases hx), ht, rfl⟩
      · by_cases hi : t.code = T_INIT
        · obtain ⟨a, b, hs⟩ := seekForToken_stops X (t :: ts) d h1 hX (Or.inr hi)
          rw [hs] at h
          cases h
        · rw [seekForToken_skip X t ts d h1 ht hn hi] at h
          obtain ⟨j, u, d0, e1, e2, e3, e4⟩ := ih _ ts1 d1
            (by show X ≠ t.code; exact fun e => ht e.symm) h
          refine ⟨t :: j, u, d0, by rw [e1]; rfl, ?_, e3, e4⟩
          intro x hx
          rcases List.mem_cons.mp hx with hx | hx
          · rw [hx]
            exact ⟨ht, hn, hi⟩
          · exact e2 x hx

theorem parseMsgExtra_inv (ts : List Tok) :
    ∀ (d : Private) (evt : DefEvent), (parseMsgExtra ts d evt).1 = true →
      ∃ (exts rest : List Tok), ts = exts ++ rest ∧ (∀ t ∈ exts, t.code = T_MSG_EX) ∧
        LookOk rest := by
  induction ts with
  | nil => intro d evt _; exact ⟨[], [], rfl, fun t ht => (by cases ht), trivial⟩
  | cons t ts ih =>
    intro d evt
    have hcode : (d.readNext (t :: ts)).2.code = t.code := readNext_code d t ts
    rw [parseMsgExtra]
    split
    · rename_i h
      rw [hcode] at h
      intro _
      exact ⟨[], t :: ts, rfl, fun x hx => (by cases hx), Or.inl h⟩
    · rename_i h
      rw [hcode] at h
      intro _
      exact ⟨[], t :: ts, rfl, fun x hx => (by cases hx), Or.inr (Or.inl h)⟩
    · rename_i h
      rw [hcode] at h
      intro _
      exact ⟨[], t :: ts, rfl, fun x hx => (by cases hx), Or.inr (Or.inr h)⟩
    · rename_i h
      rw [hcode] at h
      intro hres
      obtain ⟨exts, rest, e1, e2, e3⟩ := ih _ _ hres
      refine ⟨t :: exts, rest, by rw [e1]; rfl, ?_, e3⟩
      intro x hx
      rcases List.mem_cons.mp hx with hx | hx
      · rw [hx]
        exact h
      · exact e2 x hx
    · intro h
      cases h

/-- An event that was read, from a file reference `cur`: the tokens it was
read from. -/
theorem parseMsg_inv (ts : List Tok) (d : Private) (cur : Tok) (hc : d.code = T_FILE)
    (hcur : cur.code = T_FILE) (h : (parseMsg ts d DefEvent.empty).1 = Outcome.ret true) :
    ∃ (e : LaxEvent) (rest : List Tok), e.file = cur ∧ e.jf = [] ∧ e.Valid ∧ LookOk rest ∧
      ts = e.afterFile ++ rest := by
  have hhere := seekForToken_here T_FILE ts d hc.symm
  rcases parseMsg_cases ts d DefEvent.empty with ⟨ts1, d1, h1, hr⟩ |
    ⟨ts1, d1, ts2, d2, h1, h2, hr⟩ | ⟨ts1, d1, ts2, d2, o, evt2, h1, h2, hl, hr⟩
  · rw [hr] at h
    cases h
  · rw [hr] at h
    cases h
  · rw [hhere] at h1
    obtain ⟨rfl, rfl⟩ : ts = ts1 ∧ d = d1 := by
      have := (Prod.mk.inj h1).2
      exact ⟨(Prod.mk.inj this).1, (Prod.mk.inj this).2⟩
    rcases hr with ⟨_, hr⟩ | ⟨_, hr⟩ | ⟨_, ts3, d3, h3, hr⟩ |
      ⟨ho, ts3, d3, b, ts4, d4, evt4, h3, hx, hr⟩
    · rw [hr] at h
      cases h
    · rw [hr] at h
      cases h
    · rw [hr] at h
      cases h
    · rw [hr] at h
      have hb : b = true := by
        cases b with
        | true => rfl
        | false => cases h
      subst hb
      subst ho
      obtain ⟨jl, line, d0, e1, k1, k2, k3⟩ := seek_inv T_LINE (by decide) ts d ts2 d2
        (by rw [hc]; decide) h2
      have hc2 : d2.code = T_LINE := by rw [k3, readNext_code, k2]
      obtain ⟨jm, msg, d0m, e2, m1, m2, m3⟩ := seek_inv T_MSG (by decide) ts2 d2 ts3 d3
        (by rw [hc2]; decide) h3
      obtain ⟨exts, rest, e3, x1, x2⟩ := parseMsgExtra_inv ts3 d3 _ (by rw [hx])
      have hpl : (parseLine (Private.atToken T_LINE line.text) DefEvent.empty).1 =
          Outcome.ret true := by
        have hl1 : (parseLine d2 { DefEvent.empty with fileName := d.lexer.yytext }).1 =
            Outcome.ret true := by rw [hl]
        rw [parseLine_text _ T_LINE, parseLine_fst _ _ DefEvent.empty, k3, readNext_text] at hl1
        exact hl1
      refine ⟨⟨[], cur, jl, line, jm, msg, exts⟩, rest, rfl, rfl,
        ⟨hcur, k1, k2, hpl, m1, m2, x1⟩, x2, ?_⟩
      rw [e1, e2, e3]
      simp [LaxEvent.afterFile]

/-- The body loop that ended normally, from a file reference `cur`. -/
theorem parseBody_inv (n : Nat) :
    ∀ (ts : List Tok) (d : Private) (dfc : Defect) (cur : Tok), d.code = T_FILE →
      cur.code = T_FILE → cur.text = d.lexer.yytext → ts.length < n →
      (parseBody n ts d dfc).1 = Outcome.ret true →
      ∃ (e : LaxEvent) (es : List LaxEvent) (rest : List Tok), e.file = cur ∧ e.jf = [] ∧
        e.Valid ∧ (∀ x ∈ es, x.jf = [] ∧ x.Valid) ∧ Stops rest ∧
        ts = e.afterFile ++ (laxTokens es ++ rest) := by
  induction n with
  | zero => intro ts d dfc cur _ _ _ hlen; omega
  | succ k ih =>
    intro ts d dfc cur hc hcur hy hlen h
    have hpm : (parseMsg ts d DefEvent.empty).1 = Outcome.ret true := by
      revert h
      rw [parseBody, if_pos (by rw [hc]; decide)]
      split
      · rename_i h1
        intro _
        rw [h1]
      · rename_i o ts1 d1 evt hne h1
        intro h
        exact (hne h).elim
    obtain ⟨e, rest0, he1, he2, hv, hlook, hts⟩ := parseMsg_inv ts d cur hc hcur hpm
    obtain ⟨d0, hstep⟩ := parseBody_lax_step e rest0 d dfc k hc (by rw [he1]; exact hy.symm)
      hv hlook
    rw [hts, hstep] at h
    have hlen0 : rest0.length + 2 ≤ ts.length := by
      rw [hts]
      simp only [LaxEvent.afterFile, List.length_append, List.length_cons]
      omega
    by_cases hs : Stops rest0
    · exact ⟨e, [], rest0, he1, he2, hv, fun x hx => (by cases hx), hs, by
        rw [hts]; simp [laxTokens]⟩
    · cases rest0 with
      | nil => exact absurd trivial hs
      | cons t r =>
        have ht : t.code = T_FILE := by
          rcases hlook with h0 | h0 | h0
          · exact absurd (Or.inl h0) hs
          · exact absurd (Or.inr h0) hs
          · exact h0
        obtain ⟨e1, es1, rest, f1, f2, fv, fes, fs, fts⟩ := ih r (d0.readNext (t :: r)).2 _ t
          ((readNext_code _ _ _).trans ht) ht (readNext_text _ _ _).symm
          (by simp only [List.length_cons] at hlen0; omega) h
        refine ⟨e, e1 :: es1, rest, he1, he2, hv, ?_, fs, ?_⟩
        · intro x hx
          rcases List.mem_cons.mp hx with hx | hx
          · rw [hx]
            exact ⟨f2, fv⟩
          · exact fes x hx
        · rw [hts, laxTokens_cons_file e1 es1 rest f2, f1, fts]

/-- The body loop that ended normally, from the class line. -/
theorem parseBody_inv_first (n : Nat) (ts : List Tok) (d : Private) (dfc : Defect)
    (hd : d.code = T_DEFECT) (hlen : ts.length < n)
    (h : (parseBody n ts d dfc).1 = Outcome.ret true) :
    ∃ (es : List LaxEvent) (rest : List Tok), LaxEvents es ∧ es ≠ [] ∧ Stops rest ∧
      ts = laxTokens es ++ rest := by
  obtain ⟨k, rfl⟩ : ∃ k, n = k + 1 := ⟨n - 1, by omega⟩
  cases h1 : seekForToken T_FILE ts d with
  | mk b1 r1 =>
    obtain ⟨ts1, d1⟩ := r1
    cases b1 with
    | false =>
      have hr : parseMsg ts d DefEvent.empty =
          (Outcome.ret false, ts1, d1.wrongToken, DefEvent.empty) := by
        simp only [parseMsg, h1]
      rw [parseBody, if_pos (by rw [hd]; decide), hr] at h
      cases h
    | true =>
      obtain ⟨jf, file, d0, e1, k1, k2, _⟩ := seek_inv T_FILE (by decide) ts d ts1 d1
        (by rw [hd]; decide) h1
      obtain ⟨d0r, hres⟩ := parseBody_resume_found jf file ts1 d dfc k k1 k2 hd
      rw [e1, hres] at h
      have hl1 : ts1.length < k + 1 := by
        rw [e1] at hlen
        simp only [List.length_append, List.length_cons] at hlen
        omega
      obtain ⟨e, es, rest, f1, f2, fv, fes, fs, fts⟩ := parseBody_inv (k + 1) ts1
        (d0r.readNext (file :: ts1)).2 dfc file ((readNext_code _ _ _).trans k2) k2
        (readNext_text _ _ _).symm hl1 h
      refine ⟨⟨jf, e.file, e.jl, e.line, e.jm, e.msg, e.extra⟩ :: es, rest,
        ⟨k1, fv, fes⟩, by simp, fs, ?_⟩
      rw [e1, fts, f1]
      simp [laxTokens, LaxEvent.tokens, LaxEvent.afterFile]

/-- An attempt that returned true, from a separator: the block it read. -/
theorem parseNext_inv (ts : List Tok) (d : Private) (dfc : Defect) (hc : d.code = T_INIT)
    (h : (parseNext ts d dfc).1 = Outcome.ret true) :
    ∃ (b : LaxBlock) (rest : List Tok), b.Valid ∧ Stops rest ∧ ts = b.body ++ rest := by
  have hhere := seekForToken_here T_INIT ts d hc.symm
  rcases parseNext_cases ts d dfc with ⟨ts1, d1, h1, hr⟩ | ⟨ts1, d1, ts2, d2, h1, h2, hr⟩ |
    ⟨ts1, d1, ts2, d2, h1, h2, hr⟩
  · rw [hr] at h
    cases h
  · rw [hr] at h
    cases h
  · rw [hhere] at h1
    obtain ⟨rfl, rfl⟩ : ts = ts1 ∧ d = d1 := by
      have := (Prod.mk.inj h1).2
      exact ⟨(Prod.mk.inj this).1, (Prod.mk.inj this).2⟩
    rcases hr with ⟨_, hr⟩ | ⟨hcls, o, ts3, d3, dfc3, hb, hr⟩
    · rw [hr] at h
      cases h
    · obtain ⟨jd, cls, d0, e1, k1, k2, k3⟩ := seek_inv T_DEFECT (by decide) ts d ts2 d2
        (by rw [hc]; decide) h2
      have hd2 : d2.code = T_DEFECT := by rw [k3, readNext_code, k2]
      have ho : o = Outcome.ret true := by
        rcases hr with ⟨ho, _, _⟩ | ⟨_, _, hr⟩ | ⟨hne, hr⟩
        · exact ho
        · rw [hr] at h
          cases h
        · rw [hr] at h
          exact absurd h hne
      obtain ⟨es, rest, hes, hne, hs, hts⟩ := parseBody_inv_first (ts2.length + 1) ts2 d2 _ hd2
        (Nat.lt_succ_self _) (by rw [hb]; exact ho)
      have hcls1 : (parseClass (Private.atToken T_DEFECT cls.text) Defect.empty).1 = true := by
        have := parseClass_ok_transfer d2 Defect.empty dfc hcls
        rw [parseClass_text _ T_DEFECT, k3, readNext_text] at this
        exact this
      refine ⟨⟨jd, cls, es⟩, rest, ⟨k1, k2, hcls1, hne, hes⟩, hs, ?_⟩
      rw [e1, hts]
      simp [LaxBlock.body]


/-! ## Unexpected tokens, for every stream -/

theorem seek_found_flag (X : EToken) (t : Tok) (j : List Tok) (u : Tok) (rest : List Tok)
    (d : Private) (hj : Junk X (t :: j)) (h1 : X ≠ d.code) :
    (seekForToken X (t :: j ++ u :: rest) d).2.2.hasError = true := by
  obtain ⟨a, b, c⟩ := hj t (List.mem_cons_self _ _)
  show (seekForToken X (t :: (j ++ u :: rest)) d).2.2.hasError = true
  rw [seekForToken_skip X t _ d h1 a b c]
  exact (seekForToken_flags X _ _).1 rfl

theorem parseNext_header (ji : List Tok) (sep : Tok) (ts : List Tok) (d : Private)
    (dfc : Defect) (hc : d.code ≠ T_INIT) (hj : Junk T_INIT ji) (hsep : sep.code = T_INIT) :
    ∃ d0 : Private, (d0.readNext (sep :: ts)).2.code = T_INIT ∧
      parseNext (ji ++ sep :: ts) d dfc = parseNext ts (d0.readNext (sep :: ts)).2 dfc := by
  obtain ⟨d0, h⟩ := seek_found T_INIT ji sep ts d hj hsep (fun e => hc e.symm) (by decide)
  have hcode : (d0.readNext (sep :: ts)).2.code = T_INIT := (readNext_code _ _ _).trans hsep
  exact ⟨d0, hcode, parseNext_resume _ _ _ _ dfc h hcode⟩

theorem parseNext_header_eos (ji rest : List Tok) (d : Private) (dfc : Defect)
    (hc : d.code ≠ T_INIT) (hj : Junk T_INIT ji) (hr : AtEos rest) :
    (parseNext (ji ++ rest) d dfc).1 = Outcome.ret false ∧
    (parseNext (ji ++ rest) d dfc).2.2.1.code = T_NULL := by
  have hseek : ∃ ts1 d1, seekForToken T_INIT (ji ++ rest) d = (false, ts1, d1) ∧
      d1.code = T_NULL := by
    induction ji generalizing d with
    | nil =>
      cases rest with
      | nil =>
        refine ⟨[], (d.readNext []).2, ?_, readNext_nil_code d⟩
        rw [List.nil_append, seekForToken, if_neg (fun e => hc e.symm), seekLoop]
      | cons t r =>
        have ht : t.code = T_NULL := hr
        refine ⟨r, (d.readNext (t :: r)).2, ?_, (readNext_code d t r).trans ht⟩
        rw [List.nil_append, seekForToken, if_neg (fun e => hc e.symm), seekLoop]
        simp only [readNext_code, ht, ite_true]
    | cons t j ih =>
      obtain ⟨a, b, c⟩ := hj t (List.mem_cons_self _ _)
      show ∃ ts1 d1, seekForToken T_INIT (t :: (j ++ rest)) d = _ ∧ _
      rw [seekForToken_skip T_INIT t _ d (fun e => hc e.symm) a b c]
      exact ih _ (by show t.code ≠ T_INIT; exact c) (junk_tail hj)
  obtain ⟨ts1, d1, h1, h2⟩ := hseek
  unfold parseNext
  simp only [h1]
  exact ⟨trivial, h2⟩

/-- C5, as the code has it. For every token stream and parser state:
(1) while `seekForToken` waits for a kind, a token of another kind that is
neither separator nor end-of-stream sets the error flag and is skipped;
(2) so the seek returns true at the first token of the awaited kind,
whatever was skipped before it, and (3) returns false when a separator or
the end of the stream comes first. (4) An attempt that starts away from a
separator first seeks one in the same way. From a separator, the attempt
fails, with the error flag set, when a separator or the end of the stream
arrives, after skipped tokens or not, where (5) the defect class, (6) the
first file reference, (7) a position or (8) a message is awaited, whatever
events were read before and whatever was skipped while they were read, and
(9) when a defect-class, position or message token directly follows an
event. (10) In every other case the unexpected tokens are skipped: the
attempt returns true exactly when the stream is a block of class line and
events with skipped tokens in between, up to a separator or the end of the
stream, and it then returns the defect decoded from that block. (11) An
attempt that starts away from a separator and meets the end of the stream
before any separator returns false at the end of the stream. -/
theorem unexpected_token_contract :
    (∀ (token : EToken) (u : Tok) (ts : List Tok) (d : Private),
      token ≠ d.code → u.code ≠ token → u.code ≠ T_NULL → u.code ≠ T_INIT →
      seekForToken token (u :: ts) d =
        seekForToken token ts (d.readNext (u :: ts)).2.wrongToken ∧
      ((d.readNext (u :: ts)).2.wrongToken).hasError = true ∧
      token ≠ ((d.readNext (u :: ts)).2.wrongToken).code) ∧
    (∀ (X : EToken) (j : List Tok) (u : Tok) (rest : List Tok) (d : Private),
      Junk X j → u.code = X → X ≠ d.code → X ≠ T_NULL →
      (∃ d0 : Private,
        seekForToken X (j ++ u :: rest) d = (true, rest, (d0.readNext (u :: rest)).2)) ∧
      (j ≠ [] → (seekForToken X (j ++ u :: rest) d).2.2.hasError = true)) ∧
    (∀ (X : EToken) (j rest : List Tok) (d : Private),
      Junk X j → Stops rest → X ≠ d.code → X ≠ T_INIT →
      (seekForToken X (j ++ rest) d).1 = false) ∧
    (∀ (ji : List Tok) (sep : Tok) (ts : List Tok) (d : Private) (dfc : Defect),
      d.code ≠ T_INIT → Junk T_INIT ji → sep.code = T_INIT →
      ∃ d0 : Private, (d0.readNext (sep :: ts)).2.code = T_INIT ∧
        parseNext (ji ++ sep :: ts) d dfc = parseNext ts (d0.readNext (sep :: ts)).2 dfc) ∧
    (∀ (j rest : List Tok) (d : Private) (dfc : Defect),
      d.code = T_INIT → Junk T_DEFECT j → Stops rest →
      AttemptFailed (parseNext (j ++ rest) d dfc)) ∧
    (∀ (jd : List Tok) (cls : Tok) (j rest : List Tok) (d : Private) (dfc : Defect),
      d.code = T_INIT → Junk T_DEFECT jd → cls.code = T_DEFECT →
      (parseClass (Private.atToken T_DEFECT cls.text) Defect.empty).1 = true →
      Junk T_FILE j → Stops rest →
      AttemptFailed (parseNext (jd ++ cls :: (j ++ rest)) d dfc)) ∧
    (∀ (jd : List Tok) (cls : Tok) (es : List LaxEvent) (jf : List Tok) (la : Tok)
      (j rest : List Tok) (d : Private) (dfc : Defect),
      d.code = T_INIT → Junk T_DEFECT jd → cls.code = T_DEFECT →
      (parseClass (Private.atToken T_DEFECT cls.text) Defect.empty).1 = true →
      LaxEvents es → Junk T_FILE jf → (es ≠ [] → jf = []) → la.code = T_FILE →
      Junk T_LINE j → Stops rest →
      AttemptFailed
        (parseNext (jd ++ cls :: (laxTokens es ++ (jf ++ la :: (j ++ rest)))) d dfc)) ∧
    (∀ (jd : List Tok) (cls : Tok) (es : List LaxEvent) (jf : List Tok) (la : Tok)
      (jl : List Tok) (line : Tok) (j rest : List Tok) (d : Private) (dfc : Defect),
      d.code = T_INIT → Junk T_DEFECT jd → cls.code = T_DEFECT →
      (parseClass (Private.atToken T_DEFECT cls.text) Defect.empty).1 = true →
      LaxEvents es → Junk T_FILE jf → (es ≠ [] → jf = []) → la.code = T_FILE →
      Junk T_LINE jl → line.code = T_LINE →
      (parseLine (Private.atToken T_LINE line.text) DefEvent.empty).1 = Outcome.ret true →
      Junk T_MSG j → Stops rest →
      AttemptFailed
        (parseNext
          (jd ++ cls :: (laxTokens es ++ (jf ++ la :: (jl ++ line :: (j ++ rest))))) d dfc)) ∧
    (∀ (jd : List Tok) (cls : Tok) (es : List LaxEvent) (e : LaxEvent) (u : Tok)
      (rest : List Tok) (d : Private) (dfc : Defect),
      d.code = T_INIT → Junk T_DEFECT jd → cls.code = T_DEFECT →
      (parseClass (Private.atToken T_DEFECT cls.text) Defect.empty).1 = true →
      LaxEvents es → Junk T_FILE e.jf → (es ≠ [] → e.jf = []) → e.Valid →
      (u.code = T_DEFECT ∨ u.code = T_LINE ∨ u.code = T_MSG) →
      AttemptFailed
        (parseNext (jd ++ cls :: (laxTokens es ++ (e.tokens ++ u :: rest))) d dfc)) ∧
    (∀ (ts : List Tok) (d : Private) (dfc : Defect), d.code = T_INIT →
      (((parseNext ts d dfc).1 = Outcome.ret true ↔
          ∃ (b : LaxBlock) (rest : List Tok), b.Valid ∧ Stops rest ∧ ts = b.body ++ rest) ∧
        ∀ (b : LaxBlock) (rest : List Tok), b.Valid → Stops rest → ts = b.body ++ rest →
          (parseNext ts d dfc).1 = Outcome.ret true ∧
          (parseNext ts d dfc).2.1 = rest.tail ∧
          (parseNext ts d dfc).2.2.2 = b.decode)) ∧
    (∀ (ji rest : List Tok) (d : Private) (dfc : Defect),
      d.code ≠ T_INIT → Junk T_INIT ji → AtEos rest →
      (parseNext (ji ++ rest) d dfc).1 = Outcome.ret false ∧
      (parseNext (ji ++ rest) d dfc).2.2.1.code = T_NULL) := by
  refine ⟨?_, ?_, ?_, ?_, ?_, ?_, ?_, ?_, ?_, ?_, ?_⟩
  · intro token u ts d h1 h2 h3 h4
    exact ⟨seekForToken_skip token u ts d h1 h2 h3 h4, rfl, fun e => h2 e.symm⟩
  · intro X j u rest d hj hu h1 h3
    refine ⟨seek_found X j u rest d hj hu h1 h3, fun hne => ?_⟩
    cases j with
    | nil => exact absurd rfl hne
    | cons t j => exact seek_found_flag X t j u rest d hj h1
  · intro X j rest d hj hs h1 h2
    obtain ⟨ts1, d1, h⟩ := seek_stop X j rest d hj hs h1 h2
    rw [h]
  · intro ji sep ts d dfc hc hj hsep
    exact parseNext_header ji sep ts d dfc hc hj hsep
  · intro j rest d dfc hc hj hs
    exact parseNext_lax_stop_class j rest d dfc hc hj hs
  · intro jd cls j rest d dfc hc hjd hcl hcls hj hs
    exact parseNext_lax_body_fail jd cls (j ++ rest) d dfc hc hjd hcl hcls
      (fun d2 dfc1 n hd hn => parseBody_lax_fail_file j rest hj hs d2 dfc1 n hd hn)
  · intro jd cls es jf la j rest d dfc hc hjd hcl hcls hes hjf hjf2 hla hj hs
    exact parseNext_lax_body_fail jd cls _ d dfc hc hjd hcl hcls
      (fun d2 dfc1 n hd hn => parseBody_lax_fail es jf la (j ++ rest) hes hjf hjf2 hla
        (fun d0 h0 => parseMsg_lax_stop_line j rest d0 DefEvent.empty h0 hj hs) d2 dfc1 n hd hn)
  · intro jd cls es jf la jl line j rest d dfc hc hjd hcl hcls hes hjf hjf2 hla hjl hl hpl hj hs
    exact parseNext_lax_body_fail jd cls _ d dfc hc hjd hcl hcls
      (fun d2 dfc1 n hd hn => parseBody_lax_fail es jf la (jl ++ line :: (j ++ rest)) hes hjf
        hjf2 hla
        (fun d0 h0 => parseMsg_lax_stop_msg jl line j rest d0 DefEvent.empty h0 hjl hl hpl hj hs)
        d2 dfc1 n hd hn)
  · intro jd cls es e u rest d dfc hc hjd hcl hcls hes hjf hjf2 hv hu
    have e0 : e.tokens ++ u :: rest = e.jf ++ e.file :: (e.afterFile ++ u :: rest) := by
      simp [LaxEvent.tokens]
    rw [e0]
    exact parseNext_lax_body_fail jd cls _ d dfc hc hjd hcl hcls
      (fun d2 dfc1 n hd hn => parseBody_lax_fail es e.jf e.file (e.afterFile ++ u :: rest) hes
        hjf hjf2 hv.1
        (fun d0 h0 => parseMsg_lax_bad_after e u rest d0 h0 hv hu) d2 dfc1 n hd hn)
  · intro ts d dfc hc
    have hfwd : ∀ (b : LaxBlock) (rest : List Tok), b.Valid → Stops rest → ts = b.body ++ rest →
        (parseNext ts d dfc).1 = Outcome.ret true ∧ (parseNext ts d dfc).2.1 = rest.tail ∧
        (parseNext ts d dfc).2.2.2 = b.decode := by
      intro b rest hv hs hts
      obtain ⟨d0, h⟩ := parseNext_lax b rest d dfc hc hv hs
      rw [hts, h]
      exact ⟨rfl, rfl, rfl⟩
    refine ⟨⟨fun h => parseNext_inv ts d dfc hc h, ?_⟩, hfwd⟩
    rintro ⟨b, rest, hv, hs, hts⟩
    exact (hfwd b rest hv hs hts).1
  · intro ji rest d dfc hc hj hr
    exact parseNext_header_eos ji rest d dfc hc hj hr

/-- C5 (as the code has it), instance: the position is awaited, a message
token comes and is skipped, then a separator arrives; the attempt fails. -/
theorem unexpected_token_contract_witness :
    AttemptFailed (parseNext
      [Tok.clean T_DEFECT "A:".toList, Tok.clean T_FILE "f.c".toList,
        Tok.clean T_MSG "junk".toList, Tok.clean T_INIT "Error:".toList,
        Tok.clean T_DEFECT "B:".toList]
      (Private.atToken T_INIT "Error:".toList) Defect.empty) :=
  unexpected_token_contract.2.2.2.2.2.2.1 [] (Tok.clean T_DEFECT "A:".toList) [] []
    (Tok.clean T_FILE "f.c".toList) [Tok.clean T_MSG "junk".toList]
    [Tok.clean T_INIT "Error:".toList, Tok.clean T_DEFECT "B:".toList]
    (Private.atToken T_INIT "Error:".toList) Defect.empty rfl
    (fun t ht => (by cases ht)) rfl (by decide) trivial (fun t ht => (by cases ht))
    (fun _ => rfl) rfl (by simp [Junk, Tok.clean]) (Or.inr rfl)


/-! ## Continuation merge, for every stream -/

theorem getNextLoop_last (n : Nat) :
    ∀ (ts : List Tok) (d : Private) (x : Defect), (getNextLoop n ts d x).1 = Outcome.ret true →
      ∃ (pre ts0 : List Tok) (d0 : Private) (x0 : Defect), ts = pre ++ ts0 ∧
        parseNext ts0 d0 x0 = getNextLoop n ts d x := by
  induction n with
  | zero => intro ts d x h; cases h
  | succ k ih =>
    intro ts d x
    have hsuf := (parseNext_position ts d x).1
    rw [getNextLoop]
    split
    · rename_i r hr
      intro _
      exact ⟨[], ts, d, x, rfl, hr⟩
    · rename_i ts1 d1 dfc1 hr
      rw [hr] at hsuf
      split
      · intro h
        obtain ⟨pre, ts0, d0, x0, e1, e2⟩ := ih ts1 d1 dfc1 h
        obtain ⟨p, hp⟩ := hsuf
        exact ⟨p ++ pre, ts0, d0, x0, by rw [List.append_assoc, ← e1, hp], e2⟩
      · intro h; cases h
    · rename_i r h1 h2
      intro h
      exact (h1 _ (Prod.ext h rfl)).elim

theorem parseNext_to_sep (ts : List Tok) (d : Private) (x : Defect)
    (h : (parseNext ts d x).1 = Outcome.ret true) :
    ∃ (pre ts1 : List Tok) (d1 : Private), ts = pre ++ ts1 ∧ d1.code = T_INIT ∧
      parseNext ts d x = parseNext ts1 d1 x := by
  by_cases hc : d.code = T_INIT
  · exact ⟨[], ts, d, rfl, hc, rfl⟩
  · cases h1 : seekForToken T_INIT ts d with
    | mk b1 r1 =>
      obtain ⟨ts1, d1⟩ := r1
      cases b1 with
      | false =>
        have hr : parseNext ts d x = (Outcome.ret false, ts1, d1, x) := by
          simp only [parseNext, h1]
        rw [hr] at h
        cases h
      | true =>
        have hc1 : d1.code = T_INIT := by
          have := (seekForToken_progress T_INIT ts d).2.1
          rw [h1] at this
          exact this rfl
        have hsuf := (seekForToken_pos T_INIT ts d).1
        rw [h1] at hsuf
        obtain ⟨p, hp⟩ := hsuf
        exact ⟨p, ts1, d1, hp.symm, hc1, parseNext_resume ts ts1 d d1 x h1 hc1⟩

theorem countMsg_append (a b : List Tok) : countMsg (a ++ b) = countMsg a + countMsg b := by
  simp [countMsg, List.filter_append]

theorem countMsg_cons_msg (t : Tok) (l : List Tok) (h : t.code = T_MSG) :
    countMsg (t :: l) = countMsg l + 1 := by
  simp [countMsg, h]

theorem countMsg_cons_other (t : Tok) (l : List Tok) (h : t.code ≠ T_MSG) :
    countMsg (t :: l) = countMsg l := by
  simp [countMsg, h]

theorem countMsg_extra (l : List Tok) (h : ∀ t ∈ l, t.code = T_MSG_EX) : countMsg l = 0 := by
  induction l with
  | nil => rfl
  | cons t l ih =>
    rw [countMsg_cons_other t l (by rw [h t (List.mem_cons_self _ _)]; decide)]
    exact ih (fun x hx => h x (List.mem_cons_of_mem _ hx))

theorem countMsg_event (e : LaxEvent) (hv : e.Valid) :
    countMsg e.tokens = countMsg (e.jf ++ (e.jl ++ e.jm)) + 1 := by
  obtain ⟨hf, _, hl, _, _, hm, hex⟩ := hv
  simp only [LaxEvent.tokens, LaxEvent.afterFile, countMsg_append]
  rw [countMsg_cons_other e.file _ (by rw [hf]; decide), countMsg_append,
    countMsg_cons_other e.line _ (by rw [hl]; decide), countMsg_append,
    countMsg_cons_msg e.msg _ hm, countMsg_extra e.extra hex]
  omega

theorem countMsg_events (es : List LaxEvent) (hv : ∀ e ∈ es, e.Valid) :
    countMsg (laxTokens es) =
      es.length + countMsg (es.map (fun e => e.jf ++ (e.jl ++ e.jm))).flatten := by
  induction es with
  | nil => rfl
  | cons e es ih =>
    simp only [laxTokens, List.map_cons, List.flatten_cons, countMsg_append, List.length_cons]
    rw [countMsg_event e (hv e (List.mem_cons_self _ _)),
      ih (fun x hx => hv x (List.mem_cons_of_mem _ hx))]
    simp only [countMsg_append]
    omega

theorem laxEvents_valid (es : List LaxEvent) (h : LaxEvents es) : ∀ e ∈ es, e.Valid := by
  cases es with
  | nil => intro e he; cases he
  | cons e0 es =>
    intro e he
    rcases List.mem_cons.mp he with he | he
    · rw [he]
      exact h.2.1
    · exact (h.2.2 e he).2

theorem countMsg_block (b : LaxBlock) (hv : b.Valid) :
    countMsg b.body = b.events.length + countMsg b.skipped := by
  obtain ⟨_, hcl, _, _, hes⟩ := hv
  simp only [LaxBlock.body, LaxBlock.skipped, countMsg_append]
  rw [countMsg_cons_other b.cls _ (by rw [hcl]; decide),
    countMsg_events b.events (laxEvents_valid b.events hes)]
  omega

theorem laxBlock_decode_events (b : LaxBlock) (h : b.events ≠ []) :
    b.decode.events = (b.events.map LaxEvent.block).map EventBlock.decode :=
  decode_events ⟨[], b.cls.text, b.events.map LaxEvent.block⟩ (by simpa using h)

/-- C9, as the code has it: continuation merge. For every token stream and
parser state, when `getNext` returns a defect, the stream holds a block the
call read it from: class line and events, each event with its file
reference, position, message token and the message-continuation tokens that
directly follow it, and with the tokens that were skipped while these were
awaited. The defect has one event per event of the block, so the
continuation tokens add no event; the message of each event is the body the
message decoder gives for its message token, followed by each continuation
text after a newline, in order (the body alone when there is none). The
number of events is the number of message tokens of the block less the
message tokens that were skipped: it equals the number of message tokens
only when none was skipped. -/
theorem continuation_merge (ts : List Tok) (d : Private) (dfc : Defect)
    (h : (getNext ts d dfc).1 = Outcome.ret true) :
    ∃ (pre : List Tok) (b : LaxBlock) (rest : List Tok),
      ReadAs ts (getNext ts d dfc) pre b rest ∧
      (getNext ts d dfc).2.2.2.events.length = b.events.length ∧
      (∀ (i : Nat) (e : LaxEvent), b.events[i]? = some e →
        ∃ evt, (getNext ts d dfc).2.2.2.events[i]? = some evt ∧
          evt.msg = (parseMsgText e.msg.text DefEvent.empty).msg ++
            (e.extra.map (fun t => '\n' :: t.text)).flatten) ∧
      countMsg b.body = (getNext ts d dfc).2.2.2.events.length + countMsg b.skipped ∧
      (countMsg b.skipped = 0 →
        (getNext ts d dfc).2.2.2.events.length = countMsg b.body) := by
  obtain ⟨pre0, ts0, d0, x0, e0, hlast⟩ := getNextLoop_last (ts.length + 2) ts d dfc h
  have hg : getNext ts d dfc = parseNext ts0 d0 x0 := hlast.symm
  rw [hg] at h ⊢
  obtain ⟨pre1, ts1, d1, e1, hc1, hres⟩ := parseNext_to_sep ts0 d0 x0 h
  rw [hres] at h ⊢
  obtain ⟨b, rest, hv, hs, hts⟩ := parseNext_inv ts1 d1 x0 hc1 h
  obtain ⟨d2, hpn⟩ := parseNext_lax b rest d1 x0 hc1 hv hs
  rw [hts, hpn]
  have hne : b.events ≠ [] := hv.2.2.2.1
  have hev := laxBlock_decode_events b hne
  have hcount := countMsg_block b hv
  have hlen : b.decode.events.length = b.events.length := by
    rw [hev, List.length_map, List.length_map]
  refine ⟨pre0 ++ pre1, b, rest, ⟨?_, hv, hs, rfl, rfl⟩, hlen, ?_, ?_, ?_⟩
  · rw [e0, e1, hts, List.append_assoc]
  · intro i e hi
    refine ⟨e.block.decode, ?_, ?_⟩
    · show b.decode.events[i]? = some e.block.decode
      rw [hev, List.getElem?_map, List.getElem?_map, hi]
      rfl
    · simp only [EventBlock.decode, LaxEvent.block]
      rw [mergeExtra_eq, parseMsgText_msg _ _ DefEvent.empty, List.map_map]
      rfl
  · show countMsg b.body = b.decode.events.length + countMsg b.skipped
    rw [hlen]
    exact hcount
  · intro h0
    show b.decode.events.length = countMsg b.body
    rw [hlen, hcount, h0]
    rfl

/-- C9, witness of the spec: a message followed by the continuations
`extra line 1` and `extra line 2`. -/
theorem continuation_merge_witness :
    (getNext
        [Tok.clean T_INIT "Error:".toList, Tok.clean T_DEFECT "A:".toList,
          Tok.clean T_FILE "f.c".toList, Tok.clean T_LINE ":1:".toList,
          Tok.clean T_MSG "first line".toList, Tok.clean T_MSG_EX "extra line 1".toList,
          Tok.clean T_MSG_EX "extra line 2".toList]
        Private.init Defect.empty).2.2.2.events.map DefEvent.msg =
      ["first line\nextra line 1\nextra line 2".toList] ∧
    ∃ (pre : List Tok) (b : LaxBlock) (rest : List Tok),
      ReadAs
        [Tok.clean T_INIT "Error:".toList, Tok.clean T_DEFECT "A:".toList,
          Tok.clean T_FILE "f.c".toList, Tok.clean T_LINE ":1:".toList,
          Tok.clean T_MSG "first line".toList, Tok.clean T_MSG_EX "extra line 1".toList,
          Tok.clean T_MSG_EX "extra line 2".toList]
        (getNext
          [Tok.clean T_INIT "Error:".toList, Tok.clean T_DEFECT "A:".toList,
            Tok.clean T_FILE "f.c".toList, Tok.clean T_LINE ":1:".toList,
            Tok.clean T_MSG "first line".toList, Tok.clean T_MSG_EX "extra line 1".toList,
            Tok.clean T_MSG_EX "extra line 2".toList]
          Private.init Defect.empty) pre b rest ∧
      b.events.length = 1 :=
  ⟨by decide,
    match continuation_merge
        [Tok.clean T_INIT "Error:".toList, Tok.clean T_DEFECT "A:".toList,
          Tok.clean T_FILE "f.c".toList, Tok.clean T_LINE ":1:".toList,
          Tok.clean T_MSG "first line".toList, Tok.clean T_MSG_EX "extra line 1".toList,
          Tok.clean T_MSG_EX "extra line 2".toList]
        Private.init Defect.empty (by decide) with
    | ⟨pre, b, rest, hr, hl, _⟩ => ⟨pre, b, rest, hr, hl.symm.trans (by decide)⟩⟩

/-- C9 fails as stated: a message token that arrives where the position is
awaited is skipped, so the block of the returned defect holds two message
tokens and the defect has one event. -/
theorem continuation_merge_counterexample :
    (getNext
        [Tok.clean T_INIT "Error:".toList, Tok.clean T_DEFECT "A:".toList,
          Tok.clean T_FILE "f.c".toList, Tok.clean T_MSG "junk".toList,
          Tok.clean T_LINE ":1:".toList, Tok.clean T_MSG "m".toList]
        Private.init Defect.empty).1 = Outcome.ret true ∧
    (getNext
        [Tok.clean T_INIT "Error:".toList, Tok.clean T_DEFECT "A:".toList,
          Tok.clean T_FILE "f.c".toList, Tok.clean T_MSG "junk".toList,
          Tok.clean T_LINE ":1:".toList, Tok.clean T_MSG "m".toList]
        Private.init Defect.empty).2.2.2.events.length = 1 ∧
    countMsg
        [Tok.clean T_INIT "Error:".toList, Tok.clean T_DEFECT "A:".toList,
          Tok.clean T_FILE "f.c".toList, Tok.clean T_MSG "junk".toList,
          Tok.clean T_LINE ":1:".toList, Tok.clean T_MSG "m".toList] = 2 := by
  decide

end CsParser
